import Mathlib

/-!
# Verification of the `code_edit` diff engine

A shallow embedding of `src/code_edit/core/diff.py` together with the parts of
Python's `difflib` library that it calls (`SequenceMatcher` and `unified_diff`),
and proofs about the embedded definitions.

Python strings are modelled as `List Char`; machine integers that can go
negative (the two line counters of `create_diff_view`) are modelled as `Int`.
Python dicts (insertion-ordered) are modelled as association lists where an
update of an existing key keeps its position.
-/

namespace CodeEdit

/-! ## Python string primitives -/

/-- The characters Python's `str.splitlines` treats as line boundaries. -/
def isLineBreak (c : Char) : Bool :=
  c = '\n' || c = '\r' || c = '\x0b' || c = '\x0c' ||
  c = Char.ofNat 0x1c || c = Char.ofNat 0x1d || c = Char.ofNat 0x1e ||
  c = Char.ofNat 0x85 || c = Char.ofNat 0x2028 || c = Char.ofNat 0x2029

/-- Helper for `pySplitlines`: `acc` holds the (reversed) current line;
`\r\n` counts as a single boundary. -/
def pySplitlinesAux : List Char → List Char → List (List Char)
  | acc, [] => if acc.isEmpty then [] else [acc.reverse]
  | acc, '\r' :: '\n' :: rest => (acc.reverse ++ ['\r', '\n']) :: pySplitlinesAux [] rest
  | acc, c :: rest =>
    if isLineBreak c then (acc.reverse ++ [c]) :: pySplitlinesAux [] rest
    else pySplitlinesAux (c :: acc) rest

/-- Python `str.splitlines(keepends=True)`. -/
def pySplitlines (s : List Char) : List (List Char) := pySplitlinesAux [] s

/-- Helper for `natToChars`, structurally recursive on a fuel argument;
`fuel = n` always suffices since the value shrinks ten-fold per step. -/
def natToCharsGo : Nat → Nat → List Char → List Char
  | 0, n, acc => Char.ofNat (48 + n % 10) :: acc
  | fuel + 1, n, acc =>
    if n < 10 then Char.ofNat (48 + n % 10) :: acc
    else natToCharsGo fuel (n / 10) (Char.ofNat (48 + n % 10) :: acc)

/-- Decimal digits of a natural number, most significant first (Python `str(n)`
for `n ≥ 0`). -/
def natToChars (n : Nat) : List Char := natToCharsGo n n []

/-- Python `str(i)` for an `int`. -/
def intToChars (i : Int) : List Char :=
  if i < 0 then '-' :: natToChars i.natAbs else natToChars i.toNat

/-- Value of a list of decimal digit characters. -/
def digitsToNat (l : List Char) : Nat :=
  l.foldl (fun n c => n * 10 + (c.toNat - 48)) 0

/-- Python `int(s)`.  In the source it is applied only to captures of the
regex group `(\d+)`, i.e. nonempty digit strings, so the full `int` literal
grammar (sign, spaces, underscores) is unreachable and not modelled; on any
other input the real `int` raises `ValueError`, modelled as `Except.error`. -/
def pyInt (s : List Char) : Except String Int :=
  if s ≠ [] ∧ s.all (·.isDigit) then .ok (digitsToNat s : Nat)
  else .error ("invalid literal for int() with base 10")

/-- Python slice `l[i:j]` for `0 ≤ i`, `0 ≤ j` (out-of-range indices clamp,
exactly as `drop`/`take` do). -/
def pySlice (l : List α) (i j : Nat) : List α := (l.drop i).take (j - i)

/-! ## `difflib.SequenceMatcher`

Both call sites construct `SequenceMatcher(None, a, b)`: no junk predicate, so
`bjunk = ∅`, and the default `autojunk=True` is in effect.  With `bjunk = ∅`
the two "junk" extension loops of `find_longest_match` never fire and the two
ordinary extension loops have a vacuously true junk condition, so only the two
ordinary loops are modelled.  Autojunk ("popular" elements) is modelled: it
drops elements from `b2j` when `len(b) >= 200`. -/

variable {α : Type} [DecidableEq α]

/-- Ascending list of indices at which `x` occurs in `b` — the `b2j` lists
built by `__chain_b` (`setdefault`/`append` in index order). -/
def occIndices (b : List α) (x : α) : List Nat :=
  (List.range b.length).filter (fun j => decide (b.get? j = some x))

/-- Autojunk: an element is "popular" when `len(b) >= 200` and it occupies
more than `len(b) // 100 + 1` positions. -/
def isPopular (b : List α) (x : α) : Bool :=
  decide (200 ≤ b.length) && decide (b.length / 100 + 1 < b.count x)

/-- `b2j.get(x, [])` after `__chain_b` removed popular elements. -/
def b2jGet (b : List α) (x : α) : List Nat :=
  if isPopular b x then [] else occIndices b x

/-- The running best match of the `find_longest_match` DP. -/
structure Best where
  besti : Nat
  bestj : Nat
  bestsize : Nat
deriving DecidableEq, Repr

/-- Inner loop of `find_longest_match` over `b2j[a[i]]` for one value of `i`:
builds `newj2len` and updates the best match.  `if j < blo: continue`,
`if j >= bhi: break`; the lists are ascending so `break` just discards the
tail.  `j2len` is the map from the previous iteration (`j2len.get(j-1, 0)`,
where key `-1` is always absent, hence the `j = 0` case). -/
def innerLoop (blo bhi i : Nat) (j2len : Nat → Nat) :
    List Nat → (Nat → Nat) → Best → ((Nat → Nat) × Best)
  | [], new, best => (new, best)
  | j :: js, new, best =>
    if j < blo then innerLoop blo bhi i j2len js new best
    else if bhi ≤ j then (new, best)
    else
      -- k = newj2len[j] = j2len.get(j-1, 0) + 1, written out at each use
      innerLoop blo bhi i j2len js
        (Function.update new j ((if j = 0 then 0 else j2len (j - 1)) + 1))
        (if best.bestsize < (if j = 0 then 0 else j2len (j - 1)) + 1 then
          ⟨i + 1 - ((if j = 0 then 0 else j2len (j - 1)) + 1),
           j + 1 - ((if j = 0 then 0 else j2len (j - 1)) + 1),
           (if j = 0 then 0 else j2len (j - 1)) + 1⟩
         else best)

/-- Outer loop of the `find_longest_match` DP over `i in range(alo, ahi)`. -/
def dpLoop (a b : List α) (blo bhi : Nat) :
    List Nat → (Nat → Nat) → Best → Best
  | [], _, best => best
  | i :: is, j2len, best =>
    let js := match a.get? i with | some x => b2jGet b x | none => []
    let (new, best') := innerLoop blo bhi i j2len js (fun _ => 0) best
    dpLoop a b blo bhi is new best'

/-- First `while` loop of `find_longest_match`: extend the best match
downwards over equal elements.  Structurally recursive on a fuel argument;
calling it with `fuel = bi` is exact, since `bi` drops by one per step and
the loop guard `alo < bi` fails at `bi = 0` anyway. -/
def extendLo (a b : List α) (alo blo : Nat) : Nat → Nat → Nat → Nat → Nat × Nat × Nat
  | 0, bi, bj, k => (bi, bj, k)
  | fuel + 1, bi, bj, k =>
    if (decide (alo < bi) && decide (blo < bj) &&
        (match a.get? (bi - 1), b.get? (bj - 1) with
         | some x, some y => decide (x = y)
         | _, _ => false)) = true then
      extendLo a b alo blo fuel (bi - 1) (bj - 1) (k + 1)
    else (bi, bj, k)

/-- Second `while` loop of `find_longest_match`: extend the best match
upwards over equal elements; returns the final size.  Structurally recursive
on a fuel argument; `fuel = ahi - (bi + k)` is exact, since `k` grows by one
per step and the loop guard `bi + k < ahi` fails when the fuel is spent. -/
def extendHi (a b : List α) (ahi bhi : Nat) : Nat → Nat → Nat → Nat → Nat
  | 0, _, _, k => k
  | fuel + 1, bi, bj, k =>
    if (decide (bi + k < ahi) && decide (bj + k < bhi) &&
        (match a.get? (bi + k), b.get? (bj + k) with
         | some x, some y => decide (x = y)
         | _, _ => false)) = true then
      extendHi a b ahi bhi fuel bi bj (k + 1)
    else k

/-- `SequenceMatcher.find_longest_match(alo, ahi, blo, bhi)`. -/
def findLongestMatch (a b : List α) (alo ahi blo bhi : Nat) : Nat × Nat × Nat :=
  let best := dpLoop a b blo bhi (List.range' alo (ahi - alo)) (fun _ => 0) ⟨alo, blo, 0⟩
  let e := extendLo a b alo blo best.besti best.besti best.bestj best.bestsize
  (e.1, e.2.1, extendHi a b ahi bhi (ahi - (e.1 + e.2.2)) e.1 e.2.1 e.2.2)

/-! ### Slice lemmas -/

theorem pySlice_self (l : List α) (i : Nat) : pySlice l i i = [] := by
  simp [pySlice]

theorem pySlice_append (l : List α) {i j k : Nat} (h1 : i ≤ j) (h2 : j ≤ k) :
    pySlice l i j ++ pySlice l j k = pySlice l i k := by
  unfold pySlice
  have e1 : k - i = (j - i) + (k - j) := by omega
  rw [e1, List.take_add, List.drop_drop]
  have e2 : i + (j - i) = j := by omega
  rw [e2]

theorem pySlice_one {l : List α} {i : Nat} {x : α} (h : l.get? i = some x) :
    pySlice l i (i + 1) = [x] := by
  have hlen : i < l.length := by
    by_contra hc
    rw [List.get?_eq_none.mpr (by omega)] at h
    cases h
  unfold pySlice
  rw [List.drop_eq_getElem_cons hlen]
  have : l[i] = x := by
    have := List.get?_eq_getElem? l i
    rw [this, List.getElem?_eq_getElem hlen] at h
    exact (Option.some.injEq _ _).mp h
  simp [this]

theorem pySlice_all (l : List α) : pySlice l 0 l.length = l := by
  simp [pySlice]

/-! ### Content soundness of `find_longest_match`

A strengthening of the bounds invariants: the best match and every `j2len`
entry describe genuinely equal slices of `a` and `b`. -/

/-- Match-aware invariant of the DP `j2len` maps. -/
def GoodMapM (a b : List α) (al blo bhi bound : Nat) (f : Nat → Nat) : Prop :=
  ∀ j, f j ≠ 0 → al + f j ≤ bound ∧ blo + f j ≤ j + 1 ∧ j < bhi ∧
    pySlice a (bound - f j) bound = pySlice b (j + 1 - f j) (j + 1)

/-- Match-aware invariant of the running best match. -/
def GoodBestM (a b : List α) (al ahi blo bhi : Nat) (best : Best) : Prop :=
  best = ⟨al, blo, 0⟩ ∨
  (best.bestsize ≠ 0 ∧ al ≤ best.besti ∧ best.besti + best.bestsize ≤ ahi ∧
   blo ≤ best.bestj ∧ best.bestj + best.bestsize ≤ bhi ∧
   pySlice a best.besti (best.besti + best.bestsize) =
     pySlice b best.bestj (best.bestj + best.bestsize))

theorem innerLoop_sound {a b : List α} {al ahi blo bhi i : Nat} {f : Nat → Nat}
    (hal : ahi ≤ a.length)
    (hia : al ≤ i) (hia2 : i < ahi)
    (hf : GoodMapM a b al blo bhi i f) :
    ∀ (js : List Nat) (new : Nat → Nat) (best : Best),
      (∀ j ∈ js, b.get? j = a.get? i) →
      GoodMapM a b al blo bhi (i + 1) new →
      GoodBestM a b al ahi blo bhi best →
      GoodMapM a b al blo bhi (i + 1) (innerLoop blo bhi i f js new best).1 ∧
      GoodBestM a b al ahi blo bhi (innerLoop blo bhi i f js new best).2 := by
  intro js
  induction js with
  | nil => intro new best _ hnew hbest; exact ⟨hnew, hbest⟩
  | cons j js ih =>
    intro new best hjs hnew hbest
    have hjs' : ∀ j' ∈ js, b.get? j' = a.get? i :=
      fun j' hj' => hjs j' (List.mem_cons_of_mem j hj')
    have hjb : b.get? j = a.get? i := hjs j (List.mem_cons_self j js)
    by_cases h1 : j < blo
    · rw [innerLoop, if_pos h1]; exact ih new best hjs' hnew hbest
    · by_cases h2 : bhi ≤ j
      · rw [innerLoop, if_neg h1, if_pos h2]; exact ⟨hnew, hbest⟩
      · rw [innerLoop, if_neg h1, if_neg h2]
        obtain ⟨x, hx⟩ : ∃ x, a.get? i = some x := by
          cases hgx : a.get? i with
          | none =>
            have := List.get?_eq_none.mp hgx
            omega
          | some x => exact ⟨x, rfl⟩
        have hone : pySlice a i (i + 1) = [x] := pySlice_one hx
        have honeb : pySlice b j (j + 1) = [x] := by
          refine pySlice_one ?_
          rw [hjb, hx]
        have hkprops : al + ((if j = 0 then 0 else f (j - 1)) + 1) ≤ i + 1 ∧
            blo + ((if j = 0 then 0 else f (j - 1)) + 1) ≤ j + 1 ∧
            pySlice a (i + 1 - ((if j = 0 then 0 else f (j - 1)) + 1)) (i + 1) =
              pySlice b (j + 1 - ((if j = 0 then 0 else f (j - 1)) + 1)) (j + 1) := by
          by_cases hj0 : j = 0
          · rw [if_pos hj0]
            subst hj0
            refine ⟨by omega, by omega, ?_⟩
            simpa using hone.trans honeb.symm
          · rw [if_neg hj0]
            by_cases hfz : f (j - 1) = 0
            · rw [hfz]
              refine ⟨by omega, by omega, ?_⟩
              simpa using hone.trans honeb.symm
            · obtain ⟨p1, p2, p3, p4⟩ := hf (j - 1) hfz
              refine ⟨by omega, by omega, ?_⟩
              have ej : j - 1 + 1 = j := by omega
              rw [ej] at p4
              have e1 : i + 1 - (f (j - 1) + 1) = i - f (j - 1) := by omega
              have e2 : j + 1 - (f (j - 1) + 1) = j - f (j - 1) := by omega
              rw [e1, e2]
              calc pySlice a (i - f (j - 1)) (i + 1)
                  = pySlice a (i - f (j - 1)) i ++ pySlice a i (i + 1) :=
                    (pySlice_append a (by omega) (by omega)).symm
                _ = pySlice b (j - f (j - 1)) j ++ pySlice b j (j + 1) := by
                    rw [hone, honeb, p4]
                _ = pySlice b (j - f (j - 1)) (j + 1) :=
                    pySlice_append b (by omega) (by omega)
        obtain ⟨hp1, hp2, hp3⟩ := hkprops
        refine ih _ _ hjs' ?_ ?_
        · intro j' hj'
          by_cases hjj : j' = j
          · subst hjj
            rw [Function.update_same] at hj' ⊢
            exact ⟨hp1, hp2, by omega, hp3⟩
          · rw [Function.update_noteq hjj] at hj' ⊢
            exact hnew j' hj'
        · by_cases hu : best.bestsize < (if j = 0 then 0 else f (j - 1)) + 1
          · rw [if_pos hu]
            right
            show (if j = 0 then 0 else f (j - 1)) + 1 ≠ 0 ∧
              al ≤ i + 1 - ((if j = 0 then 0 else f (j - 1)) + 1) ∧
              i + 1 - ((if j = 0 then 0 else f (j - 1)) + 1) +
                ((if j = 0 then 0 else f (j - 1)) + 1) ≤ ahi ∧
              blo ≤ j + 1 - ((if j = 0 then 0 else f (j - 1)) + 1) ∧
              j + 1 - ((if j = 0 then 0 else f (j - 1)) + 1) +
                ((if j = 0 then 0 else f (j - 1)) + 1) ≤ bhi ∧
              pySlice a (i + 1 - ((if j = 0 then 0 else f (j - 1)) + 1))
                  (i + 1 - ((if j = 0 then 0 else f (j - 1)) + 1) +
                    ((if j = 0 then 0 else f (j - 1)) + 1)) =
                pySlice b (j + 1 - ((if j = 0 then 0 else f (j - 1)) + 1))
                  (j + 1 - ((if j = 0 then 0 else f (j - 1)) + 1) +
                    ((if j = 0 then 0 else f (j - 1)) + 1))
            have e1 : i + 1 - ((if j = 0 then 0 else f (j - 1)) + 1) +
                ((if j = 0 then 0 else f (j - 1)) + 1) = i + 1 := by omega
            have e2 : j + 1 - ((if j = 0 then 0 else f (j - 1)) + 1) +
                ((if j = 0 then 0 else f (j - 1)) + 1) = j + 1 := by omega
            rw [e1, e2]
            exact ⟨by omega, by omega, by omega, by omega, by omega, hp3⟩
          · rw [if_neg hu]; exact hbest

theorem b2jGet_mem {b : List α} {x : α} {j : Nat} (h : j ∈ b2jGet b x) :
    b.get? j = some x := by
  unfold b2jGet at h
  split at h
  · cases h
  · unfold occIndices at h
    rw [List.mem_filter] at h
    exact of_decide_eq_true h.2

theorem dpLoop_sound (a b : List α) {al ahi blo bhi : Nat}
    (hal : ahi ≤ a.length) :
    ∀ (m i0 : Nat) (f : Nat → Nat) (best : Best),
      al ≤ i0 → i0 + m ≤ ahi →
      GoodMapM a b al blo bhi i0 f →
      GoodBestM a b al ahi blo bhi best →
      GoodBestM a b al ahi blo bhi (dpLoop a b blo bhi (List.range' i0 m) f best) := by
  intro m
  induction m with
  | zero => intro i0 f best _ _ _ hbest; exact hbest
  | succ m ih =>
    intro i0 f best h1 h2 hf hbest
    rw [List.range'_succ, dpLoop]
    have hlt : i0 < ahi := by omega
    have hjs : ∀ j ∈ (match a.get? i0 with | some x => b2jGet b x | none => ([] : List Nat)),
        b.get? j = a.get? i0 := by
      cases hgx : a.get? i0 with
      | none => intro j hj; cases hj
      | some x => intro j hj; rw [b2jGet_mem hj]
    have step := innerLoop_sound (f := f) hal h1 hlt hf
      (match a.get? i0 with | some x => b2jGet b x | none => [])
      (fun _ => 0) best hjs (by intro j hj; exact absurd rfl hj) hbest
    exact ih (i0 + 1) _ _ (by omega) (by omega) step.1 step.2

theorem extendLo_sound (a b : List α) {al blo ahi bhi : Nat} :
    ∀ (fuel bi bj k : Nat), al ≤ bi → blo ≤ bj →
      (k = 0 → bi = al ∧ bj = blo) →
      (k ≠ 0 → bi + k ≤ ahi ∧ bj + k ≤ bhi) →
      pySlice a bi (bi + k) = pySlice b bj (bj + k) →
      al ≤ (extendLo a b al blo fuel bi bj k).1 ∧
      blo ≤ (extendLo a b al blo fuel bi bj k).2.1 ∧
      ((extendLo a b al blo fuel bi bj k).2.2 = 0 →
        (extendLo a b al blo fuel bi bj k).1 = al ∧
        (extendLo a b al blo fuel bi bj k).2.1 = blo) ∧
      ((extendLo a b al blo fuel bi bj k).2.2 ≠ 0 →
        (extendLo a b al blo fuel bi bj k).1 + (extendLo a b al blo fuel bi bj k).2.2 ≤ ahi ∧
        (extendLo a b al blo fuel bi bj k).2.1 + (extendLo a b al blo fuel bi bj k).2.2 ≤ bhi) ∧
      pySlice a (extendLo a b al blo fuel bi bj k).1
          ((extendLo a b al blo fuel bi bj k).1 + (extendLo a b al blo fuel bi bj k).2.2) =
        pySlice b (extendLo a b al blo fuel bi bj k).2.1
          ((extendLo a b al blo fuel bi bj k).2.1 + (extendLo a b al blo fuel bi bj k).2.2) := by
  intro fuel
  induction fuel with
  | zero =>
    intro bi bj k hbi hbj hz hnz hsl
    exact ⟨hbi, hbj, hz, hnz, hsl⟩
  | succ fuel ih =>
    intro bi bj k hbi hbj hz hnz hsl
    rw [extendLo]
    split
    · next h =>
      simp only [Bool.and_eq_true, decide_eq_true_eq] at h
      obtain ⟨⟨hg1, hg2⟩, hg3⟩ := h
      obtain ⟨x, hax, hbx⟩ : ∃ x, a.get? (bi - 1) = some x ∧ b.get? (bj - 1) = some x := by
        cases hga : a.get? (bi - 1) with
        | none => rw [hga] at hg3; cases hg3
        | some x =>
          cases hgb : b.get? (bj - 1) with
          | none => rw [hga, hgb] at hg3; cases hg3
          | some y =>
            rw [hga, hgb] at hg3
            exact ⟨x, rfl, by rw [of_decide_eq_true hg3]⟩
      refine ih (bi - 1) (bj - 1) (k + 1) (by omega) (by omega) (by omega) ?_ ?_
      · intro _
        by_cases hk0 : k = 0
        · obtain ⟨e1, e2⟩ := hz hk0
          omega
        · obtain ⟨e1, e2⟩ := hnz hk0
          omega
      · have ea : bi - 1 + (k + 1) = bi + k := by omega
        have eb : bj - 1 + (k + 1) = bj + k := by omega
        rw [ea, eb]
        calc pySlice a (bi - 1) (bi + k)
            = pySlice a (bi - 1) bi ++ pySlice a bi (bi + k) :=
              (pySlice_append a (by omega) (by omega)).symm
          _ = pySlice b (bj - 1) bj ++ pySlice b bj (bj + k) := by
              have h1 : bi - 1 + 1 = bi := by omega
              have h2 : bj - 1 + 1 = bj := by omega
              have t1 : pySlice a (bi - 1) bi = [x] := by
                have := pySlice_one hax
                rwa [h1] at this
              have t2 : pySlice b (bj - 1) bj = [x] := by
                have := pySlice_one hbx
                rwa [h2] at this
              rw [t1, t2, hsl]
          _ = pySlice b (bj - 1) (bj + k) :=
              pySlice_append b (by omega) (by omega)
    · exact ⟨hbi, hbj, hz, hnz, hsl⟩

theorem extendHi_sound (a b : List α) {ahi bhi : Nat} :
    ∀ (fuel bi bj k : Nat),
      (k ≠ 0 → bi + k ≤ ahi ∧ bj + k ≤ bhi) →
      pySlice a bi (bi + k) = pySlice b bj (bj + k) →
      (extendHi a b ahi bhi fuel bi bj k ≠ 0 →
        bi + extendHi a b ahi bhi fuel bi bj k ≤ ahi ∧
        bj + extendHi a b ahi bhi fuel bi bj k ≤ bhi) ∧
      pySlice a bi (bi + extendHi a b ahi bhi fuel bi bj k) =
        pySlice b bj (bj + extendHi a b ahi bhi fuel bi bj k) := by
  intro fuel
  induction fuel with
  | zero =>
    intro bi bj k hk hsl
    exact ⟨hk, hsl⟩
  | succ fuel ih =>
    intro bi bj k hk hsl
    rw [extendHi]
    split
    · next h =>
      simp only [Bool.and_eq_true, decide_eq_true_eq] at h
      obtain ⟨⟨hg1, hg2⟩, hg3⟩ := h
      obtain ⟨x, hax, hbx⟩ : ∃ x, a.get? (bi + k) = some x ∧ b.get? (bj + k) = some x := by
        cases hga : a.get? (bi + k) with
        | none => rw [hga] at hg3; cases hg3
        | some x =>
          cases hgb : b.get? (bj + k) with
          | none => rw [hga, hgb] at hg3; cases hg3
          | some y =>
            rw [hga, hgb] at hg3
            exact ⟨x, rfl, by rw [of_decide_eq_true hg3]⟩
      refine ih bi bj (k + 1) (fun _ => by omega) ?_
      calc pySlice a bi (bi + (k + 1))
          = pySlice a bi (bi + k) ++ pySlice a (bi + k) (bi + k + 1) := by
            rw [pySlice_append a (by omega) (by omega)]
            rfl
        _ = pySlice b bj (bj + k) ++ pySlice b (bj + k) (bj + k + 1) := by
            rw [pySlice_one hax, pySlice_one hbx, hsl]
        _ = pySlice b bj (bj + (k + 1)) := by
            rw [pySlice_append b (by omega) (by omega)]
            rfl
    · exact ⟨hk, hsl⟩

/-- Soundness of `find_longest_match`: a nonempty match lies inside the
requested ranges, and the matched slices of `a` and `b` coincide. -/
theorem findLongestMatch_sound (a b : List α)
    (al ahi blo bhi : Nat) (hal : ahi ≤ a.length) {i j k : Nat}
    (heq : findLongestMatch a b al ahi blo bhi = (i, j, k)) :
    (k ≠ 0 → al ≤ i ∧ i + k ≤ ahi ∧ blo ≤ j ∧ j + k ≤ bhi) ∧
    pySlice a i (i + k) = pySlice b j (j + k) := by
  have hbest : GoodBestM a b al ahi blo bhi
      (dpLoop a b blo bhi (List.range' al (ahi - al)) (fun _ => 0) ⟨al, blo, 0⟩) := by
    by_cases hord : ahi ≤ al
    · have h0 : ahi - al = 0 := by omega
      rw [h0]
      exact Or.inl rfl
    · exact dpLoop_sound a b hal (ahi - al) al _ _ (le_refl al) (by omega)
        (by intro j hj; exact absurd rfl hj) (Or.inl rfl)
  set best := dpLoop a b blo bhi (List.range' al (ahi - al)) (fun _ => 0)
    (⟨al, blo, 0⟩ : Best) with hbdef
  have hb1 : al ≤ best.besti ∧ blo ≤ best.bestj ∧
      (best.bestsize = 0 → best.besti = al ∧ best.bestj = blo) ∧
      (best.bestsize ≠ 0 → best.besti + best.bestsize ≤ ahi ∧
        best.bestj + best.bestsize ≤ bhi) ∧
      pySlice a best.besti (best.besti + best.bestsize) =
        pySlice b best.bestj (best.bestj + best.bestsize) := by
    rcases hbest with h | ⟨h1, h2, h3, h4, h5, h6⟩
    · rw [h]
      refine ⟨le_refl _, le_refl _, fun _ => ⟨rfl, rfl⟩, fun h => absurd rfl h, ?_⟩
      show pySlice a al (al + 0) = pySlice b blo (blo + 0)
      rw [Nat.add_zero, Nat.add_zero, pySlice_self, pySlice_self]
    · exact ⟨h2, h4, fun hz => absurd hz h1, fun _ => ⟨h3, h5⟩, h6⟩
  have hlo := @extendLo_sound α _ a b al blo ahi bhi
    best.besti best.besti best.bestj best.bestsize hb1.1 hb1.2.1 hb1.2.2.1
    hb1.2.2.2.1 hb1.2.2.2.2
  set e := extendLo a b al blo best.besti best.besti best.bestj best.bestsize with hedef
  have hhi := @extendHi_sound α _ a b ahi bhi
    (ahi - (e.1 + e.2.2)) e.1 e.2.1 e.2.2 hlo.2.2.2.1 hlo.2.2.2.2
  have heq' : (e.1, e.2.1, extendHi a b ahi bhi (ahi - (e.1 + e.2.2)) e.1 e.2.1 e.2.2) =
      (i, j, k) := by
    rw [← heq, findLongestMatch]
  have hi : e.1 = i := congrArg Prod.fst heq'
  have hj : e.2.1 = j := congrArg (fun p => p.2.1) heq'
  have hk : extendHi a b ahi bhi (ahi - (e.1 + e.2.2)) e.1 e.2.1 e.2.2 = k :=
    congrArg (fun p => p.2.2) heq'
  rw [hk] at hhi
  obtain ⟨hl1, hl2, -, -, -⟩ := hlo
  constructor
  · intro hnz
    obtain ⟨hb2, hb3⟩ := hhi.1 hnz
    exact ⟨by omega, by omega, by omega, by omega⟩
  · rw [← hi, ← hj]
    exact hhi.2

/-- Bounds part of `findLongestMatch_sound` (extracted for convenience). -/
theorem findLongestMatch_bounds (a b : List α)
    (al ahi blo bhi : Nat) (hal : ahi ≤ a.length) {i j k : Nat}
    (heq : findLongestMatch a b al ahi blo bhi = (i, j, k)) (hnz : k ≠ 0) :
    al ≤ i ∧ i + k ≤ ahi ∧ blo ≤ j ∧ j + k ≤ bhi :=
  (findLongestMatch_sound a b al ahi blo bhi hal heq).1 hnz

/-! ## `get_matching_blocks`, `get_opcodes`, `get_grouped_opcodes` -/

/-- The divide-and-conquer of `get_matching_blocks`.  Python uses an explicit
queue and a final `sort()`; collecting the left subrange, the split match and
the right subrange in order produces exactly that sorted list, because every
block of the left subrange precedes the split match, which precedes every
block of the right subrange.  Structurally recursive on a fuel argument:
by `findLongestMatch_bounds` both subranges are strictly shorter than
`ahi - alo`, so `fuel = ahi - alo` suffices (and the fuel-0 base case, range
length 0, yields an empty match either way). -/
def matchingBlocksRecFuel (a b : List α) : Nat → Nat → Nat → Nat → Nat →
    List (Nat × Nat × Nat)
  | 0, _, _, _, _ => []
  | fuel + 1, alo, ahi, blo, bhi =>
    match findLongestMatch a b alo ahi blo bhi with
    | (i, j, k) =>
      if k = 0 then []
      else
        (if alo < i ∧ blo < j then matchingBlocksRecFuel a b fuel alo i blo j
         else []) ++
        (i, j, k) ::
        (if i + k < ahi ∧ j + k < bhi then
          matchingBlocksRecFuel a b fuel (i + k) ahi (j + k) bhi else [])

/-- The recursion of `get_matching_blocks` on the full range. -/
def matchingBlocksRec (a b : List α) (alo ahi blo bhi : Nat) :
    List (Nat × Nat × Nat) :=
  matchingBlocksRecFuel a b (ahi - alo) alo ahi blo bhi

/-- The adjacent-block merging loop at the end of `get_matching_blocks`,
started with the sentinel `i1 = j1 = k1 = 0`. -/
def mergeAdjacent : (Nat × Nat × Nat) → List (Nat × Nat × Nat) → List (Nat × Nat × Nat)
  | (i1, j1, k1), [] => if k1 ≠ 0 then [(i1, j1, k1)] else []
  | (i1, j1, k1), (i2, j2, k2) :: rest =>
    if i1 + k1 = i2 ∧ j1 + k1 = j2 then mergeAdjacent (i1, j1, k1 + k2) rest
    else (if k1 ≠ 0 then [(i1, j1, k1)] else []) ++ mergeAdjacent (i2, j2, k2) rest

/-- `SequenceMatcher.get_matching_blocks()` (merged, with the terminal
`(la, lb, 0)` sentinel). -/
def getMatchingBlocks (a b : List α) : List (Nat × Nat × Nat) :=
  mergeAdjacent (0, 0, 0) (matchingBlocksRec a b 0 a.length 0 b.length) ++
    [(a.length, b.length, 0)]

/-! ### The matching blocks are ordered and match equal slices -/

/-- `BlocksChain a b ip jp iend jend blocks`: the blocks are ordered, lie
between `(ip, jp)` and `(iend, jend)`, and each one matches equal slices of
`a` and `b`. -/
def BlocksChain (a b : List α) : Nat → Nat → Nat → Nat → List (Nat × Nat × Nat) → Prop
  | ip, jp, iend, jend, [] => ip ≤ iend ∧ jp ≤ jend
  | ip, jp, iend, jend, (i, j, k) :: rest =>
      ip ≤ i ∧ jp ≤ j ∧ pySlice a i (i + k) = pySlice b j (j + k) ∧
      BlocksChain a b (i + k) (j + k) iend jend rest

theorem blocksChain_mono {a b : List α} :
    ∀ {blocks : List (Nat × Nat × Nat)} {ip jp ip' jp' iend jend : Nat},
      BlocksChain a b ip jp iend jend blocks → ip' ≤ ip → jp' ≤ jp →
      BlocksChain a b ip' jp' iend jend blocks := by
  intro blocks
  cases blocks with
  | nil =>
    intro ip jp ip' jp' iend jend h h1 h2
    obtain ⟨g1, g2⟩ := h
    exact ⟨by omega, by omega⟩
  | cons blk rest =>
    obtain ⟨i, j, k⟩ := blk
    intro ip jp ip' jp' iend jend h h1 h2
    obtain ⟨g1, g2, g3, g4⟩ := h
    exact ⟨by omega, by omega, g3, g4⟩

theorem blocksChain_append {a b : List α} :
    ∀ {l1 l2 : List (Nat × Nat × Nat)} {ip jp im jm iend jend : Nat},
      BlocksChain a b ip jp im jm l1 → BlocksChain a b im jm iend jend l2 →
      BlocksChain a b ip jp iend jend (l1 ++ l2) := by
  intro l1
  induction l1 with
  | nil =>
    intro l2 ip jp im jm iend jend h1 h2
    exact blocksChain_mono h2 h1.1 h1.2
  | cons blk rest ih =>
    obtain ⟨i, j, k⟩ := blk
    intro l2 ip jp im jm iend jend h1 h2
    obtain ⟨g1, g2, g3, g4⟩ := h1
    exact ⟨g1, g2, g3, ih g4 h2⟩

theorem matchingBlocksRecFuel_chain (a b : List α) :
    ∀ (fuel alo ahi blo bhi : Nat), alo ≤ ahi → blo ≤ bhi → ahi ≤ a.length →
      BlocksChain a b alo blo ahi bhi (matchingBlocksRecFuel a b fuel alo ahi blo bhi) := by
  intro fuel
  induction fuel with
  | zero => intro alo ahi blo bhi h1 h2 _; exact ⟨h1, h2⟩
  | succ fuel ih =>
    intro alo ahi blo bhi h1 h2 hal
    rw [matchingBlocksRecFuel]
    rcases hm : findLongestMatch a b alo ahi blo bhi with ⟨i, j, k⟩
    simp only []
    by_cases hk : k = 0
    · rw [if_pos hk]; exact ⟨h1, h2⟩
    · rw [if_neg hk]
      have hs := findLongestMatch_sound a b alo ahi blo bhi hal hm
      obtain ⟨hb1, hb2, hb3, hb4⟩ := hs.1 hk
      have left : BlocksChain a b alo blo i j
          (if alo < i ∧ blo < j then matchingBlocksRecFuel a b fuel alo i blo j
           else []) := by
        split
        · exact ih alo i blo j hb1 hb3 (by omega)
        · exact ⟨hb1, hb3⟩
      have right : BlocksChain a b (i + k) (j + k) ahi bhi
          (if i + k < ahi ∧ j + k < bhi then
            matchingBlocksRecFuel a b fuel (i + k) ahi (j + k) bhi else []) := by
        split
        · exact ih (i + k) ahi (j + k) bhi (by omega) (by omega) hal
        · exact ⟨hb2, hb4⟩
      exact blocksChain_append left ⟨le_refl i, le_refl j, hs.2, right⟩

theorem mergeAdjacent_chain {a b : List α} :
    ∀ (blocks : List (Nat × Nat × Nat)) (cur : Nat × Nat × Nat) (ip jp iend jend : Nat),
      BlocksChain a b ip jp iend jend (cur :: blocks) →
      BlocksChain a b ip jp iend jend (mergeAdjacent cur blocks) := by
  intro blocks
  induction blocks with
  | nil =>
    intro cur ip jp iend jend h
    obtain ⟨i1, j1, k1⟩ := cur
    obtain ⟨h1, h2, hsl, he1, he2⟩ := h
    rw [mergeAdjacent]
    split
    · exact ⟨h1, h2, hsl, he1, he2⟩
    · exact ⟨by omega, by omega⟩
  | cons blk rest ih =>
    intro cur ip jp iend jend h
    obtain ⟨i1, j1, k1⟩ := cur
    obtain ⟨i2, j2, k2⟩ := blk
    obtain ⟨h1, h2, hsl1, h3, h4, hsl2, hrest⟩ := h
    rw [mergeAdjacent]
    split
    · next hadj =>
      obtain ⟨ha1, ha2⟩ := hadj
      refine ih (i1, j1, k1 + k2) ip jp iend jend ?_
      refine ⟨h1, h2, ?_, ?_⟩
      · have e1 : i1 + (k1 + k2) = (i1 + k1) + k2 := by omega
        have e2 : j1 + (k1 + k2) = (j1 + k1) + k2 := by omega
        have sa : pySlice a i1 ((i1 + k1) + k2) =
            pySlice a i1 (i1 + k1) ++ pySlice a (i1 + k1) ((i1 + k1) + k2) :=
          (pySlice_append a (by omega) (by omega)).symm
        have sb : pySlice b j1 ((j1 + k1) + k2) =
            pySlice b j1 (j1 + k1) ++ pySlice b (j1 + k1) ((j1 + k1) + k2) :=
          (pySlice_append b (by omega) (by omega)).symm
        rw [e1, e2, sa, sb, hsl1, ha1, ha2, hsl2]
      · have e1 : i1 + (k1 + k2) = i2 + k2 := by omega
        have e2 : j1 + (k1 + k2) = j2 + k2 := by omega
        rw [e1, e2]
        exact hrest
    · have mrec := ih (i2, j2, k2) (i1 + k1) (j1 + k1) iend jend ⟨h3, h4, hsl2, hrest⟩
      split
      · exact ⟨h1, h2, hsl1, mrec⟩
      · next hk1 =>
        have hk1' : k1 = 0 := by
          by_contra hc
          exact hk1 hc
        refine blocksChain_mono mrec (by omega) (by omega)

/-- The blocks returned by `get_matching_blocks` form an ordered chain of
equal slices from `(0, 0)` to `(len a, len b)`, and the list ends with the
sentinel `(len a, len b, 0)`. -/
theorem getMatchingBlocks_chain (a b : List α) :
    BlocksChain a b 0 0 a.length b.length (getMatchingBlocks a b) := by
  rw [getMatchingBlocks]
  refine @blocksChain_append α _ a b _ _ _ _ a.length b.length _ _ ?_ ?_
  · refine mergeAdjacent_chain _ (0, 0, 0) 0 0 _ _ ?_
    refine ⟨le_refl 0, le_refl 0, by rw [pySlice_self, pySlice_self], ?_⟩
    exact matchingBlocksRecFuel_chain a b (a.length - 0) 0 a.length 0 b.length
      (by omega) (by omega) (le_refl _)
  · refine ⟨le_refl _, le_refl _, by rw [Nat.add_zero, Nat.add_zero, pySlice_self, pySlice_self], ?_, ?_⟩
    · omega
    · omega

/-- difflib opcode tags. -/
inductive Tag
  | equal
  | replace
  | delete
  | insert
deriving DecidableEq, Repr

/-- One opcode `(tag, i1, i2, j1, j2)`. -/
structure Op where
  tag : Tag
  i1 : Nat
  i2 : Nat
  j1 : Nat
  j2 : Nat
deriving DecidableEq, Repr

/-- The loop of `get_opcodes` over the matching blocks. -/
def opcodesLoop : Nat → Nat → List (Nat × Nat × Nat) → List Op
  | _, _, [] => []
  | i, j, (ai, bj, size) :: rest =>
    (if i < ai ∧ j < bj then [⟨.replace, i, ai, j, bj⟩]
     else if i < ai then [⟨.delete, i, ai, j, bj⟩]
     else if j < bj then [⟨.insert, i, ai, j, bj⟩]
     else []) ++
    (if size ≠ 0 then [⟨.equal, ai, ai + size, bj, bj + size⟩] else []) ++
    opcodesLoop (ai + size) (bj + size) rest

/-- `SequenceMatcher.get_opcodes()`. -/
def getOpcodes (a b : List α) : List Op :=
  opcodesLoop 0 0 (getMatchingBlocks a b)

/-! ### The opcodes tile both sequences -/

/-- End position of a block walk. -/
def blocksEnd : Nat → Nat → List (Nat × Nat × Nat) → Nat × Nat
  | ip, jp, [] => (ip, jp)
  | _, _, (i, j, k) :: rest => blocksEnd (i + k) (j + k) rest

theorem blocksEnd_append_zero :
    ∀ (l : List (Nat × Nat × Nat)) (ip jp x y : Nat),
      blocksEnd ip jp (l ++ [(x, y, 0)]) = (x, y) := by
  intro l
  induction l with
  | nil =>
    intro ip jp x y
    show blocksEnd (x + 0) (y + 0) [] = (x, y)
    rw [Nat.add_zero, Nat.add_zero]
    rfl
  | cons blk rest ih =>
    obtain ⟨i, j, k⟩ := blk
    intro ip jp x y
    exact ih (i + k) (j + k) x y

/-- `OpChain i0 i1 j0 j1 ops`: the opcodes tile `[i0, i1]` and `[j0, j1]`
exactly, contiguously and in order. -/
def OpChain : Nat → Nat → Nat → Nat → List Op → Prop
  | i0, i1, j0, j1, [] => i0 = i1 ∧ j0 = j1
  | i0, i1, j0, j1, c :: rest => c.i1 = i0 ∧ c.j1 = j0 ∧ OpChain c.i2 i1 c.j2 j1 rest

/-- Per-opcode facts: ranges are ordered; an `equal` opcode covers equal
slices of the same positive length; `insert`/`delete` consume exactly one
side; `replace` consumes both. -/
def OpOk (a b : List α) (c : Op) : Prop :=
  c.i1 ≤ c.i2 ∧ c.j1 ≤ c.j2 ∧
  (c.tag = .equal → pySlice a c.i1 c.i2 = pySlice b c.j1 c.j2 ∧
    c.i1 < c.i2 ∧ c.i2 - c.i1 = c.j2 - c.j1) ∧
  (c.tag = .insert → c.i1 = c.i2 ∧ c.j1 < c.j2) ∧
  (c.tag = .delete → c.j1 = c.j2 ∧ c.i1 < c.i2) ∧
  (c.tag = .replace → c.i1 < c.i2 ∧ c.j1 < c.j2)

theorem opOk_replace (a b : List α) {i1 i2 j1 j2 : Nat} (h1 : i1 < i2) (h2 : j1 < j2) :
    OpOk a b ⟨.replace, i1, i2, j1, j2⟩ :=
  ⟨Nat.le_of_lt h1, Nat.le_of_lt h2, fun ht => Tag.noConfusion ht,
   fun ht => Tag.noConfusion ht, fun ht => Tag.noConfusion ht,
   fun _ => ⟨h1, h2⟩⟩

theorem opOk_delete (a b : List α) {i1 i2 j1 j2 : Nat} (h1 : i1 < i2) (h2 : j1 = j2) :
    OpOk a b ⟨.delete, i1, i2, j1, j2⟩ :=
  ⟨Nat.le_of_lt h1, Nat.le_of_eq h2, fun ht => Tag.noConfusion ht,
   fun ht => Tag.noConfusion ht, fun _ => ⟨h2, h1⟩,
   fun ht => Tag.noConfusion ht⟩

theorem opOk_insert (a b : List α) {i1 i2 j1 j2 : Nat} (h1 : i1 = i2) (h2 : j1 < j2) :
    OpOk a b ⟨.insert, i1, i2, j1, j2⟩ :=
  ⟨Nat.le_of_eq h1, Nat.le_of_lt h2, fun ht => Tag.noConfusion ht,
   fun _ => ⟨h1, h2⟩, fun ht => Tag.noConfusion ht,
   fun ht => Tag.noConfusion ht⟩

theorem opOk_equal (a b : List α) {ai bj size : Nat} (hsz : size ≠ 0)
    (hsl : pySlice a ai (ai + size) = pySlice b bj (bj + size)) :
    OpOk a b ⟨.equal, ai, ai + size, bj, bj + size⟩ :=
  ⟨Nat.le_add_right ai size, Nat.le_add_right bj size,
   fun _ => ⟨hsl, show ai < ai + size by omega,
     show ai + size - ai = bj + size - bj by omega⟩,
   fun ht => Tag.noConfusion ht, fun ht => Tag.noConfusion ht,
   fun ht => Tag.noConfusion ht⟩

theorem opChain_append :
    ∀ {l1 l2 : List Op} {i0 im i1 j0 jm j1 : Nat},
      OpChain i0 im j0 jm l1 → OpChain im i1 jm j1 l2 →
      OpChain i0 i1 j0 j1 (l1 ++ l2) := by
  intro l1
  induction l1 with
  | nil =>
    intro l2 i0 im i1 j0 jm j1 h1 h2
    obtain ⟨e1, e2⟩ := h1
    rw [List.nil_append, e1, e2]
    exact h2
  | cons c rest ih =>
    intro l2 i0 im i1 j0 jm j1 h1 h2
    obtain ⟨e1, e2, e3⟩ := h1
    exact ⟨e1, e2, ih e3 h2⟩

theorem opcodesLoop_sound (a b : List α) :
    ∀ (blocks : List (Nat × Nat × Nat)) (ip jp iend jend : Nat),
      BlocksChain a b ip jp iend jend blocks →
      OpChain ip (blocksEnd ip jp blocks).1 jp (blocksEnd ip jp blocks).2
        (opcodesLoop ip jp blocks) ∧
      ∀ c ∈ opcodesLoop ip jp blocks, OpOk a b c := by
  intro blocks
  induction blocks with
  | nil =>
    intro ip jp iend jend _
    constructor
    · exact ⟨rfl, rfl⟩
    · intro c hc
      cases hc
  | cons blk rest ih =>
    obtain ⟨ai, bj, size⟩ := blk
    intro ip jp iend jend h
    obtain ⟨h1, h2, hsl, hrest⟩ := h
    have tail := ih (ai + size) (bj + size) iend jend hrest
    rw [opcodesLoop]
    have hgap : OpChain ip ai jp bj
        (if ip < ai ∧ jp < bj then [⟨.replace, ip, ai, jp, bj⟩]
         else if ip < ai then [⟨.delete, ip, ai, jp, bj⟩]
         else if jp < bj then [⟨.insert, ip, ai, jp, bj⟩]
         else []) ∧
        ∀ c ∈ (if ip < ai ∧ jp < bj then [(⟨.replace, ip, ai, jp, bj⟩ : Op)]
         else if ip < ai then [⟨.delete, ip, ai, jp, bj⟩]
         else if jp < bj then [⟨.insert, ip, ai, jp, bj⟩]
         else []), OpOk a b c := by
      split
      · next hg =>
        refine ⟨⟨rfl, rfl, rfl, rfl⟩, ?_⟩
        intro c hc
        rw [List.mem_singleton] at hc
        subst hc
        exact opOk_replace a b hg.1 hg.2
      · next hg =>
        split
        · next hg1 =>
          refine ⟨⟨rfl, rfl, rfl, rfl⟩, ?_⟩
          intro c hc
          rw [List.mem_singleton] at hc
          subst hc
          exact opOk_delete a b hg1 (by omega)
        · next hg1 =>
          split
          · next hg2 =>
            refine ⟨⟨rfl, rfl, rfl, rfl⟩, ?_⟩
            intro c hc
            rw [List.mem_singleton] at hc
            subst hc
            exact opOk_insert a b (by omega) hg2
          · next hg2 =>
            exact ⟨⟨by omega, by omega⟩, fun c hc => by cases hc⟩
    have heq : OpChain ai (ai + size) bj (bj + size)
        (if size ≠ 0 then [⟨.equal, ai, ai + size, bj, bj + size⟩] else []) ∧
        ∀ c ∈ (if size ≠ 0 then [(⟨.equal, ai, ai + size, bj, bj + size⟩ : Op)]
          else []), OpOk a b c := by
      split
      · next hsz =>
        refine ⟨⟨rfl, rfl, rfl, rfl⟩, ?_⟩
        intro c hc
        rw [List.mem_singleton] at hc
        subst hc
        exact opOk_equal a b hsz hsl
      · next hsz =>
        have hsz' : size = 0 := by omega
        exact ⟨⟨by omega, by omega⟩, fun c hc => by cases hc⟩
    constructor
    · show OpChain ip (blocksEnd (ai + size) (bj + size) rest).1
        jp (blocksEnd (ai + size) (bj + size) rest).2 _
      rw [List.append_assoc]
      exact opChain_append hgap.1 (opChain_append heq.1 tail.1)
    · intro c hc
      rw [List.append_assoc, List.mem_append] at hc
      rcases hc with hc | hc
      · exact hgap.2 c hc
      · rw [List.mem_append] at hc
        rcases hc with hc | hc
        · exact heq.2 c hc
        · exact tail.2 c hc

/-- The opcodes of `get_opcodes` tile `[0, len a]` and `[0, len b]` exactly,
and each opcode is well-formed. -/
theorem getOpcodes_sound (a b : List α) :
    OpChain 0 a.length 0 b.length (getOpcodes a b) ∧
    ∀ c ∈ getOpcodes a b, OpOk a b c := by
  have h := opcodesLoop_sound a b (getMatchingBlocks a b) 0 0 a.length b.length
    (getMatchingBlocks_chain a b)
  have hend : blocksEnd 0 0 (getMatchingBlocks a b) = (a.length, b.length) := by
    rw [getMatchingBlocks]
    exact blocksEnd_append_zero _ 0 0 _ _
  rw [getOpcodes]
  rw [hend] at h
  exact h

/-- `get_grouped_opcodes`: trim of a leading equal opcode. -/
def trimHead (n : Nat) : List Op → List Op
  | [] => []
  | c :: rest =>
    if c.tag = .equal then
      ⟨.equal, max c.i1 (c.i2 - n), c.i2, max c.j1 (c.j2 - n), c.j2⟩ :: rest
    else c :: rest

/-- `get_grouped_opcodes`: trim of a trailing equal opcode. -/
def trimLast (n : Nat) (l : List Op) : List Op :=
  match l.getLast? with
  | none => l
  | some c =>
    if c.tag = .equal then
      l.dropLast ++ [⟨.equal, c.i1, min c.i2 (c.i1 + n), c.j1, min c.j2 (c.j1 + n)⟩]
    else l

/-- The grouping loop of `get_grouped_opcodes` (`nn = n + n`); the final
`if group and not (len(group)==1 and group[0][0] == 'equal')` is the
end-of-list case. -/
def groupLoop (n : Nat) (group : List Op) : List Op → List (List Op)
  | [] =>
    match group with
    | [] => []
    | [g] => if g.tag = .equal then [] else [[g]]
    | _ => [group]
  | c :: rest =>
    if c.tag = .equal ∧ 2 * n < c.i2 - c.i1 then
      (group ++ [⟨.equal, c.i1, min c.i2 (c.i1 + n), c.j1, min c.j2 (c.j1 + n)⟩]) ::
        groupLoop n [⟨.equal, max c.i1 (c.i2 - n), c.i2, max c.j1 (c.j2 - n), c.j2⟩] rest
    else groupLoop n (group ++ [c]) rest

/-- `SequenceMatcher.get_grouped_opcodes(n)` as a list of groups. -/
def getGroupedOpcodes (a b : List α) (n : Nat) : List (List Op) :=
  groupLoop n []
    (trimLast n (trimHead n
      (if getOpcodes a b = [] then [⟨.equal, 0, 1, 0, 1⟩] else getOpcodes a b)))

/-! ## `difflib.unified_diff` -/

/-- `difflib._format_range_unified(start, stop)`. -/
def fmtRangeUnified (start stop : Nat) : List Char :=
  if stop - start = 1 then natToChars (start + 1)
  else natToChars (if stop - start = 0 then start else start + 1) ++
    ',' :: natToChars (stop - start)

/-- Lines a single opcode contributes to the body of the unified diff
(`keepends=True` line contents, prefixed by ` `, `-` or `+`). -/
def emitOp (a b : List (List Char)) (c : Op) : List (List Char) :=
  match c.tag with
  | .equal => (pySlice a c.i1 c.i2).map (fun l => ' ' :: l)
  | .delete => (pySlice a c.i1 c.i2).map (fun l => '-' :: l)
  | .insert => (pySlice b c.j1 c.j2).map (fun l => '+' :: l)
  | .replace =>
      (pySlice a c.i1 c.i2).map (fun l => '-' :: l) ++
      (pySlice b c.j1 c.j2).map (fun l => '+' :: l)

/-- The hunk header `@@ -r1 +r2 @@` (with `lineterm = ''`). -/
def hunkHeader (g : List Op) : List Char :=
  match g.head?, g.getLast? with
  | some cf, some cl =>
    '@' :: '@' :: ' ' :: '-' :: fmtRangeUnified cf.i1 cl.i2 ++
      ' ' :: '+' :: fmtRangeUnified cf.j1 cl.j2 ++ [' ', '@', '@']
  | _, _ => []  -- unreachable: yielded groups are nonempty

/-- All lines one group contributes: header then opcode bodies. -/
def emitGroup (a b : List (List Char)) (g : List Op) : List (List Char) :=
  hunkHeader g :: (g.map (emitOp a b)).flatten

/-- `difflib.unified_diff(a, b, fromfile='Original', tofile='Modified',
lineterm='')` as the list of emitted lines.  The `started` flag makes the two
file headers appear before the first group only, hence nothing is emitted
when there is no group. -/
def unifiedDiffLines (a b : List (List Char)) : List (List Char) :=
  match getGroupedOpcodes a b 3 with
  | [] => []
  | groups =>
      ("--- Original").data :: ("+++ Modified").data ::
        (groups.map (emitGroup a b)).flatten

/-! ## `highlight_word_diff` -/

/-- Styles of the `rich` text segments the code emits. -/
inductive SpanStyle
  | noStyle   -- unstyled (equal text)
  | deleted   -- "bold red"
  | inserted  -- "bold green"
  | sep       -- "bold": the separator between the halves of a replace
deriving DecidableEq, Repr

/-- One styled segment appended to the `rich.Text` result. -/
structure Span where
  text : List Char
  style : SpanStyle
deriving DecidableEq, Repr

/-- The literal separator string of `highlight_word_diff`; the source file
contains the UTF-8 mojibake of an arrow: `" â†’ "`, i.e. the code points
U+0020, U+00E2, U+2020, U+2019, U+0020. -/
def sepText : List Char :=
  [' ', Char.ofNat 0xE2, Char.ofNat 0x2020, Char.ofNat 0x2019, ' ']

/-- The segments `highlight_word_diff` appends for one opcode. -/
def hwdSpans (oldText newText : List Char) (c : Op) : List Span :=
  match c.tag with
  | .equal => [⟨pySlice oldText c.i1 c.i2, .noStyle⟩]
  | .delete => [⟨pySlice oldText c.i1 c.i2, .deleted⟩]
  | .insert => [⟨pySlice newText c.j1 c.j2, .inserted⟩]
  | .replace => [⟨pySlice oldText c.i1 c.i2, .deleted⟩, ⟨sepText, .sep⟩,
      ⟨pySlice newText c.j1 c.j2, .inserted⟩]

/-- `highlight_word_diff(old_text, new_text)`: the styled segments appended
to the result, one batch per character-level opcode. -/
def highlightWordDiff (oldText newText : List Char) : List Span :=
  ((getOpcodes oldText newText).map (hwdSpans oldText newText)).flatten

/-! ## `create_diff_view` -/

/-- A renderable diff row: one `table.add_row` call of `create_diff_view`
(or the "No differences found" panel). -/
inductive Row
  | context (label : List Char) (content : List Char)
  | added (label : List Char) (content : List Char)
  | removed (label : List Char) (content : List Char)
  | paired (label : List Char) (spans : List Span)
  | emptyNotice
deriving DecidableEq, Repr

/-- Skip one optional comma (the `,?` of the hunk regex). -/
def skipComma : List Char → List Char
  | ',' :: r => r
  | r => r

/-- After the required digits of group 3, the regex tail `,?(\d*) @@`:
an optional comma, group 4's digits, then the literal ` @@`. -/
def matchHunkTail2 (g1 g3 rest3 : List Char) : Option (List Char × List Char) :=
  match (skipComma rest3).dropWhile (·.isDigit) with
  | ' ' :: '@' :: '@' :: _ => some (g1, g3)
  | _ => none

/-- After the literal ` +`, the regex tail `(\d+),?(\d*) @@`. -/
def matchHunkTail1 (g1 rest2 : List Char) : Option (List Char × List Char) :=
  if rest2.takeWhile (·.isDigit) = [] then none
  else matchHunkTail2 g1 (rest2.takeWhile (·.isDigit)) (rest2.dropWhile (·.isDigit))

/-- After the leading `@@ -`, the regex tail `(\d+),?(\d*) \+...`. -/
def matchHunkTail0 (rest : List Char) : Option (List Char × List Char) :=
  if rest.takeWhile (·.isDigit) = [] then none
  else
    match (skipComma (rest.dropWhile (·.isDigit))).dropWhile (·.isDigit) with
    | ' ' :: '+' :: rest2 => matchHunkTail1 (rest.takeWhile (·.isDigit)) rest2
    | _ => none

/-- The regex `^@@ -(\d+),?(\d*) \+(\d+),?(\d*) @@` of `create_diff_view`,
returning groups 1 and 3 (the only ones the code reads).  Deterministic
greedy matching coincides with the regex because each `\d+`/`\d*` is
followed by a non-digit literal, so no backtracking can change success;
the unused groups 2 and 4 are consumed by `dropWhile`. -/
def matchHunkHeader (s : List Char) : Option (List Char × List Char) :=
  match s with
  | '@' :: '@' :: ' ' :: '-' :: rest => matchHunkTail0 rest
  | _ => none

/-- Insertion-ordered dict lookup. -/
def dictGet {β : Type} (d : List (Int × β)) (k : Int) : Option β :=
  (d.find? (fun e => decide (e.1 = k))).map (·.2)

/-- Insertion-ordered dict update: an existing key keeps its position (as in
Python dicts); a new key is appended. -/
def dictSet {β : Type} (d : List (Int × β)) (k : Int) (v : β) : List (Int × β) :=
  if (d.find? (fun e => decide (e.1 = k))).isSome then
    d.map (fun e => if e.1 = k then (k, v) else e)
  else d ++ [(k, v)]

/-- The values of `removed_lines`: `(matched modified line or None, content
or None)`; the content half can only be `None` through the `.get` default. -/
abbrev RLVal : Type := Option Int × Option (List Char)

/-- State of the first pass of `create_diff_view`. -/
structure Pass1State where
  tlo : Int                                -- temp_line_original
  tlm : Int                                -- temp_line_modified
  removedLines : List (Int × RLVal)        -- removed_lines
  addedLines : List (Int × List Char)      -- added_lines (written, never read)
  lastRemoved : Option Int                 -- last_removed_line
deriving Repr

/-- One iteration of the first pass (lines 92–117 of `diff.py`). -/
def pass1Step (st : Pass1State) (line : List Char) : Except String Pass1State :=
  if ("---").data.isPrefixOf line || ("+++").data.isPrefixOf line then .ok st
  else if ("@@").data.isPrefixOf line then
    match matchHunkHeader line with
    | some gs => do
        let v1 ← pyInt gs.1
        let v3 ← pyInt gs.2
        .ok { st with tlo := v1 - 1, tlm := v3 - 1 }
    | none => .ok st
  else if ("+").data.isPrefixOf line then
    match st.lastRemoved with
    | some lr =>
        .ok { st with
                tlm := st.tlm + 1
                addedLines := dictSet st.addedLines (st.tlm + 1) (line.drop 1)
                removedLines := dictSet st.removedLines lr
                  (some (st.tlm + 1),
                   (match dictGet st.removedLines lr with
                    | some v => v.2
                    | none => none))
                lastRemoved := none }
    | none =>
        .ok { st with
                tlm := st.tlm + 1
                addedLines := dictSet st.addedLines (st.tlm + 1) (line.drop 1) }
  else if ("-").data.isPrefixOf line then
    .ok { st with
            tlo := st.tlo + 1
            removedLines := dictSet st.removedLines (st.tlo + 1)
              (none, some (line.drop 1))
            lastRemoved := some (st.tlo + 1) }
  else
    .ok { st with tlo := st.tlo + 1, tlm := st.tlm + 1, lastRemoved := none }

/-- State of the second pass of `create_diff_view`. -/
structure Pass2State where
  lno : Int              -- line_num_original
  lnm : Int              -- line_num_modified
  rows : List Row
deriving Repr

/-- The linear search over `removed_lines.items()` performed for each added
line: first entry whose stored modified line equals `m` and whose content is
not `None`. -/
def findPairedContent (d : List (Int × RLVal)) (m : Int) : Option (List Char) :=
  match d.find? (fun e => decide (e.2.1 = some m) && e.2.2.isSome) with
  | some e => e.2.2
  | none => none

/-- One iteration of the second pass (lines 123–176 of `diff.py`). -/
def pass2Step (rl : List (Int × RLVal)) (st : Pass2State) (line : List Char) :
    Except String Pass2State :=
  if ("---").data.isPrefixOf line || ("+++").data.isPrefixOf line then .ok st
  else if ("@@").data.isPrefixOf line then
    match matchHunkHeader line with
    | some gs => do
        let v1 ← pyInt gs.1
        let v3 ← pyInt gs.2
        .ok { st with lno := v1 - 1, lnm := v3 - 1 }
    | none => .ok st
  else if ("+").data.isPrefixOf line then
    match findPairedContent rl (st.lnm + 1) with
    | some origContent =>
        .ok { st with
                lnm := st.lnm + 1
                rows := st.rows ++ [.paired ('+' :: intToChars (st.lnm + 1))
                  (highlightWordDiff origContent (line.drop 1))] }
    | none =>
        .ok { st with
                lnm := st.lnm + 1
                rows := st.rows ++ [.added ('+' :: intToChars (st.lnm + 1))
                  (line.drop 1)] }
  else if ("-").data.isPrefixOf line then
    match dictGet rl (st.lno + 1) with
    | some (some _, _) => .ok { st with lno := st.lno + 1 }
    | _ =>
        .ok { st with
                lno := st.lno + 1
                rows := st.rows ++ [.removed ('-' :: intToChars (st.lno + 1))
                  (line.drop 1)] }
  else
    .ok { st with
            lno := st.lno + 1
            lnm := st.lnm + 1
            rows := st.rows ++ [.context (intToChars (st.lno + 1)) (line.drop 1)] }

/-- `create_diff_view` given the already-computed unified diff lines: the
empty-diff check, then the two passes. -/
def processDiff (diff : List (List Char)) : Except String (List Row) :=
  if diff = [] then .ok [.emptyNotice]
  else do
    let p1 ← diff.foldlM pass1Step ⟨0, 0, [], [], none⟩
    let p2 ← diff.foldlM (pass2Step p1.removedLines) ⟨0, 0, []⟩
    .ok p2.rows

/-- `create_diff_view(original, modified)` as the emitted row sequence; the
`Except` layer carries the one place the Python code could raise
(`int(...)`). -/
def createDiffView (original modified : String) : Except String (List Row) :=
  processDiff (unifiedDiffLines (pySplitlines original.data) (pySplitlines modified.data))

/-- The rows of `create_diff_view` (total form). -/
def renderDiff (original modified : String) : List Row :=
  match createDiffView original modified with
  | .ok rows => rows
  | .error _ => []

/-! ## Observation functions used by the claims -/

/-- Concatenated text of the spans whose style satisfies `keep`. -/
def concatStyled (keep : SpanStyle → Bool) (spans : List Span) : List Char :=
  ((spans.filter (fun s => keep s.style)).map Span.text).flatten

/-- The text of only the deleted-styled spans. -/
def deletedConcat (spans : List Span) : List Char :=
  concatStyled (fun s => s = .deleted) spans

/-- The text of only the inserted-styled spans. -/
def insertedConcat (spans : List Span) : List Char :=
  concatStyled (fun s => s = .inserted) spans

/-- The "old" side of a span sequence: unstyled and deleted spans. -/
def oldSide (spans : List Span) : List Char :=
  concatStyled (fun s => s = .noStyle || s = .deleted) spans

/-- The "new" side of a span sequence: unstyled and inserted spans. -/
def newSide (spans : List Span) : List Char :=
  concatStyled (fun s => s = .noStyle || s = .inserted) spans

/-- Content a row contributes when replaying the modified text: context rows,
added rows, and the "new" half of paired-replace rows. -/
def rowNewContent : Row → List (List Char)
  | .context _ c => [c]
  | .added _ c => [c]
  | .paired _ sp => [newSide sp]
  | _ => []

/-- Content a row contributes when replaying the original text: context rows,
removed rows, and the "old" half of paired-replace rows. -/
def rowOldContent : Row → List (List Char)
  | .context _ c => [c]
  | .removed _ c => [c]
  | .paired _ sp => [oldSide sp]
  | _ => []

/-- Replay of the modified text from a row sequence. -/
def replayNew (rows : List Row) : List (List Char) :=
  (rows.map rowNewContent).flatten

/-- Replay of the original text from a row sequence. -/
def replayOld (rows : List Row) : List (List Char) :=
  (rows.map rowOldContent).flatten

deriving instance DecidableEq for Except

/-! ### The passes never raise: the only fallible operation is `int()` on a
`(\d+)` capture, which always succeeds. -/

theorem takeWhile_all {p : Char → Bool} {l : List Char} :
    (l.takeWhile p).all p = true := by
  rw [List.all_eq_true]
  intro x hx
  exact List.mem_takeWhile_imp hx

theorem matchHunkHeader_digits {s g1 g3 : List Char}
    (h : matchHunkHeader s = some (g1, g3)) :
    g1 ≠ [] ∧ g1.all (·.isDigit) = true ∧ g3 ≠ [] ∧ g3.all (·.isDigit) = true := by
  unfold matchHunkHeader at h
  split at h
  · next rest =>
    unfold matchHunkTail0 at h
    split at h
    · cases h
    · next hne0 =>
      split at h
      · next rest2 _ =>
        unfold matchHunkTail1 at h
        split at h
        · cases h
        · next hne1 =>
          unfold matchHunkTail2 at h
          split at h
          · next =>
            rw [Option.some.injEq, Prod.mk.injEq] at h
            obtain ⟨h1, h2⟩ := h
            subst h1; subst h2
            exact ⟨hne0, takeWhile_all, hne1, takeWhile_all⟩
          · cases h
      · cases h
  · cases h

theorem pyInt_ok {s : List Char} (h1 : s ≠ []) (h2 : s.all (·.isDigit) = true) :
    pyInt s = .ok ((digitsToNat s : Nat) : Int) := by
  rw [pyInt, if_pos ⟨h1, h2⟩]

theorem pass1Step_ok (st : Pass1State) (line : List Char) :
    ∃ st', pass1Step st line = .ok st' := by
  unfold pass1Step
  split
  · exact ⟨st, rfl⟩
  · split
    · split
      · next gs heq =>
        obtain ⟨d1, d2, d3, d4⟩ :=
          @matchHunkHeader_digits line gs.1 gs.2 (by rw [heq])
        rw [pyInt_ok d1 d2, pyInt_ok d3 d4]
        exact ⟨_, rfl⟩
      · exact ⟨st, rfl⟩
    · split
      · split
        · exact ⟨_, rfl⟩
        · exact ⟨_, rfl⟩
      · split
        · exact ⟨_, rfl⟩
        · exact ⟨_, rfl⟩

theorem pass2Step_ok (rl : List (Int × RLVal)) (st : Pass2State) (line : List Char) :
    ∃ st', pass2Step rl st line = .ok st' := by
  unfold pass2Step
  split
  · exact ⟨st, rfl⟩
  · split
    · split
      · next gs heq =>
        obtain ⟨d1, d2, d3, d4⟩ :=
          @matchHunkHeader_digits line gs.1 gs.2 (by rw [heq])
        rw [pyInt_ok d1 d2, pyInt_ok d3 d4]
        exact ⟨_, rfl⟩
      · exact ⟨st, rfl⟩
    · split
      · split
        · exact ⟨_, rfl⟩
        · exact ⟨_, rfl⟩
      · split
        · split
          · exact ⟨_, rfl⟩
          · exact ⟨_, rfl⟩
        · exact ⟨_, rfl⟩

theorem foldlM_ok {σ : Type} (f : σ → List Char → Except String σ)
    (hf : ∀ st l, ∃ st', f st l = .ok st') :
    ∀ (lines : List (List Char)) (st : σ),
      ∃ st', lines.foldlM f st = .ok st' := by
  intro lines
  induction lines with
  | nil => intro st; exact ⟨st, rfl⟩
  | cons l ls ih =>
    intro st
    obtain ⟨st1, h1⟩ := hf st l
    obtain ⟨st2, h2⟩ := ih st1
    refine ⟨st2, ?_⟩
    rw [List.foldlM_cons, h1]
    exact h2

theorem exceptBindOk {σ τ : Type} (x : Except String σ) (v : σ)
    (f : σ → Except String τ) (hx : x = .ok v) : (x >>= f) = f v := by
  rw [hx]; rfl

/-! ### Sides of a word diff: the unstyled+deleted spans concatenate to the
old line, the unstyled+inserted spans to the new line. -/

theorem concatStyled_append (keep : SpanStyle → Bool) (s1 s2 : List Span) :
    concatStyled keep (s1 ++ s2) = concatStyled keep s1 ++ concatStyled keep s2 := by
  simp [concatStyled]

theorem opChain_le {a b : List Char} :
    ∀ {ops : List Op} {i0 i1 j0 j1 : Nat},
      OpChain i0 i1 j0 j1 ops → (∀ c ∈ ops, OpOk a b c) → i0 ≤ i1 ∧ j0 ≤ j1 := by
  intro ops
  induction ops with
  | nil =>
    intro i0 i1 j0 j1 hch _
    obtain ⟨e1, e2⟩ := hch
    omega
  | cons c rest ih =>
    intro i0 i1 j0 j1 hch hok
    obtain ⟨e1, e2, hch'⟩ := hch
    have hokc := hok c (List.mem_cons_self c rest)
    have h := ih hch' (fun c' hc' => hok c' (List.mem_cons_of_mem c hc'))
    have h1 := hokc.1
    have h2 := hokc.2.1
    omega

theorem oldSide_append (s1 s2 : List Span) :
    oldSide (s1 ++ s2) = oldSide s1 ++ oldSide s2 :=
  concatStyled_append _ s1 s2

theorem newSide_append (s1 s2 : List Span) :
    newSide (s1 ++ s2) = newSide s1 ++ newSide s2 :=
  concatStyled_append _ s1 s2

theorem hwd_sides (a b : List Char) :
    ∀ (ops : List Op) (i0 i1 j0 j1 : Nat),
      OpChain i0 i1 j0 j1 ops → (∀ c ∈ ops, OpOk a b c) →
      oldSide ((ops.map (hwdSpans a b)).flatten) = pySlice a i0 i1 ∧
      newSide ((ops.map (hwdSpans a b)).flatten) = pySlice b j0 j1 := by
  intro ops
  induction ops with
  | nil =>
    intro i0 i1 j0 j1 hch _
    obtain ⟨e1, e2⟩ := hch
    subst e1; subst e2
    rw [pySlice_self, pySlice_self]
    constructor <;> rfl
  | cons c rest ih =>
    intro i0 i1 j0 j1 hch hok
    obtain ⟨e1, e2, hch'⟩ := hch
    have hokc := hok c (List.mem_cons_self c rest)
    have hokr := fun c' hc' => hok c' (List.mem_cons_of_mem c hc')
    have hrec := ih c.i2 i1 c.j2 j1 hch' hokr
    have hle := opChain_le (a := a) (b := b) hch' hokr
    have hc1 := hokc.1
    have hc2 := hokc.2.1
    rw [List.map_cons, List.flatten_cons, oldSide_append, newSide_append,
      hrec.1, hrec.2]
    cases htag : c.tag with
    | equal =>
      obtain ⟨hsl, hlt, -⟩ := hokc.2.2.1 htag
      have h1 : oldSide (hwdSpans a b c) = pySlice a c.i1 c.i2 := by
        rw [hwdSpans, htag]
        simp [oldSide, concatStyled]
      have h2 : newSide (hwdSpans a b c) = pySlice b c.j1 c.j2 := by
        rw [hwdSpans, htag]
        simp [newSide, concatStyled]
        exact hsl
      rw [h1, h2, e1, e2]
      exact ⟨pySlice_append a (by omega) (by omega),
        pySlice_append b (by omega) (by omega)⟩
    | delete =>
      obtain ⟨hj, hlt⟩ := hokc.2.2.2.2.1 htag
      have h1 : oldSide (hwdSpans a b c) = pySlice a c.i1 c.i2 := by
        rw [hwdSpans, htag]
        simp [oldSide, concatStyled]
      have h2 : newSide (hwdSpans a b c) = [] := by
        rw [hwdSpans, htag]
        simp [newSide, concatStyled]
      rw [h1, h2, e1, List.nil_append]
      constructor
      · exact pySlice_append a (by omega) (by omega)
      · have : c.j2 = j0 := by omega
        rw [this]
    | insert =>
      obtain ⟨hi, hlt⟩ := hokc.2.2.2.1 htag
      have h1 : oldSide (hwdSpans a b c) = [] := by
        rw [hwdSpans, htag]
        simp [oldSide, concatStyled]
      have h2 : newSide (hwdSpans a b c) = pySlice b c.j1 c.j2 := by
        rw [hwdSpans, htag]
        simp [newSide, concatStyled]
      rw [h1, h2, e2, List.nil_append]
      constructor
      · have : c.i2 = i0 := by omega
        rw [this]
      · exact pySlice_append b (by omega) (by omega)
    | replace =>
      obtain ⟨hlt1, hlt2⟩ := hokc.2.2.2.2.2 htag
      have h1 : oldSide (hwdSpans a b c) = pySlice a c.i1 c.i2 := by
        rw [hwdSpans, htag]
        simp [oldSide, concatStyled, sepText]
      have h2 : newSide (hwdSpans a b c) = pySlice b c.j1 c.j2 := by
        rw [hwdSpans, htag]
        simp [newSide, concatStyled, sepText]
      rw [h1, h2, e1, e2]
      exact ⟨pySlice_append a (by omega) (by omega),
        pySlice_append b (by omega) (by omega)⟩

/-- Core of the amended C3: on any two lines, the unstyled and deleted spans
of `highlight_word_diff` concatenate exactly to the old line, and the
unstyled and inserted spans to the new line. -/
theorem highlightWordDiff_sides (oldLine newLine : List Char) :
    oldSide (highlightWordDiff oldLine newLine) = oldLine ∧
    newSide (highlightWordDiff oldLine newLine) = newLine := by
  obtain ⟨hch, hok⟩ := getOpcodes_sound oldLine newLine
  have h := hwd_sides oldLine newLine (getOpcodes oldLine newLine)
    0 oldLine.length 0 newLine.length hch hok
  rw [pySlice_all, pySlice_all] at h
  rw [highlightWordDiff]
  exact h

/-! ### Identical inputs: the matcher returns the full range

For `SequenceMatcher(None, l, l)` the DP's best match always lies on the
diagonal: `dlen i j` reproduces the `j2len` entry of cell `(i, j)`, an entry
never exceeds the corresponding diagonal entries (`dlen_le_diag_j`,
`dlen_le_diag_i`), and diagonal cells are reached first (row order for
`j < i`, ascending `b2j` order for `j > i`), so only a diagonal cell can
strictly improve the best.  The extension loops then stretch the diagonal
match to the full range. -/

/-- Validity of a DP cell `(i, j)` when comparing `l` with itself: both
indices in range, holding the same non-popular element. -/
def dcellb (l : List α) (alo ahi i j : Nat) : Bool :=
  decide (alo ≤ i) && decide (i < ahi) && decide (alo ≤ j) && decide (j < ahi) &&
  (match l.get? i, l.get? j with
   | some x, some y => decide (x = y) && !(isPopular l x)
   | _, _ => false)

/-- The `j2len` entry the DP computes at cell `(i, j)` when comparing `l`
with itself (ghost function, used only in proofs). -/
def dlen (l : List α) (alo ahi : Nat) : Nat → Nat → Nat
  | i, j =>
    if dcellb l alo ahi i j then
      (if alo < i ∧ 0 < j then dlen l alo ahi (i - 1) (j - 1) else 0) + 1
    else 0
termination_by i _ => i
decreasing_by simp_wf; omega

theorem dcellb_facts {l : List α} {alo ahi i j : Nat}
    (h : dcellb l alo ahi i j = true) :
    alo ≤ i ∧ i < ahi ∧ alo ≤ j ∧ j < ahi ∧
    l.get? i = l.get? j ∧ l.get? i ≠ none := by
  unfold dcellb at h
  simp only [Bool.and_eq_true, decide_eq_true_eq] at h
  obtain ⟨⟨⟨⟨h1, h2⟩, h3⟩, h4⟩, h5⟩ := h
  refine ⟨h1, h2, h3, h4, ?_⟩
  cases hga : l.get? i with
  | none => rw [hga] at h5; cases h5
  | some x =>
    cases hgb : l.get? j with
    | none => rw [hga, hgb] at h5; cases h5
    | some y =>
      rw [hga, hgb] at h5
      simp only [Bool.and_eq_true, decide_eq_true_eq] at h5
      exact ⟨by rw [h5.1], fun hc => Option.noConfusion hc⟩

theorem dlen_eq (l : List α) (alo ahi i j : Nat) :
    dlen l alo ahi i j =
      if dcellb l alo ahi i j then
        (if alo < i ∧ 0 < j then dlen l alo ahi (i - 1) (j - 1) else 0) + 1
      else 0 := by
  rw [dlen]

/-- A valid cell `(i, j)` makes the diagonal cell `(j, j)` valid. -/
theorem dcellb_diag_j {l : List α} {alo ahi i j : Nat}
    (h : dcellb l alo ahi i j = true) : dcellb l alo ahi j j = true := by
  unfold dcellb at h ⊢
  simp only [Bool.and_eq_true, decide_eq_true_eq] at h ⊢
  obtain ⟨⟨⟨⟨h1, h2⟩, h3⟩, h4⟩, h5⟩ := h
  refine ⟨⟨⟨⟨h3, h4⟩, h3⟩, h4⟩, ?_⟩
  cases hga : l.get? i with
  | none => rw [hga] at h5; cases h5
  | some x =>
    cases hgb : l.get? j with
    | none => rw [hga, hgb] at h5; cases h5
    | some y =>
      rw [hga, hgb] at h5
      simp only [Bool.and_eq_true, decide_eq_true_eq] at h5
      simp only [Bool.and_eq_true, decide_eq_true_eq]
      exact ⟨trivial, by rw [← h5.1]; exact h5.2⟩

/-- A valid cell `(i, j)` makes the diagonal cell `(i, i)` valid. -/
theorem dcellb_diag_i {l : List α} {alo ahi i j : Nat}
    (h : dcellb l alo ahi i j = true) : dcellb l alo ahi i i = true := by
  unfold dcellb at h ⊢
  simp only [Bool.and_eq_true, decide_eq_true_eq] at h ⊢
  obtain ⟨⟨⟨⟨h1, h2⟩, h3⟩, h4⟩, h5⟩ := h
  refine ⟨⟨⟨⟨h1, h2⟩, h1⟩, h2⟩, ?_⟩
  cases hga : l.get? i with
  | none => rw [hga] at h5; cases h5
  | some x =>
    cases hgb : l.get? j with
    | none => rw [hga, hgb] at h5; cases h5
    | some y =>
      rw [hga, hgb] at h5
      simp only [Bool.and_eq_true, decide_eq_true_eq] at h5
      simp only [Bool.and_eq_true, decide_eq_true_eq]
      exact ⟨trivial, h5.2⟩

/-- Any DP entry is dominated by the diagonal entry of its column. -/
theorem dlen_le_diag_j (l : List α) (alo ahi : Nat) :
    ∀ i j, dlen l alo ahi i j ≤ dlen l alo ahi j j := by
  intro i
  induction i using Nat.strong_induction_on with
  | _ i ih =>
    intro j
    rw [dlen_eq]
    split
    · next hc =>
      rw [dlen_eq l alo ahi j j, if_pos (dcellb_diag_j hc)]
      split
      · next hg =>
        have hfacts := dcellb_facts hc
        by_cases hgj : alo < j ∧ 0 < j
        · rw [if_pos hgj]
          have := ih (i - 1) (by omega) (j - 1)
          omega
        · rw [if_neg hgj]
          have hz : dlen l alo ahi (i - 1) (j - 1) = 0 := by
            rw [dlen_eq]
            split
            · next hc2 =>
              have hf2 := dcellb_facts hc2
              omega
            · rfl
          rw [hz]
      · omega
    · omega

/-- Any DP entry is dominated by the diagonal entry of its row. -/
theorem dlen_le_diag_i (l : List α) (alo ahi : Nat) :
    ∀ i j, dlen l alo ahi i j ≤ dlen l alo ahi i i := by
  intro i
  induction i using Nat.strong_induction_on with
  | _ i ih =>
    intro j
    rw [dlen_eq]
    split
    · next hc =>
      rw [dlen_eq l alo ahi i i, if_pos (dcellb_diag_i hc)]
      split
      · next hg =>
        have hgi : alo < i ∧ 0 < i := ⟨hg.1, by omega⟩
        rw [if_pos hgi]
        have := ih (i - 1) (by omega) (j - 1)
        have hd := dlen_le_diag_j l alo ahi (i - 1) (j - 1)
        omega
      · omega
    · omega

/-- First extension loop on identical inputs: any diagonal match slides all
the way down to `alo`. -/
theorem extendLo_diag (l : List α) (alo : Nat) (hl : alo ≤ l.length) :
    ∀ (fuel bi k : Nat), alo ≤ bi → bi ≤ l.length → bi ≤ fuel →
      extendLo l l alo alo fuel bi bi k = (alo, alo, k + (bi - alo)) := by
  intro fuel
  induction fuel with
  | zero =>
    intro bi k h1 h2 h3
    have : bi = 0 := by omega
    subst this
    have : alo = 0 := by omega
    subst this
    rfl
  | succ fuel ih =>
    intro bi k h1 h2 h3
    rw [extendLo]
    by_cases hb : alo < bi
    · have hget : ∃ x, l.get? (bi - 1) = some x := by
        cases hgx : l.get? (bi - 1) with
        | none =>
          have := List.get?_eq_none.mp hgx
          omega
        | some x => exact ⟨x, rfl⟩
      obtain ⟨x, hx⟩ := hget
      rw [if_pos]
      · have := ih (bi - 1) (k + 1) (by omega) (by omega) (by omega)
        rw [this]
        have e : k + 1 + (bi - 1 - alo) = k + (bi - alo) := by omega
        rw [e]
      · simp only [Bool.and_eq_true, decide_eq_true_eq]
        refine ⟨⟨hb, hb⟩, ?_⟩
        rw [hx]
        simp
    · rw [if_neg]
      · have e1 : bi = alo := by omega
        subst e1
        have e2 : k + (bi - bi) = k := by omega
        rw [e2]
      · simp only [Bool.and_eq_true, decide_eq_true_eq]
        intro hcon
        exact hb hcon.1.1

/-- Second extension loop on identical inputs: a diagonal match starting at
`alo` stretches to the full upper bound. -/
theorem extendHi_diag (l : List α) (alo ahi : Nat) (hl : ahi ≤ l.length) :
    ∀ (fuel k : Nat), alo + k ≤ ahi → ahi - (alo + k) ≤ fuel →
      extendHi l l ahi ahi fuel alo alo k = ahi - alo := by
  intro fuel
  induction fuel with
  | zero =>
    intro k h1 h2
    have : alo + k = ahi := by omega
    rw [extendHi]
    omega
  | succ fuel ih =>
    intro k h1 h2
    rw [extendHi]
    by_cases hb : alo + k < ahi
    · have hget : ∃ x, l.get? (alo + k) = some x := by
        cases hgx : l.get? (alo + k) with
        | none =>
          have := List.get?_eq_none.mp hgx
          omega
        | some x => exact ⟨x, rfl⟩
      obtain ⟨x, hx⟩ := hget
      rw [if_pos]
      · exact ih (k + 1) (by omega) (by omega)
      · simp only [Bool.and_eq_true, decide_eq_true_eq]
        refine ⟨⟨hb, hb⟩, ?_⟩
        rw [hx]
        simp
    · rw [if_neg]
      · omega
      · simp only [Bool.and_eq_true, decide_eq_true_eq]
        intro hcon
        exact hb hcon.1.1

/-- The ghost entry of an invalid cell is `0`. -/
theorem dlen_zero {l : List α} {alo ahi i j : Nat}
    (h : dcellb l alo ahi i j = false) : dlen l alo ahi i j = 0 := by
  simp [dlen_eq, h]

/-- A valid cell names a concrete, non-popular element whose occurrence list
contains `j` — exactly the `b2j` list the DP walks. -/
theorem dcellb_occ {l : List α} {alo ahi i j : Nat}
    (h : dcellb l alo ahi i j = true) :
    ∃ x, l.get? i = some x ∧ isPopular l x = false ∧ j ∈ occIndices l x := by
  unfold dcellb at h
  simp only [Bool.and_eq_true, decide_eq_true_eq] at h
  obtain ⟨⟨⟨⟨h1, h2⟩, h3⟩, h4⟩, h5⟩ := h
  cases hga : l.get? i with
  | none => rw [hga] at h5; cases h5
  | some x =>
    cases hgb : l.get? j with
    | none => rw [hga, hgb] at h5; cases h5
    | some y =>
      rw [hga, hgb] at h5
      simp only [Bool.and_eq_true, decide_eq_true_eq] at h5
      have hxy : x = y := h5.1
      have hpop : isPopular l x = false := by
        cases hp : isPopular l x with
        | false => rfl
        | true =>
          have h52 := h5.2
          rw [hp] at h52
          exact Bool.noConfusion h52
      refine ⟨x, rfl, hpop, ?_⟩
      unfold occIndices
      rw [List.mem_filter]
      refine ⟨?_, decide_eq_true (by rw [hgb, hxy])⟩
      rw [List.mem_range]
      by_contra hno
      rw [List.get?_eq_none.mpr (by omega)] at hgb
      exact Option.noConfusion hgb

/-- The value the inner loop computes at a valid cell is the ghost entry. -/
theorem dval_eq {l : List α} {alo ahi i j : Nat} {prevf : Nat → Nat}
    (hprev : ∀ j', prevf j' = (if alo < i then dlen l alo ahi (i - 1) j' else 0))
    (hc : dcellb l alo ahi i j = true) :
    (if j = 0 then 0 else prevf (j - 1)) + 1 = dlen l alo ahi i j := by
  rw [dlen_eq, if_pos hc]
  by_cases hj0 : j = 0
  · subst hj0
    rw [if_pos rfl, if_neg (show ¬(alo < i ∧ 0 < 0) by omega)]
  · rw [if_neg hj0, hprev (j - 1)]
    by_cases hai : alo < i
    · rw [if_pos hai, if_pos (show alo < i ∧ 0 < j by omega)]
    · rw [if_neg hai, if_neg (show ¬(alo < i ∧ 0 < j) by omega)]

/-- Inner loop of the self-comparison DP: the new map fills with the ghost
entries and the best, kept diagonal, ends up dominating every diagonal entry
up to the current row.  A strict improvement can only happen at the diagonal
cell, because a cell left of the diagonal is dominated by a diagonal cell of
an earlier row and a cell right of the diagonal is dominated by the diagonal
cell processed earlier in the same (ascending) occurrence list. -/
theorem innerLoop_diag (l : List α) (alo ahi i : Nat) (hi1 : alo ≤ i) (hi2 : i < ahi) :
    ∀ (js : List Nat) (prevf new : Nat → Nat) (best : Best),
      (∀ j, prevf j = (if alo < i then dlen l alo ahi (i - 1) j else 0)) →
      List.Pairwise (· < ·) js →
      (∀ j ∈ js, dcellb l alo ahi i j = true ∨ j < alo ∨ ahi ≤ j) →
      (∀ j, new j = (if j ∈ js then 0 else dlen l alo ahi i j)) →
      best.besti = best.bestj →
      (∀ d, d < i → dlen l alo ahi d d ≤ best.bestsize) →
      (i ∈ js ∨ dlen l alo ahi i i ≤ best.bestsize) →
      (∀ j, (innerLoop alo ahi i prevf js new best).1 j = dlen l alo ahi i j) ∧
      (innerLoop alo ahi i prevf js new best).2.besti =
        (innerLoop alo ahi i prevf js new best).2.bestj ∧
      (∀ d, d ≤ i →
        dlen l alo ahi d d ≤ (innerLoop alo ahi i prevf js new best).2.bestsize) := by
  intro js
  induction js with
  | nil =>
    intro prevf new best hprev hpw hjs hnew hd hb1 hb2
    rw [innerLoop]
    refine ⟨?_, hd, ?_⟩
    · intro j
      have h := hnew j
      rw [if_neg (List.not_mem_nil j)] at h
      exact h
    · intro d hdi
      rcases Nat.lt_or_ge d i with h | h
      · exact hb1 d h
      · have hdieq : d = i := by omega
        subst hdieq
        rcases hb2 with h2 | h2
        · exact absurd h2 (List.not_mem_nil d)
        · exact h2
  | cons j js ih =>
    intro prevf new best hprev hpw hjs hnew hd hb1 hb2
    have hpc := List.pairwise_cons.mp hpw
    have hjlt : ∀ j' ∈ js, j < j' := hpc.1
    have hpw' : List.Pairwise (· < ·) js := hpc.2
    have hjs' : ∀ j' ∈ js, dcellb l alo ahi i j' = true ∨ j' < alo ∨ ahi ≤ j' :=
      fun j' hj' => hjs j' (List.mem_cons_of_mem j hj')
    have hjnm : j ∉ js := fun hmem => absurd (hjlt j hmem) (lt_irrefl j)
    by_cases h1 : j < alo
    · rw [innerLoop, if_pos h1]
      have hcf : dcellb l alo ahi i j = false := by
        cases hcc : dcellb l alo ahi i j with
        | false => rfl
        | true => exact absurd (dcellb_facts hcc).2.2.1 (by omega)
      refine ih prevf new best hprev hpw' hjs' ?_ hd hb1 ?_
      · intro j'
        rw [hnew j']
        by_cases hm : j' ∈ js
        · rw [if_pos (List.mem_cons_of_mem j hm), if_pos hm]
        · rw [if_neg hm]
          by_cases hm2 : j' = j
          · subst hm2
            rw [if_pos (List.mem_cons_self j' js)]
            exact (dlen_zero hcf).symm
          · rw [if_neg (fun hmem => (List.mem_cons.mp hmem).elim hm2 hm)]
      · rcases hb2 with h2 | h2
        · rcases List.mem_cons.mp h2 with h3 | h3
          · omega
          · exact Or.inl h3
        · exact Or.inr h2
    · by_cases h2 : ahi ≤ j
      · rw [innerLoop, if_neg h1, if_pos h2]
        refine ⟨?_, hd, ?_⟩
        · intro j'
          show new j' = dlen l alo ahi i j'
          rw [hnew j']
          by_cases hm : j' ∈ j :: js
          · rw [if_pos hm]
            have hge : ahi ≤ j' := by
              rcases List.mem_cons.mp hm with h3 | h3
              · omega
              · have := hjlt j' h3; omega
            have hcf : dcellb l alo ahi i j' = false := by
              cases hcc : dcellb l alo ahi i j' with
              | false => rfl
              | true => exact absurd (dcellb_facts hcc).2.2.2.1 (by omega)
            exact (dlen_zero hcf).symm
          · rw [if_neg hm]
        · intro d hdi
          rcases Nat.lt_or_ge d i with h | h
          · exact hb1 d h
          · have hdieq : d = i := by omega
            subst hdieq
            rcases hb2 with h3 | h3
            · exfalso
              rcases List.mem_cons.mp h3 with h4 | h4
              · omega
              · have := hjlt d h4; omega
            · exact h3
      · rw [innerLoop, if_neg h1, if_neg h2]
        have hc : dcellb l alo ahi i j = true := by
          rcases hjs j (List.mem_cons_self j js) with h3 | h3 | h3
          · exact h3
          · omega
          · omega
        have hval := dval_eq hprev hc
        have hnew' : ∀ j', Function.update new j
            ((if j = 0 then 0 else prevf (j - 1)) + 1) j' =
            (if j' ∈ js then 0 else dlen l alo ahi i j') := by
          intro j'
          by_cases hm2 : j' = j
          · subst hm2
            rw [Function.update_same, if_neg hjnm]
            exact hval
          · rw [Function.update_noteq hm2, hnew j']
            by_cases hm : j' ∈ js
            · rw [if_pos (List.mem_cons_of_mem j hm), if_pos hm]
            · rw [if_neg (fun hmem => (List.mem_cons.mp hmem).elim hm2 hm), if_neg hm]
        by_cases hu : best.bestsize < (if j = 0 then 0 else prevf (j - 1)) + 1
        · rw [if_pos hu]
          have hji : j = i := by
            by_contra hne
            rcases Nat.lt_or_ge j i with hlt | hge
            · have hdj := dlen_le_diag_j l alo ahi i j
              have hbj := hb1 j hlt
              omega
            · have hgt : i < j := by omega
              have hii : dlen l alo ahi i i ≤ best.bestsize := by
                rcases hb2 with h3 | h3
                · exfalso
                  rcases List.mem_cons.mp h3 with h4 | h4
                  · omega
                  · have := hjlt i h4; omega
                · exact h3
              have hdi' := dlen_le_diag_i l alo ahi i j
              omega
          subst hji
          refine ih prevf _ _ hprev hpw' hjs' hnew' rfl ?_ ?_
          · intro d hdlt
            have hb := hb1 d hdlt
            show dlen l alo ahi d d ≤ (if j = 0 then 0 else prevf (j - 1)) + 1
            omega
          · right
            show dlen l alo ahi j j ≤ (if j = 0 then 0 else prevf (j - 1)) + 1
            omega
        · rw [if_neg hu]
          refine ih prevf _ best hprev hpw' hjs' hnew' hd hb1 ?_
          rcases hb2 with h3 | h3
          · rcases List.mem_cons.mp h3 with h4 | h4
            · right
              rw [h4] at hval ⊢
              omega
            · exact Or.inl h4
          · exact Or.inr h3

/-- The whole self-comparison DP keeps the best match on the diagonal. -/
theorem dpLoop_diag (l : List α) (alo ahi : Nat) :
    ∀ (m i0 : Nat) (prevf : Nat → Nat) (best : Best),
      alo ≤ i0 → i0 + m = ahi →
      (∀ j, prevf j = (if alo < i0 then dlen l alo ahi (i0 - 1) j else 0)) →
      best.besti = best.bestj →
      (∀ d, d < i0 → dlen l alo ahi d d ≤ best.bestsize) →
      (dpLoop l l alo ahi (List.range' i0 m) prevf best).besti =
        (dpLoop l l alo ahi (List.range' i0 m) prevf best).bestj := by
  intro m
  induction m with
  | zero => intro i0 prevf best _ _ _ hd _; exact hd
  | succ m ih =>
    intro i0 prevf best h1 h2 hprev hd hb1
    rw [List.range'_succ, dpLoop]
    have hlt : i0 < ahi := by omega
    have hpw : List.Pairwise (· < ·)
        (match l.get? i0 with | some x => b2jGet l x | none => ([] : List Nat)) := by
      cases l.get? i0 with
      | none => exact List.Pairwise.nil
      | some x =>
        show List.Pairwise (· < ·) (b2jGet l x)
        unfold b2jGet
        split
        · exact List.Pairwise.nil
        · exact (List.pairwise_lt_range _).filter _
    have hjs : ∀ j ∈ (match l.get? i0 with | some x => b2jGet l x | none => ([] : List Nat)),
        dcellb l alo ahi i0 j = true ∨ j < alo ∨ ahi ≤ j := by
      cases hgx : l.get? i0 with
      | none => intro j hj; cases hj
      | some x =>
        intro j hj
        have hj' : j ∈ b2jGet l x := hj
        by_cases hja : j < alo
        · exact Or.inr (Or.inl hja)
        · by_cases hjh : ahi ≤ j
          · exact Or.inr (Or.inr hjh)
          · refine Or.inl ?_
            have hmem := b2jGet_mem hj'
            have hpop : isPopular l x = false := by
              cases hpp : isPopular l x with
              | false => rfl
              | true =>
                exfalso
                have hb : b2jGet l x = [] := by
                  unfold b2jGet
                  rw [if_pos hpp]
                rw [hb] at hj'
                cases hj'
            unfold dcellb
            simp only [Bool.and_eq_true, decide_eq_true_eq]
            refine ⟨⟨⟨⟨h1, hlt⟩, by omega⟩, by omega⟩, ?_⟩
            rw [hgx, hmem]
            simp [hpop]
    have hnew0 : ∀ j, (fun _ : Nat => (0 : Nat)) j =
        (if j ∈ (match l.get? i0 with | some x => b2jGet l x | none => ([] : List Nat))
         then 0 else dlen l alo ahi i0 j) := by
      intro j
      by_cases hm : j ∈ (match l.get? i0 with | some x => b2jGet l x | none => ([] : List Nat))
      · rw [if_pos hm]
      · rw [if_neg hm]
        have hcf : dcellb l alo ahi i0 j = false := by
          cases hcc : dcellb l alo ahi i0 j with
          | false => rfl
          | true =>
            exfalso
            obtain ⟨x, hx, hpop, hocc⟩ := dcellb_occ hcc
            apply hm
            rw [hx]
            show j ∈ b2jGet l x
            simpa [b2jGet, hpop] using hocc
        exact (dlen_zero hcf).symm
    have hb2 : i0 ∈ (match l.get? i0 with | some x => b2jGet l x | none => ([] : List Nat)) ∨
        dlen l alo ahi i0 i0 ≤ best.bestsize := by
      cases hcc : dcellb l alo ahi i0 i0 with
      | false =>
        right
        rw [dlen_zero hcc]
        exact Nat.zero_le _
      | true =>
        left
        obtain ⟨x, hx, hpop, hocc⟩ := dcellb_occ hcc
        rw [hx]
        show i0 ∈ b2jGet l x
        simpa [b2jGet, hpop] using hocc
    have step := innerLoop_diag l alo ahi i0 h1 hlt
      (match l.get? i0 with | some x => b2jGet l x | none => ([] : List Nat))
      prevf (fun _ => 0) best hprev hpw hjs hnew0 hd hb1 hb2
    refine ih (i0 + 1) _ _ (by omega) (by omega) ?_ step.2.1 ?_
    · intro j
      have hs := step.1 j
      rw [if_pos (show alo < i0 + 1 by omega)]
      simpa using hs
    · intro d hd'
      exact step.2.2 d (by omega)

/-- `find_longest_match` on identical ranges of identical sequences returns
the whole range. -/
theorem findLongestMatch_diag (l : List α) (alo ahi : Nat)
    (h1 : alo ≤ ahi) (h2 : ahi ≤ l.length) :
    findLongestMatch l l alo ahi alo ahi = (alo, alo, ahi - alo) := by
  have hdiag0 : (dpLoop l l alo ahi (List.range' alo (ahi - alo)) (fun _ => 0)
      (⟨alo, alo, 0⟩ : Best)).besti =
      (dpLoop l l alo ahi (List.range' alo (ahi - alo)) (fun _ => 0)
      (⟨alo, alo, 0⟩ : Best)).bestj := by
    refine dpLoop_diag l alo ahi (ahi - alo) alo (fun _ => 0) ⟨alo, alo, 0⟩
      (le_refl alo) (by omega) ?_ rfl ?_
    · intro j
      rw [if_neg (lt_irrefl alo)]
    · intro d hdlt
      have hcf : dcellb l alo ahi d d = false := by
        cases hcc : dcellb l alo ahi d d with
        | false => rfl
        | true => exact absurd (dcellb_facts hcc).1 (by omega)
      rw [dlen_zero hcf]
  have hgood : GoodBestM l l alo ahi alo ahi
      (dpLoop l l alo ahi (List.range' alo (ahi - alo)) (fun _ => 0)
        (⟨alo, alo, 0⟩ : Best)) :=
    dpLoop_sound l l h2 (ahi - alo) alo _ _ (le_refl alo) (by omega)
      (by intro j hj; exact absurd rfl hj) (Or.inl rfl)
  set best := dpLoop l l alo ahi (List.range' alo (ahi - alo)) (fun _ => 0)
    (⟨alo, alo, 0⟩ : Best) with hbdef
  have hbnd : alo ≤ best.besti ∧ best.besti + best.bestsize ≤ ahi := by
    rcases hgood with h | ⟨hn, hb, hc, _, _, _⟩
    · rw [h]
      show alo ≤ alo ∧ alo + 0 ≤ ahi
      omega
    · exact ⟨hb, hc⟩
  have hlo := extendLo_diag l alo (by omega) best.besti best.besti best.bestsize
    hbnd.1 (by omega) (le_refl _)
  have hhi := extendHi_diag l alo ahi h2
    (ahi - (alo + (best.bestsize + (best.besti - alo))))
    (best.bestsize + (best.besti - alo)) (by omega) (le_refl _)
  show ((extendLo l l alo alo best.besti best.besti best.bestj best.bestsize).1,
        (extendLo l l alo alo best.besti best.besti best.bestj best.bestsize).2.1,
        extendHi l l ahi ahi
          (ahi - ((extendLo l l alo alo best.besti best.besti best.bestj best.bestsize).1 +
            (extendLo l l alo alo best.besti best.besti best.bestj best.bestsize).2.2))
          (extendLo l l alo alo best.besti best.besti best.bestj best.bestsize).1
          (extendLo l l alo alo best.besti best.besti best.bestj best.bestsize).2.1
          (extendLo l l alo alo best.besti best.besti best.bestj best.bestsize).2.2) =
      (alo, alo, ahi - alo)
  rw [← hdiag0]
  rw [hlo]
  show (alo, alo, extendHi l l ahi ahi
      (ahi - (alo + (best.bestsize + (best.besti - alo)))) alo alo
      (best.bestsize + (best.besti - alo))) = (alo, alo, ahi - alo)
  rw [hhi]

/-- `get_opcodes` on identical inputs: a single `equal` opcode covering
everything (or nothing at all for empty input). -/
theorem getOpcodes_self (l : List α) :
    getOpcodes l l =
      if l.length = 0 then [] else [⟨Tag.equal, 0, l.length, 0, l.length⟩] := by
  by_cases h0 : l.length = 0
  · rw [if_pos h0, getOpcodes, getMatchingBlocks, matchingBlocksRec, h0]
    rfl
  · rw [if_neg h0]
    obtain ⟨m, hm⟩ : ∃ m, l.length = m + 1 := ⟨l.length - 1, by omega⟩
    have hflm : findLongestMatch l l 0 (m + 1) 0 (m + 1) = (0, 0, m + 1) := by
      have h := findLongestMatch_diag l 0 l.length (by omega) (le_refl _)
      rw [hm] at h
      simpa using h
    rw [getOpcodes, getMatchingBlocks, matchingBlocksRec, hm, Nat.sub_zero]
    rw [matchingBlocksRecFuel, hflm]
    simp only [Nat.zero_add, Nat.add_zero]
    rw [if_neg (show ¬(m + 1 = 0) by omega)]
    rw [if_neg (show ¬((0 : Nat) < 0 ∧ (0 : Nat) < 0) by omega)]
    rw [if_neg (show ¬(m + 1 < m + 1 ∧ m + 1 < m + 1) by omega)]
    rw [List.nil_append]
    rw [mergeAdjacent]
    rw [if_pos (show (0 : Nat) + 0 = 0 ∧ (0 : Nat) + 0 = 0 by omega)]
    rw [mergeAdjacent]
    rw [if_pos (show (0 : Nat) + (m + 1) ≠ 0 by omega)]
    simp only [Nat.zero_add]
    rw [List.cons_append, List.nil_append]
    rw [opcodesLoop]
    rw [if_neg (show ¬((0 : Nat) < 0 ∧ (0 : Nat) < 0) by omega)]
    rw [if_neg (show ¬((0 : Nat) < 0) by omega)]
    rw [if_neg (show ¬((0 : Nat) < 0) by omega)]
    rw [if_pos (show m + 1 ≠ 0 by omega)]
    simp only [Nat.zero_add, List.nil_append]
    rw [opcodesLoop]
    rw [if_neg (show ¬(m + 1 < m + 1 ∧ m + 1 < m + 1) by omega)]
    rw [if_neg (show ¬(m + 1 < m + 1) by omega)]
    rw [if_neg (show ¬(m + 1 < m + 1) by omega)]
    rw [if_neg (show ¬((0 : Nat) ≠ 0) by omega)]
    rw [opcodesLoop]
    simp only [List.nil_append, List.append_nil]

/-- Grouping a single all-covering `equal` opcode yields no group: the head
and tail trims leave one short `equal` opcode, and the final loop drops a
group that is a lone `equal` opcode. -/
theorem groupSingleEqual (n L : Nat) :
    groupLoop n [] (trimLast n (trimHead n [⟨Tag.equal, 0, L, 0, L⟩])) = [] := by
  rw [trimHead, if_pos rfl]
  rw [trimLast]
  rw [List.getLast?_singleton]
  simp only []
  rw [if_pos trivial]
  rw [List.dropLast_single, List.nil_append]
  rw [groupLoop]
  split
  · next hcond =>
    exfalso
    have hc2 := hcond.2
    simp only [] at hc2
    omega
  · rw [List.nil_append, groupLoop]
    simp only []
    rw [if_pos trivial]

/-- `get_grouped_opcodes` on identical inputs yields no group at all. -/
theorem getGroupedOpcodes_self (l : List α) (n : Nat) :
    getGroupedOpcodes l l n = [] := by
  rw [getGroupedOpcodes]
  by_cases h0 : l.length = 0
  · have hop : getOpcodes l l = [] := by rw [getOpcodes_self l, if_pos h0]
    rw [hop, if_pos rfl]
    exact groupSingleEqual n 1
  · have hop : getOpcodes l l = [⟨Tag.equal, 0, l.length, 0, l.length⟩] := by
      rw [getOpcodes_self l, if_neg h0]
    rw [hop, if_neg (List.cons_ne_nil _ _)]
    exact groupSingleEqual n l.length

/-- `unified_diff` on identical line lists emits nothing, not even the file
headers. -/
theorem unifiedDiffLines_self (a : List (List Char)) : unifiedDiffLines a a = [] := by
  rw [unifiedDiffLines, getGroupedOpcodes_self]

/-! ### Decimal rendering round-trips through the hunk-header regex

`unified_diff` prints the hunk ranges with `str(...)`; `create_diff_view`
parses them back with the regex and `int(...)`.  These lemmas show the
round-trip is exact. -/

/-- Reference form of `str(n)`: digits most significant first. -/
def digitsOf (n : Nat) : List Char :=
  if h : n < 10 then [Char.ofNat (48 + n % 10)]
  else digitsOf (n / 10) ++ [Char.ofNat (48 + n % 10)]
termination_by n
decreasing_by exact Nat.div_lt_self (by omega) (by omega)

theorem digitChar_isDigit {d : Nat} (h : d < 10) :
    (Char.ofNat (48 + d)).isDigit = true := by
  interval_cases d <;> decide

theorem digitChar_toNat {d : Nat} (h : d < 10) :
    (Char.ofNat (48 + d)).toNat = 48 + d := by
  interval_cases d <;> decide

theorem digitsOf_eq (n : Nat) :
    digitsOf n = if n < 10 then [Char.ofNat (48 + n % 10)]
      else digitsOf (n / 10) ++ [Char.ofNat (48 + n % 10)] := by
  rw [digitsOf]
  split
  · rfl
  · rfl

theorem natToCharsGo_eq_digitsOf :
    ∀ (fuel n : Nat) (acc : List Char), n / 10 ≤ fuel →
      natToCharsGo fuel n acc = digitsOf n ++ acc := by
  intro fuel
  induction fuel with
  | zero =>
    intro n acc h
    have hn : n < 10 := by omega
    rw [natToCharsGo, digitsOf_eq, if_pos hn]
    rfl
  | succ fuel ih =>
    intro n acc h
    by_cases hn : n < 10
    · rw [natToCharsGo, if_pos hn, digitsOf_eq, if_pos hn]
      rfl
    · rw [natToCharsGo, if_neg hn, digitsOf_eq, if_neg hn, List.append_assoc]
      refine ih (n / 10) _ ?_
      have h1 : 1 ≤ n / 10 := (Nat.one_le_div_iff (by omega)).mpr (by omega)
      have h2 : n / 10 / 10 < n / 10 := Nat.div_lt_self (by omega) (by omega)
      omega

theorem natToChars_eq_digitsOf (n : Nat) : natToChars n = digitsOf n := by
  rw [natToChars, natToCharsGo_eq_digitsOf n n [] (by omega), List.append_nil]

theorem digitsOf_ne_nil (n : Nat) : digitsOf n ≠ [] := by
  rw [digitsOf_eq]
  split
  · exact List.cons_ne_nil _ _
  · intro h
    exact absurd (List.append_eq_nil.mp h).2 (List.cons_ne_nil _ _)

theorem digitsOf_all_digit (n : Nat) :
    ∀ c ∈ digitsOf n, c.isDigit = true := by
  induction n using Nat.strong_induction_on with
  | _ n ih =>
    rw [digitsOf_eq]
    split
    · intro c hc
      rw [List.mem_singleton] at hc
      subst hc
      exact digitChar_isDigit (Nat.mod_lt _ (by omega))
    · next hn =>
      intro c hc
      rcases List.mem_append.mp hc with h | h
      · exact ih (n / 10) (Nat.div_lt_self (by omega) (by omega)) c h
      · rw [List.mem_singleton] at h
        subst h
        exact digitChar_isDigit (Nat.mod_lt _ (by omega))

theorem valFold_append (v : Nat) (l1 l2 : List Char) :
    (l1 ++ l2).foldl (fun n c => n * 10 + (c.toNat - 48)) v =
      l2.foldl (fun n c => n * 10 + (c.toNat - 48))
        (l1.foldl (fun n c => n * 10 + (c.toNat - 48)) v) :=
  List.foldl_append _ _ _ _

theorem valFold_digitsOf (n : Nat) :
    ∀ v : Nat, (digitsOf n).foldl (fun m c => m * 10 + (c.toNat - 48)) v =
      v * 10 ^ (digitsOf n).length + n := by
  induction n using Nat.strong_induction_on with
  | _ n ih =>
    intro v
    rw [digitsOf_eq]
    split
    · next hn =>
      show v * 10 + ((Char.ofNat (48 + n % 10)).toNat - 48) = v * 10 ^ 1 + n
      rw [digitChar_toNat (Nat.mod_lt _ (by omega))]
      have : n % 10 = n := Nat.mod_eq_of_lt hn
      rw [pow_one]
      omega
    · next hn =>
      rw [valFold_append, ih (n / 10) (Nat.div_lt_self (by omega) (by omega)) v,
        List.length_append, List.length_singleton]
      show (v * 10 ^ (digitsOf (n / 10)).length + n / 10) * 10 +
          ((Char.ofNat (48 + n % 10)).toNat - 48) =
        v * 10 ^ ((digitsOf (n / 10)).length + 1) + n
      rw [digitChar_toNat (Nat.mod_lt _ (by omega)), pow_succ]
      have hdm := Nat.div_add_mod n 10
      have hmod : n % 10 < 10 := Nat.mod_lt _ (by omega)
      calc (v * 10 ^ (digitsOf (n / 10)).length + n / 10) * 10 + (48 + n % 10 - 48)
          = v * (10 ^ (digitsOf (n / 10)).length * 10) + (n / 10 * 10 + n % 10) := by
            ring_nf
            omega
        _ = v * (10 ^ (digitsOf (n / 10)).length * 10) + n := by omega

theorem digitsToNat_digitsOf (n : Nat) : digitsToNat (digitsOf n) = n := by
  rw [digitsToNat, valFold_digitsOf n 0]
  omega

theorem pyInt_natToChars (n : Nat) : pyInt (natToChars n) = .ok (n : Int) := by
  rw [natToChars_eq_digitsOf]
  rw [pyInt_ok (digitsOf_ne_nil n) (by rw [List.all_eq_true]; exact digitsOf_all_digit n)]
  rw [digitsToNat_digitsOf]

theorem takeWhile_append_all {p : Char → Bool} :
    ∀ {l r : List Char}, (∀ c ∈ l, p c = true) →
      (l ++ r).takeWhile p = l ++ r.takeWhile p := by
  intro l
  induction l with
  | nil => intro r _; rfl
  | cons c cs ih =>
    intro r h
    rw [List.cons_append, List.takeWhile_cons, h c (List.mem_cons_self c cs)]
    rw [ih (fun c' hc' => h c' (List.mem_cons_of_mem c hc'))]
    rw [if_pos rfl]
    rfl

theorem dropWhile_append_all {p : Char → Bool} :
    ∀ {l r : List Char}, (∀ c ∈ l, p c = true) →
      (l ++ r).dropWhile p = r.dropWhile p := by
  intro l
  induction l with
  | nil => intro r _; rfl
  | cons c cs ih =>
    intro r h
    rw [List.cons_append, List.dropWhile_cons, h c (List.mem_cons_self c cs)]
    rw [if_pos rfl]
    exact ih (fun c' hc' => h c' (List.mem_cons_of_mem c hc'))

/-- The first number printed by `_format_range_unified(lo, hi)`. -/
def fmtStart (lo hi : Nat) : Nat := if hi - lo = 0 then lo else lo + 1

theorem fmt_cases (lo hi : Nat) :
    fmtRangeUnified lo hi = natToChars (fmtStart lo hi) ∨
    fmtRangeUnified lo hi =
      natToChars (fmtStart lo hi) ++ ',' :: natToChars (hi - lo) := by
  rw [fmtRangeUnified]
  by_cases h1 : hi - lo = 1
  · left
    rw [if_pos h1, fmtStart, if_neg (by omega)]
  · right
    rw [if_neg h1, fmtStart]

/-- Parsing a printed range followed by a space: the leading digits are the
printed start, and skipping the optional `,length` part lands exactly on the
space. -/
theorem parseRange (lo hi : Nat) (r : List Char) :
    ((fmtRangeUnified lo hi ++ ' ' :: r).takeWhile (·.isDigit) =
      natToChars (fmtStart lo hi)) ∧
    ((skipComma ((fmtRangeUnified lo hi ++ ' ' :: r).dropWhile
      (·.isDigit))).dropWhile (·.isDigit) = ' ' :: r) := by
  have hdig : ∀ c ∈ natToChars (fmtStart lo hi), c.isDigit = true := by
    rw [natToChars_eq_digitsOf]
    exact digitsOf_all_digit _
  have hdig2 : ∀ c ∈ natToChars (hi - lo), c.isDigit = true := by
    rw [natToChars_eq_digitsOf]
    exact digitsOf_all_digit _
  rcases fmt_cases lo hi with h | h
  · rw [h]
    constructor
    · rw [takeWhile_append_all hdig]
      have htw : List.takeWhile (fun c => c.isDigit) (' ' :: r) = [] := rfl
      rw [htw, List.append_nil]
    · rw [dropWhile_append_all hdig]
      rfl
  · rw [h]
    constructor
    · rw [List.append_assoc, takeWhile_append_all hdig]
      have htw : List.takeWhile (fun c => c.isDigit)
          ((',' :: natToChars (hi - lo)) ++ ' ' :: r) = [] := rfl
      rw [htw, List.append_nil]
    · rw [List.append_assoc, dropWhile_append_all hdig]
      have hdw : List.dropWhile (fun c => c.isDigit)
          ((',' :: natToChars (hi - lo)) ++ ' ' :: r) =
          (',' :: natToChars (hi - lo)) ++ ' ' :: r := rfl
      rw [hdw]
      have hsc : skipComma ((',' :: natToChars (hi - lo)) ++ ' ' :: r) =
          natToChars (hi - lo) ++ ' ' :: r := rfl
      rw [hsc, dropWhile_append_all hdig2]
      rfl

/-- The emitted hunk header, in right-nested form. -/
theorem hunkHeader_explicit {g : List Op} {cf cl : Op}
    (hh : g.head? = some cf) (hl : g.getLast? = some cl) :
    hunkHeader g = '@' :: '@' :: ' ' :: '-' ::
      (fmtRangeUnified cf.i1 cl.i2 ++ ' ' :: '+' ::
        (fmtRangeUnified cf.j1 cl.j2 ++ [' ', '@', '@'])) := by
  rw [hunkHeader, hh, hl]
  simp [List.cons_append, List.append_assoc]

/-- The hunk-header regex of `create_diff_view` parses the header that
`unified_diff` emitted, recovering the two printed start values. -/
theorem matchHunkHeader_hunkHeader {g : List Op} {cf cl : Op}
    (hh : g.head? = some cf) (hl : g.getLast? = some cl) :
    matchHunkHeader (hunkHeader g) =
      some (natToChars (fmtStart cf.i1 cl.i2), natToChars (fmtStart cf.j1 cl.j2)) := by
  rw [hunkHeader_explicit hh hl]
  show matchHunkTail0 (fmtRangeUnified cf.i1 cl.i2 ++ ' ' :: '+' ::
    (fmtRangeUnified cf.j1 cl.j2 ++ [' ', '@', '@'])) = _
  have hp := parseRange cf.i1 cl.i2 ('+' ::
    (fmtRangeUnified cf.j1 cl.j2 ++ [' ', '@', '@']))
  rw [matchHunkTail0, hp.1]
  rw [if_neg (by rw [natToChars_eq_digitsOf]; exact digitsOf_ne_nil _)]
  rw [hp.2]
  show matchHunkTail1 (natToChars (fmtStart cf.i1 cl.i2))
    (fmtRangeUnified cf.j1 cl.j2 ++ [' ', '@', '@']) = _
  have hp2 := parseRange cf.j1 cl.j2 ('@' :: '@' :: [])
  rw [matchHunkTail1, hp2.1]
  rw [if_neg (by rw [natToChars_eq_digitsOf]; exact digitsOf_ne_nil _)]
  rw [matchHunkTail2, hp2.2]
  rfl

/-! ### Shapes of the two passes on each kind of diff line -/

theorem pass1Step_context (st : Pass1State) (c : List Char) :
    pass1Step st (' ' :: c) =
      .ok { st with tlo := st.tlo + 1, tlm := st.tlm + 1, lastRemoved := none } := rfl

theorem pass1Step_delete (st : Pass1State) (c : List Char)
    (h : ("--").data.isPrefixOf c = false) :
    pass1Step st ('-' :: c) =
      .ok { st with
              tlo := st.tlo + 1
              removedLines := dictSet st.removedLines (st.tlo + 1) (none, some c)
              lastRemoved := some (st.tlo + 1) } := by
  have e1 : ("---").data.isPrefixOf ('-' :: c) = ("--").data.isPrefixOf c := rfl
  have e2 : ("+++").data.isPrefixOf ('-' :: c) = false := rfl
  rw [pass1Step, e1, e2, h]
  rw [if_neg (show ¬((false || false) = true) by decide)]
  have e3 : ("@@").data.isPrefixOf ('-' :: c) = false := rfl
  rw [e3, if_neg (show ¬(false = true) by decide)]
  have e4 : ("+").data.isPrefixOf ('-' :: c) = false := rfl
  rw [e4, if_neg (show ¬(false = true) by decide)]
  have e5 : ("-").data.isPrefixOf ('-' :: c) = true := by simp [List.isPrefixOf]
  rw [e5, if_pos rfl]
  rfl

theorem pass1Step_insert_some (st : Pass1State) (c : List Char) (lr : Int)
    (h : ("++").data.isPrefixOf c = false) (h2 : st.lastRemoved = some lr) :
    pass1Step st ('+' :: c) =
      .ok { st with
              tlm := st.tlm + 1
              addedLines := dictSet st.addedLines (st.tlm + 1) c
              removedLines := dictSet st.removedLines lr
                (some (st.tlm + 1),
                 (match dictGet st.removedLines lr with
                  | some v => v.2
                  | none => none))
              lastRemoved := none } := by
  have e1 : ("---").data.isPrefixOf ('+' :: c) = false := rfl
  have e2 : ("+++").data.isPrefixOf ('+' :: c) = ("++").data.isPrefixOf c := rfl
  rw [pass1Step, e1, e2, h]
  rw [if_neg (show ¬((false || false) = true) by decide)]
  have e3 : ("@@").data.isPrefixOf ('+' :: c) = false := rfl
  rw [e3, if_neg (show ¬(false = true) by decide)]
  have e4 : ("+").data.isPrefixOf ('+' :: c) = true := by simp [List.isPrefixOf]
  rw [e4, if_pos rfl, h2]
  rfl

theorem pass1Step_insert_none (st : Pass1State) (c : List Char)
    (h : ("++").data.isPrefixOf c = false) (h2 : st.lastRemoved = none) :
    pass1Step st ('+' :: c) =
      .ok { st with
              tlm := st.tlm + 1
              addedLines := dictSet st.addedLines (st.tlm + 1) c } := by
  have e1 : ("---").data.isPrefixOf ('+' :: c) = false := rfl
  have e2 : ("+++").data.isPrefixOf ('+' :: c) = ("++").data.isPrefixOf c := rfl
  rw [pass1Step, e1, e2, h]
  rw [if_neg (show ¬((false || false) = true) by decide)]
  have e3 : ("@@").data.isPrefixOf ('+' :: c) = false := rfl
  rw [e3, if_neg (show ¬(false = true) by decide)]
  have e4 : ("+").data.isPrefixOf ('+' :: c) = true := by simp [List.isPrefixOf]
  rw [e4, if_pos rfl, h2]
  rfl

theorem pass1Step_at_header (st : Pass1State) (line : List Char) (n1 n3 : Nat)
    (hpre1 : ("---").data.isPrefixOf line = false)
    (hpre2 : ("+++").data.isPrefixOf line = false)
    (hpre3 : ("@@").data.isPrefixOf line = true)
    (hmatch : matchHunkHeader line = some (natToChars n1, natToChars n3)) :
    pass1Step st line =
      .ok { st with tlo := (n1 : Int) - 1, tlm := (n3 : Int) - 1 } := by
  rw [pass1Step, hpre1, hpre2]
  rw [if_neg (show ¬((false || false) = true) by decide)]
  rw [hpre3, if_pos rfl, hmatch]
  show (do
    let v1 ← pyInt (natToChars n1)
    let v3 ← pyInt (natToChars n3)
    Except.ok { st with tlo := v1 - 1, tlm := v3 - 1 }) = _
  rw [exceptBindOk _ _ _ (pyInt_natToChars n1)]
  rw [exceptBindOk _ _ _ (pyInt_natToChars n3)]

theorem pass2Step_context (rl : List (Int × RLVal)) (st : Pass2State) (c : List Char) :
    pass2Step rl st (' ' :: c) =
      .ok { st with
              lno := st.lno + 1
              lnm := st.lnm + 1
              rows := st.rows ++ [.context (intToChars (st.lno + 1)) c] } := rfl

theorem pass2Step_delete_paired (rl : List (Int × RLVal)) (st : Pass2State)
    (c : List Char) (m : Int) (y : Option (List Char))
    (h : ("--").data.isPrefixOf c = false)
    (hd : dictGet rl (st.lno + 1) = some (some m, y)) :
    pass2Step rl st ('-' :: c) = .ok { st with lno := st.lno + 1 } := by
  have e1 : ("---").data.isPrefixOf ('-' :: c) = ("--").data.isPrefixOf c := rfl
  have e2 : ("+++").data.isPrefixOf ('-' :: c) = false := rfl
  rw [pass2Step, e1, e2, h]
  rw [if_neg (show ¬((false || false) = true) by decide)]
  have e3 : ("@@").data.isPrefixOf ('-' :: c) = false := rfl
  rw [e3, if_neg (show ¬(false = true) by decide)]
  have e4 : ("+").data.isPrefixOf ('-' :: c) = false := rfl
  rw [e4, if_neg (show ¬(false = true) by decide)]
  have e5 : ("-").data.isPrefixOf ('-' :: c) = true := by simp [List.isPrefixOf]
  rw [e5, if_pos rfl, hd]

theorem pass2Step_delete_unpaired (rl : List (Int × RLVal)) (st : Pass2State)
    (c : List Char) (y : Option (List Char))
    (h : ("--").data.isPrefixOf c = false)
    (hd : dictGet rl (st.lno + 1) = some (none, y)) :
    pass2Step rl st ('-' :: c) =
      .ok { st with
              lno := st.lno + 1
              rows := st.rows ++ [.removed ('-' :: intToChars (st.lno + 1)) c] } := by
  have e1 : ("---").data.isPrefixOf ('-' :: c) = ("--").data.isPrefixOf c := rfl
  have e2 : ("+++").data.isPrefixOf ('-' :: c) = false := rfl
  rw [pass2Step, e1, e2, h]
  rw [if_neg (show ¬((false || false) = true) by decide)]
  have e3 : ("@@").data.isPrefixOf ('-' :: c) = false := rfl
  rw [e3, if_neg (show ¬(false = true) by decide)]
  have e4 : ("+").data.isPrefixOf ('-' :: c) = false := rfl
  rw [e4, if_neg (show ¬(false = true) by decide)]
  have e5 : ("-").data.isPrefixOf ('-' :: c) = true := by simp [List.isPrefixOf]
  rw [e5, if_pos rfl, hd]
  rfl

theorem pass2Step_insert_paired (rl : List (Int × RLVal)) (st : Pass2State)
    (c oc : List Char)
    (h : ("++").data.isPrefixOf c = false)
    (hf : findPairedContent rl (st.lnm + 1) = some oc) :
    pass2Step rl st ('+' :: c) =
      .ok { st with
              lnm := st.lnm + 1
              rows := st.rows ++ [.paired ('+' :: intToChars (st.lnm + 1))
                (highlightWordDiff oc c)] } := by
  have e1 : ("---").data.isPrefixOf ('+' :: c) = false := rfl
  have e2 : ("+++").data.isPrefixOf ('+' :: c) = ("++").data.isPrefixOf c := rfl
  rw [pass2Step, e1, e2, h]
  rw [if_neg (show ¬((false || false) = true) by decide)]
  have e3 : ("@@").data.isPrefixOf ('+' :: c) = false := rfl
  rw [e3, if_neg (show ¬(false = true) by decide)]
  have e4 : ("+").data.isPrefixOf ('+' :: c) = true := by simp [List.isPrefixOf]
  rw [e4, if_pos rfl, hf]
  rfl

theorem pass2Step_insert_fresh (rl : List (Int × RLVal)) (st : Pass2State)
    (c : List Char)
    (h : ("++").data.isPrefixOf c = false)
    (hf : findPairedContent rl (st.lnm + 1) = none) :
    pass2Step rl st ('+' :: c) =
      .ok { st with
              lnm := st.lnm + 1
              rows := st.rows ++ [.added ('+' :: intToChars (st.lnm + 1)) c] } := by
  have e1 : ("---").data.isPrefixOf ('+' :: c) = false := rfl
  have e2 : ("+++").data.isPrefixOf ('+' :: c) = ("++").data.isPrefixOf c := rfl
  rw [pass2Step, e1, e2, h]
  rw [if_neg (show ¬((false || false) = true) by decide)]
  have e3 : ("@@").data.isPrefixOf ('+' :: c) = false := rfl
  rw [e3, if_neg (show ¬(false = true) by decide)]
  have e4 : ("+").data.isPrefixOf ('+' :: c) = true := by simp [List.isPrefixOf]
  rw [e4, if_pos rfl, hf]
  rfl

theorem pass2Step_at_header (rl : List (Int × RLVal)) (st : Pass2State)
    (line : List Char) (n1 n3 : Nat)
    (hpre1 : ("---").data.isPrefixOf line = false)
    (hpre2 : ("+++").data.isPrefixOf line = false)
    (hpre3 : ("@@").data.isPrefixOf line = true)
    (hmatch : matchHunkHeader line = some (natToChars n1, natToChars n3)) :
    pass2Step rl st line =
      .ok { st with lno := (n1 : Int) - 1, lnm := (n3 : Int) - 1 } := by
  rw [pass2Step, hpre1, hpre2]
  rw [if_neg (show ¬((false || false) = true) by decide)]
  rw [hpre3, if_pos rfl, hmatch]
  show (do
    let v1 ← pyInt (natToChars n1)
    let v3 ← pyInt (natToChars n3)
    Except.ok { st with lno := v1 - 1, lnm := v3 - 1 }) = _
  rw [exceptBindOk _ _ _ (pyInt_natToChars n1)]
  rw [exceptBindOk _ _ _ (pyInt_natToChars n3)]

/-- Prefix facts for an emitted hunk header. -/
theorem hunkHeader_prefixes {g : List Op} {cf cl : Op}
    (hh : g.head? = some cf) (hl : g.getLast? = some cl) :
    ("---").data.isPrefixOf (hunkHeader g) = false ∧
    ("+++").data.isPrefixOf (hunkHeader g) = false ∧
    ("@@").data.isPrefixOf (hunkHeader g) = true := by
  rw [hunkHeader_explicit hh hl]
  exact ⟨rfl, rfl, by simp [List.isPrefixOf]⟩

/-! ### Dictionary lemmas -/

theorem map_id_of {γ : Type} (f : γ → γ) :
    ∀ (l : List γ), (∀ x ∈ l, f x = x) → l.map f = l := by
  intro l
  induction l with
  | nil => intro _; rfl
  | cons x xs ih =>
    intro h
    rw [List.map_cons, h x (List.mem_cons_self x xs),
      ih (fun y hy => h y (List.mem_cons_of_mem x hy))]

theorem find?_skip {γ : Type} (p : γ → Bool) :
    ∀ (l1 l2 : List γ), (∀ x ∈ l1, p x = false) →
      (l1 ++ l2).find? p = l2.find? p := by
  intro l1
  induction l1 with
  | nil => intro l2 _; rfl
  | cons x xs ih =>
    intro l2 h
    rw [List.cons_append, List.find?_cons_of_neg, ih l2
      (fun y hy => h y (List.mem_cons_of_mem x hy))]
    rw [h x (List.mem_cons_self x xs)]
    exact Bool.false_ne_true

theorem find?_none {γ : Type} (p : γ → Bool) :
    ∀ (l : List γ), (∀ x ∈ l, p x = false) → l.find? p = none := by
  intro l h
  have := find?_skip p l [] h
  rw [List.append_nil] at this
  rw [this]
  rfl

/-- Setting a fresh key appends the entry. -/
theorem dictSet_fresh {β : Type} (d : List (Int × β)) (k : Int) (v : β)
    (h : ∀ e ∈ d, e.1 ≠ k) : dictSet d k v = d ++ [(k, v)] := by
  rw [dictSet]
  have hf : d.find? (fun e => decide (e.1 = k)) = none :=
    find?_none _ d (fun e he => by
      rw [decide_eq_false (h e he)])
  rw [hf, if_neg (by intro hc; cases hc)]

/-- Looking up the last, freshly inserted key. -/
theorem dictGet_last {β : Type} (d : List (Int × β)) (k : Int) (v : β)
    (h : ∀ e ∈ d, e.1 ≠ k) : dictGet (d ++ [(k, v)]) k = some v := by
  rw [dictGet, find?_skip _ d _ (fun e he => by rw [decide_eq_false (h e he)])]
  rw [List.find?_cons_of_pos]
  · rfl
  · exact decide_eq_true rfl

/-- Updating the last entry in place. -/
theorem dictSet_last {β : Type} (d : List (Int × β)) (k : Int) (v v' : β)
    (h : ∀ e ∈ d, e.1 ≠ k) : dictSet (d ++ [(k, v)]) k v' = d ++ [(k, v')] := by
  rw [dictSet]
  rw [find?_skip _ d _ (fun e he => by rw [decide_eq_false (h e he)])]
  rw [List.find?_cons_of_pos]
  · rw [if_pos (show (some (k, v)).isSome = true from rfl)]
    rw [List.map_append, map_id_of _ d (fun e he => if_neg (h e he))]
    rw [List.map_singleton, if_pos rfl]
  · exact decide_eq_true rfl

/-- Keys present in a pass-1 dictionary are bounded by the original-line
counter. -/
def KeysLe (d : List (Int × RLVal)) (t : Int) : Prop := ∀ e ∈ d, e.1 ≤ t

theorem keysLe_mono {d : List (Int × RLVal)} {t t' : Int}
    (h : KeysLe d t) (hle : t ≤ t') : KeysLe d t' :=
  fun e he => le_trans (h e he) hle

theorem keysLe_append {d1 d2 : List (Int × RLVal)} {t : Int}
    (h1 : KeysLe d1 t) (h2 : KeysLe d2 t) : KeysLe (d1 ++ d2) t := by
  intro e he
  rcases List.mem_append.mp he with h | h
  · exact h1 e h
  · exact h2 e h

/-! ### Shape of the opcode stream

`get_opcodes` never produces a `delete` opcode immediately followed by an
`insert` opcode (gap opcodes are separated by `equal` ones), and the groups
of `get_grouped_opcodes` are chained, well-formed and — apart from the first
— start with an `equal` opcode.  These facts drive the pairing analysis of
`create_diff_view`. -/

/-- Tag of the first opcode (`equal` for an empty list). -/
def headTag : List Op → Tag
  | [] => Tag.equal
  | c :: _ => c.tag

/-- No `delete` opcode is immediately followed by an `insert` opcode. -/
def DIFree : List Op → Prop
  | [] => True
  | [_] => True
  | c1 :: c2 :: r => ¬(c1.tag = Tag.delete ∧ c2.tag = Tag.insert) ∧ DIFree (c2 :: r)

theorem diFree_tail {c : Op} {l : List Op} (h : DIFree (c :: l)) : DIFree l := by
  cases l with
  | nil => trivial
  | cons c2 r => exact h.2

theorem diFree_cons (c : Op) (l : List Op) (h : DIFree l)
    (h2 : c.tag = Tag.delete → headTag l ≠ Tag.insert) : DIFree (c :: l) := by
  cases l with
  | nil => trivial
  | cons c2 r =>
    refine ⟨?_, h⟩
    rintro ⟨hd, hi⟩
    exact h2 hd hi

theorem diFree_cons_equal {e : Op} (he : e.tag = Tag.equal) {l : List Op}
    (h : DIFree l) : DIFree (e :: l) :=
  diFree_cons e l h
    (fun hd => absurd (he.symm.trans hd) (fun hc => Tag.noConfusion hc))

theorem diFree_concat_equal :
    ∀ (g : List Op) {e : Op}, e.tag = Tag.equal → DIFree g → DIFree (g ++ [e]) := by
  intro g
  induction g with
  | nil => intro e he _; trivial
  | cons c rest ih =>
    intro e he h
    cases rest with
    | nil =>
      refine ⟨?_, trivial⟩
      rintro ⟨_, hi⟩
      exact Tag.noConfusion (he.symm.trans hi)
    | cons c2 r =>
      exact ⟨h.1, ih he h.2⟩

theorem diFree_append_left :
    ∀ (l1 l2 : List Op), DIFree (l1 ++ l2) → DIFree l1 := by
  intro l1
  induction l1 with
  | nil => intro _ _; trivial
  | cons c rest ih =>
    intro l2 h
    cases rest with
    | nil => trivial
    | cons c2 r =>
      exact ⟨h.1, ih l2 h.2⟩

theorem headTag_append {l1 l2 : List Op} (h : l1 ≠ []) :
    headTag (l1 ++ l2) = headTag l1 := by
  cases l1 with
  | nil => exact absurd rfl h
  | cons c r => rfl

/-- All merged blocks have nonzero size. -/
theorem mergeAdjacent_sizes :
    ∀ (blocks : List (Nat × Nat × Nat)) (cur : Nat × Nat × Nat),
      ∀ blk ∈ mergeAdjacent cur blocks, blk.2.2 ≠ 0 := by
  intro blocks
  induction blocks with
  | nil =>
    intro cur blk hb
    obtain ⟨i1, j1, k1⟩ := cur
    rw [mergeAdjacent] at hb
    split at hb
    · next hk =>
      rw [List.mem_singleton] at hb
      subst hb
      exact hk
    · cases hb
  | cons b2 rest ih =>
    intro cur blk hb
    obtain ⟨i1, j1, k1⟩ := cur
    obtain ⟨i2, j2, k2⟩ := b2
    rw [mergeAdjacent] at hb
    split at hb
    · exact ih _ blk hb
    · rcases List.mem_append.mp hb with h | h
      · split at h
        · next hk =>
          rw [List.mem_singleton] at h
          subst h
          exact hk
        · cases h
      · exact ih _ blk h

/-- `opcodesLoop` output is delete-insert free when all blocks except the
final sentinel have nonzero size. -/
theorem opcodesLoop_diFree :
    ∀ (blocks : List (Nat × Nat × Nat)) (i j : Nat),
      (∀ blk ∈ blocks.dropLast, blk.2.2 ≠ 0) →
      DIFree (opcodesLoop i j blocks) := by
  intro blocks
  induction blocks with
  | nil => intro i j _; trivial
  | cons blk rest ih =>
    obtain ⟨ai, bj, size⟩ := blk
    intro i j h
    rw [opcodesLoop]
    by_cases hsz : size = 0
    · have hrest : rest = [] := by
        cases rest with
        | nil => rfl
        | cons y t =>
          exfalso
          exact h (ai, bj, size)
            (show (ai, bj, size) ∈ (ai, bj, size) :: (y :: t).dropLast from
              List.mem_cons_self _ _) hsz
      subst hrest
      rw [if_neg (show ¬(size ≠ 0) by omega)]
      have hrec : opcodesLoop (ai + size) (bj + size) ([] : List (Nat × Nat × Nat)) = [] :=
        rfl
      rw [hrec, List.append_nil, List.append_nil]
      split
      · trivial
      · split
        · trivial
        · split
          · trivial
          · trivial
    · have hsub : ∀ blk' ∈ rest.dropLast, blk'.2.2 ≠ 0 := by
        intro blk' hb'
        apply h
        cases rest with
        | nil => cases hb'
        | cons y t =>
          show blk' ∈ (ai, bj, size) :: (y :: t).dropLast
          exact List.mem_cons_of_mem _ hb'
      have hrec := ih (ai + size) (bj + size) hsub
      rw [if_pos hsz]
      have heq : DIFree (⟨Tag.equal, ai, ai + size, bj, bj + size⟩ ::
          opcodesLoop (ai + size) (bj + size) rest) :=
        diFree_cons_equal rfl hrec
      split
      · exact diFree_cons _ _ heq (fun _ hi => Tag.noConfusion hi)
      · split
        · exact diFree_cons _ _ heq (fun _ hi => Tag.noConfusion hi)
        · split
          · exact diFree_cons _ _ heq (fun _ hi => Tag.noConfusion hi)
          · exact heq

theorem getOpcodes_diFree (a b : List α) : DIFree (getOpcodes a b) := by
  rw [getOpcodes, getMatchingBlocks]
  refine opcodesLoop_diFree _ 0 0 ?_
  rw [List.dropLast_concat]
  exact mergeAdjacent_sizes _ _

/-- Generic version of `opChain_le`. -/
theorem opChain_startLe {a b : List α} :
    ∀ {ops : List Op} {i0 i1 j0 j1 : Nat},
      OpChain i0 i1 j0 j1 ops → (∀ c ∈ ops, OpOk a b c) → i0 ≤ i1 ∧ j0 ≤ j1 := by
  intro ops
  induction ops with
  | nil =>
    intro i0 i1 j0 j1 hch _
    obtain ⟨e1, e2⟩ := hch
    omega
  | cons c rest ih =>
    intro i0 i1 j0 j1 hch hok
    obtain ⟨e1, e2, hch'⟩ := hch
    have hokc := hok c (List.mem_cons_self c rest)
    have h := ih hch' (fun c' hc' => hok c' (List.mem_cons_of_mem c hc'))
    have h1 := hokc.1
    have h2 := hokc.2.1
    omega

/-- Every opcode of a chain stays inside the chain's ranges. -/
theorem opChain_bound {a b : List α} :
    ∀ {ops : List Op} {i0 i1 j0 j1 : Nat},
      OpChain i0 i1 j0 j1 ops → (∀ c ∈ ops, OpOk a b c) →
      ∀ c ∈ ops, i0 ≤ c.i1 ∧ c.i2 ≤ i1 ∧ j0 ≤ c.j1 ∧ c.j2 ≤ j1 := by
  intro ops
  induction ops with
  | nil => intro i0 i1 j0 j1 _ _ c hc; cases hc
  | cons c rest ih =>
    intro i0 i1 j0 j1 hch hok c' hc'
    obtain ⟨e1, e2, hch'⟩ := hch
    have hokc := hok c (List.mem_cons_self c rest)
    have hrest := opChain_startLe hch' (fun x hx => hok x (List.mem_cons_of_mem c hx))
    rcases List.mem_cons.mp hc' with h | h
    · subst h
      have h1 := hokc.1
      have h2 := hokc.2.1
      omega
    · have := ih hch' (fun x hx => hok x (List.mem_cons_of_mem c hx)) c' h
      have h1 := hokc.1
      have h2 := hokc.2.1
      omega

/-- Splitting an opcode chain at an append. -/
theorem opChain_split :
    ∀ (l1 l2 : List Op) {i0 i1 j0 j1 : Nat},
      OpChain i0 i1 j0 j1 (l1 ++ l2) →
      ∃ im jm, OpChain i0 im j0 jm l1 ∧ OpChain im i1 jm j1 l2 := by
  intro l1
  induction l1 with
  | nil =>
    intro l2 i0 i1 j0 j1 h
    exact ⟨i0, j0, ⟨rfl, rfl⟩, h⟩
  | cons c rest ih =>
    intro l2 i0 i1 j0 j1 h
    obtain ⟨e1, e2, h'⟩ := h
    obtain ⟨im, jm, ha, hb⟩ := ih l2 h'
    exact ⟨im, jm, ⟨e1, e2, ha⟩, hb⟩

theorem pySlice_len (l : List α) {i j : Nat} (h1 : i ≤ j) (h2 : j ≤ l.length) :
    (pySlice l i j).length = j - i := by
  rw [pySlice, List.length_take, List.length_drop]
  omega

/-- An equality of slices splits at matching offsets. -/
theorem slice_eq_split {a b : List α} {i1 i2 j1 j2 m m' : Nat}
    (hsl : pySlice a i1 i2 = pySlice b j1 j2)
    (hia : i2 ≤ a.length) (hjb : j2 ≤ b.length)
    (h1 : i1 ≤ m) (h2 : m ≤ i2) (h3 : j1 ≤ m') (h4 : m' ≤ j2)
    (hoff : m - i1 = m' - j1) :
    pySlice a i1 m = pySlice b j1 m' ∧ pySlice a m i2 = pySlice b m' j2 := by
  have ha := pySlice_append a h1 h2
  have hb := pySlice_append b h3 h4
  have hlen : (pySlice a i1 m).length = (pySlice b j1 m').length := by
    rw [pySlice_len a h1 (by omega), pySlice_len b h3 (by omega)]
    omega
  have hcat : pySlice a i1 m ++ pySlice a m i2 = pySlice b j1 m' ++ pySlice b m' j2 := by
    rw [ha, hb]
    exact hsl
  exact List.append_inj hcat hlen

/-- A nonempty sub-range of an `equal` opcode, trimmed at matching offsets on
both ends, is again a well-formed `equal` opcode. -/
theorem opOk_equal_trim {a b : List α} {c : Op} (hok : OpOk a b c)
    (hc : c.tag = Tag.equal) {i1' i2' j1' j2' : Nat}
    (hia : c.i2 ≤ a.length) (hjb : c.j2 ≤ b.length)
    (hl1 : c.i1 ≤ i1') (hl2 : i1' < i2') (hl3 : i2' ≤ c.i2)
    (hl4 : c.j1 ≤ j1') (hl5 : j2' ≤ c.j2)
    (ho1 : i1' - c.i1 = j1' - c.j1) (ho2 : c.i2 - i2' = c.j2 - j2') :
    OpOk a b ⟨Tag.equal, i1', i2', j1', j2'⟩ := by
  obtain ⟨hle1, hle2, heq, _, _, _⟩ := hok
  obtain ⟨hsl, hlt, hlen⟩ := heq hc
  have hstep1 := slice_eq_split hsl hia hjb hl1 (by omega) hl4 (by omega)
    (by omega)
  have hstep2 := slice_eq_split hstep1.2 hia hjb (show i1' ≤ i2' by omega) hl3
    (show j1' ≤ j2' by omega) hl5 (show i2' - i1' = j2' - j1' by omega)
  refine ⟨show i1' ≤ i2' by omega, show j1' ≤ j2' by omega,
    fun _ => ⟨hstep2.1, hl2, show i2' - i1' = j2' - j1' by omega⟩,
    fun ht => Tag.noConfusion ht, fun ht => Tag.noConfusion ht,
    fun ht => Tag.noConfusion ht⟩

theorem diFree_append_right :
    ∀ (l1 l2 : List Op), DIFree (l1 ++ l2) → DIFree l2 := by
  intro l1
  induction l1 with
  | nil => intro l2 h; exact h
  | cons c rest ih =>
    intro l2 h
    exact ih l2 (diFree_tail h)

/-- A well-formed hunk: a nonempty, chained, delete-insert-free run of
well-formed opcodes within the bounds of both line lists. -/
def GroupOk (a b : List α) (i0 iend j0 jend : Nat) (g : List Op) : Prop :=
  OpChain i0 iend j0 jend g ∧ g ≠ [] ∧ (∀ c ∈ g, OpOk a b c) ∧ DIFree g ∧
  iend ≤ a.length ∧ jend ≤ b.length

/-- The groups of `get_grouped_opcodes` in order: each is a well-formed hunk,
they advance through both files, and all but the first start with an `equal`
opcode. -/
def GroupsChain (a b : List α) : Bool → Nat → Nat → List (List Op) → Prop
  | _, _, _, [] => True
  | first, ip, jp, g :: rest => ∃ i0 iend j0 jend,
      ip ≤ i0 ∧ jp ≤ j0 ∧ GroupOk a b i0 iend j0 jend g ∧
      (first = true ∨ headTag g = Tag.equal) ∧
      GroupsChain a b false iend jend rest

theorem groupsChain_mono {a b : List α} {f : Bool} {ip jp ip' jp' : Nat}
    {gs : List (List Op)} (h : GroupsChain a b f ip jp gs)
    (h1 : ip' ≤ ip) (h2 : jp' ≤ jp) : GroupsChain a b f ip' jp' gs := by
  cases gs with
  | nil => trivial
  | cons g rest =>
    obtain ⟨i0, iend, j0, jend, hh1, hh2, hgok, hhd, hrest⟩ := h
    exact ⟨i0, iend, j0, jend, by omega, by omega, hgok, hhd, hrest⟩

/-- `trimHead` keeps the chain (with a later start), well-formedness and
delete-insert freedom. -/
theorem trimHead_ok {a b : List α} (n : Nat) (hn : 0 < n) (l : List Op) (hne : l ≠ [])
    {i0 i1 j0 j1 : Nat} (hch : OpChain i0 i1 j0 j1 l)
    (hok : ∀ c ∈ l, OpOk a b c) (hdf : DIFree l)
    (hia : i1 ≤ a.length) (hjb : j1 ≤ b.length) :
    ∃ i0' j0', OpChain i0' i1 j0' j1 (trimHead n l) ∧ trimHead n l ≠ [] ∧
      (∀ c ∈ trimHead n l, OpOk a b c) ∧ DIFree (trimHead n l) := by
  cases l with
  | nil => exact absurd rfl hne
  | cons c rest =>
    obtain ⟨e1, e2, hch'⟩ := hch
    rw [trimHead]
    by_cases hc : c.tag = Tag.equal
    · rw [if_pos hc]
      have hokc := hok c (List.mem_cons_self c rest)
      have hchfull : OpChain i0 i1 j0 j1 (c :: rest) := ⟨e1, e2, hch'⟩
      have hbnd := opChain_bound hchfull hok c (List.mem_cons_self c rest)
      have heqf := hokc.2.2.1 hc
      have hltc := heqf.2.1
      have hlenc := heqf.2.2
      have hok' : OpOk a b ⟨Tag.equal, max c.i1 (c.i2 - n), c.i2,
          max c.j1 (c.j2 - n), c.j2⟩ :=
        opOk_equal_trim hokc hc (by omega) (by omega) (by omega) (by omega)
          (le_refl _) (by omega) (le_refl _) (by omega) (by omega)
      refine ⟨max c.i1 (c.i2 - n), max c.j1 (c.j2 - n), ?_,
        List.cons_ne_nil _ _, ?_, ?_⟩
      · exact ⟨rfl, rfl, hch'⟩
      · intro x hx
        rcases List.mem_cons.mp hx with h | h
        · subst h; exact hok'
        · exact hok x (List.mem_cons_of_mem c h)
      · exact diFree_cons_equal rfl (diFree_tail hdf)
    · rw [if_neg hc]
      exact ⟨i0, j0, ⟨e1, e2, hch'⟩, List.cons_ne_nil _ _, hok, hdf⟩

/-- `trimLast` keeps the chain (with an earlier end), well-formedness and
delete-insert freedom. -/
theorem trimLast_ok {a b : List α} (n : Nat) (hn : 0 < n) (l : List Op) (hne : l ≠ [])
    {i0 i1 j0 j1 : Nat} (hch : OpChain i0 i1 j0 j1 l)
    (hok : ∀ c ∈ l, OpOk a b c) (hdf : DIFree l)
    (hia : i1 ≤ a.length) (hjb : j1 ≤ b.length) :
    ∃ i1' j1', OpChain i0 i1' j0 j1' (trimLast n l) ∧ trimLast n l ≠ [] ∧
      (∀ c ∈ trimLast n l, OpOk a b c) ∧ DIFree (trimLast n l) ∧
      i1' ≤ a.length ∧ j1' ≤ b.length := by
  rcases List.eq_nil_or_concat l with h | ⟨l', cl, h⟩
  · exact absurd h hne
  · rw [List.concat_eq_append] at h
    subst h
    rw [trimLast, List.getLast?_concat]
    simp only []
    by_cases hc : cl.tag = Tag.equal
    · rw [if_pos hc, List.dropLast_concat]
      obtain ⟨im, jm, hchl, hchr⟩ := opChain_split l' [cl] hch
      obtain ⟨f1, f2, g1, g2⟩ := hchr
      have hokc := hok cl (by rw [List.mem_append]; right; exact List.mem_singleton.mpr rfl)
      have heqf := hokc.2.2.1 hc
      have hltc := heqf.2.1
      have hlenc := heqf.2.2
      have hok' : OpOk a b ⟨Tag.equal, cl.i1, min cl.i2 (cl.i1 + n),
          cl.j1, min cl.j2 (cl.j1 + n)⟩ :=
        opOk_equal_trim hokc hc (by omega) (by omega) (le_refl _) (by omega)
          (by omega) (le_refl _) (by omega) (by omega) (by omega)
      have h2c : OpChain im (min cl.i2 (cl.i1 + n)) jm (min cl.j2 (cl.j1 + n))
          [⟨Tag.equal, cl.i1, min cl.i2 (cl.i1 + n), cl.j1, min cl.j2 (cl.j1 + n)⟩] :=
        ⟨f1, f2, rfl, rfl⟩
      refine ⟨min cl.i2 (cl.i1 + n), min cl.j2 (cl.j1 + n),
        opChain_append hchl h2c, by simp, ?_, ?_, by omega, by omega⟩
      · intro x hx
        rcases List.mem_append.mp hx with h | h
        · exact hok x (by rw [List.mem_append]; exact Or.inl h)
        · rw [List.mem_singleton] at h
          subst h
          exact hok'
      · exact diFree_concat_equal _ rfl (diFree_append_left _ _ hdf)
    · rw [if_neg hc]
      exact ⟨i1, j1, hch, by simp, hok, hdf, hia, hjb⟩

/-- The grouping loop produces a `GroupsChain`. -/
theorem groupLoop_groupsChain {a b : List α} (n : Nat) (hn : 0 < n) :
    ∀ (l g : List Op) (first : Bool) (gi0 gj0 ic jc i1 j1 : Nat),
      OpChain gi0 ic gj0 jc g →
      OpChain ic i1 jc j1 l →
      (∀ c ∈ g ++ l, OpOk a b c) →
      DIFree (g ++ l) →
      i1 ≤ a.length → j1 ≤ b.length →
      (first = true ∨ headTag (g ++ l) = Tag.equal) →
      GroupsChain a b first gi0 gj0 (groupLoop n g l) := by
  intro l
  induction l with
  | nil =>
    intro g first gi0 gj0 ic jc i1 j1 hchg hchl hok hdf hia hjb hhead
    obtain ⟨e1, e2⟩ := hchl
    cases g with
    | nil =>
      rw [show groupLoop n ([] : List Op) [] = [] from rfl]
      trivial
    | cons c0 grest =>
      cases grest with
      | nil =>
        rw [show groupLoop n [c0] [] =
          (if c0.tag = Tag.equal then [] else [[c0]]) from rfl]
        by_cases hc : c0.tag = Tag.equal
        · rw [if_pos hc]
          trivial
        · rw [if_neg hc]
          refine ⟨gi0, ic, gj0, jc, le_refl _, le_refl _,
            ⟨hchg, List.cons_ne_nil _ _, ?_, ?_, by omega, by omega⟩, ?_, trivial⟩
          · intro x hx
            exact hok x (by rw [List.mem_append]; exact Or.inl hx)
          · exact diFree_append_left _ _ hdf
          · exact hhead
      | cons c1 grest2 =>
        rw [show groupLoop n (c0 :: c1 :: grest2) [] = [c0 :: c1 :: grest2] from rfl]
        refine ⟨gi0, ic, gj0, jc, le_refl _, le_refl _,
          ⟨hchg, List.cons_ne_nil _ _, ?_, ?_, by omega, by omega⟩, ?_, trivial⟩
        · intro x hx
          exact hok x (by rw [List.mem_append]; exact Or.inl hx)
        · exact diFree_append_left _ _ hdf
        · exact hhead
  | cons c rest ih =>
    intro g first gi0 gj0 ic jc i1 j1 hchg hchl hok hdf hia hjb hhead
    obtain ⟨e1, e2, hchl'⟩ := hchl
    rw [groupLoop]
    by_cases hsplit : c.tag = Tag.equal ∧ 2 * n < c.i2 - c.i1
    · rw [if_pos hsplit]
      obtain ⟨hct, hbig⟩ := hsplit
      have hcmem : c ∈ g ++ c :: rest := by
        rw [List.mem_append]
        exact Or.inr (List.mem_cons_self _ _)
      have hokc := hok c hcmem
      have heqf := hokc.2.2.1 hct
      have hltc := heqf.2.1
      have hlenc := heqf.2.2
      have hchfull : OpChain ic i1 jc j1 (c :: rest) := ⟨e1, e2, hchl'⟩
      have hbnd := opChain_bound hchfull
        (fun x hx => hok x (by rw [List.mem_append]; exact Or.inr hx)) c
        (List.mem_cons_self _ _)
      have hokL : OpOk a b ⟨Tag.equal, c.i1, min c.i2 (c.i1 + n),
          c.j1, min c.j2 (c.j1 + n)⟩ :=
        opOk_equal_trim hokc hct (by omega) (by omega) (le_refl _) (by omega)
          (by omega) (le_refl _) (by omega) (by omega) (by omega)
      have hokR : OpOk a b ⟨Tag.equal, max c.i1 (c.i2 - n), c.i2,
          max c.j1 (c.j2 - n), c.j2⟩ :=
        opOk_equal_trim hokc hct (by omega) (by omega) (by omega) (by omega)
          (le_refl _) (by omega) (le_refl _) (by omega) (by omega)
      have h2c : OpChain ic (min c.i2 (c.i1 + n)) jc (min c.j2 (c.j1 + n))
          [⟨Tag.equal, c.i1, min c.i2 (c.i1 + n), c.j1, min c.j2 (c.j1 + n)⟩] :=
        ⟨e1, e2, rfl, rfl⟩
      refine ⟨gi0, min c.i2 (c.i1 + n), gj0, min c.j2 (c.j1 + n), le_refl _,
        le_refl _, ⟨?_, by simp, ?_, ?_, by omega, by omega⟩, ?_, ?_⟩
      · exact opChain_append hchg h2c
      · intro x hx
        rcases List.mem_append.mp hx with h | h
        · exact hok x (by rw [List.mem_append]; exact Or.inl h)
        · rw [List.mem_singleton] at h
          subst h
          exact hokL
      · exact diFree_concat_equal _ rfl (diFree_append_left _ _ hdf)
      · rcases hhead with h | h
        · exact Or.inl h
        · right
          cases g with
          | nil => rfl
          | cons g0 gr =>
            rw [headTag_append (List.cons_ne_nil _ _)]
            rw [headTag_append (List.cons_ne_nil _ _)] at h
            exact h
      · have hrec := ih [⟨Tag.equal, max c.i1 (c.i2 - n), c.i2,
            max c.j1 (c.j2 - n), c.j2⟩] false
          (max c.i1 (c.i2 - n)) (max c.j1 (c.j2 - n)) c.i2 c.j2 i1 j1
          (show OpChain (max c.i1 (c.i2 - n)) c.i2 (max c.j1 (c.j2 - n)) c.j2
            [⟨Tag.equal, max c.i1 (c.i2 - n), c.i2, max c.j1 (c.j2 - n), c.j2⟩]
            from ⟨rfl, rfl, rfl, rfl⟩) hchl'
          (by
            intro x hx
            rcases List.mem_cons.mp hx with h | h
            · subst h; exact hokR
            · exact hok x (by
                rw [List.mem_append]
                exact Or.inr (List.mem_cons_of_mem c h)))
          (diFree_cons_equal rfl (diFree_tail (diFree_append_right _ _ hdf)))
          hia hjb (Or.inr rfl)
        exact groupsChain_mono hrec (by omega) (by omega)
    · rw [if_neg hsplit]
      have h2c : OpChain ic c.i2 jc c.j2 [c] := ⟨e1, e2, rfl, rfl⟩
      refine ih (g ++ [c]) first gi0 gj0 c.i2 c.j2 i1 j1
        (opChain_append hchg h2c) hchl' ?_ ?_ hia hjb ?_
      · intro x hx
        apply hok
        rw [List.mem_append] at hx ⊢
        rcases hx with h | h
        · rcases List.mem_append.mp h with h2 | h2
          · exact Or.inl h2
          · right
            rw [List.mem_singleton] at h2
            subst h2
            exact List.mem_cons_self _ _
        · exact Or.inr (List.mem_cons_of_mem _ h)
      · rw [List.append_assoc]
        exact hdf
      · rcases hhead with h | h
        · exact Or.inl h
        · right
          rw [List.append_assoc]
          exact h

/-- The groups of `get_grouped_opcodes` form a well-formed chain. -/
theorem getGroupedOpcodes_groupsChain (a b : List α) (n : Nat) (hn : 0 < n) :
    GroupsChain a b true 0 0 (getGroupedOpcodes a b n) := by
  rw [getGroupedOpcodes]
  by_cases h0 : getOpcodes a b = []
  · rw [if_pos h0, groupSingleEqual]
    trivial
  · rw [if_neg h0]
    have hsound := getOpcodes_sound a b
    have hdf := getOpcodes_diFree a b
    obtain ⟨i0', j0', hch1, hne1, hok1, hdf1⟩ :=
      trimHead_ok n hn _ h0 hsound.1 hsound.2 hdf (le_refl _) (le_refl _)
    obtain ⟨i1', j1', hch2, hne2, hok2, hdf2, hb1, hb2⟩ :=
      trimLast_ok n hn _ hne1 hch1 hok1 hdf1 (le_refl _) (le_refl _)
    have hgl := groupLoop_groupsChain n hn _ [] true i0' j0' i0' j0' i1' j1'
      ⟨rfl, rfl⟩ hch2 hok2 hdf2 hb1 hb2 (Or.inl rfl)
    exact groupsChain_mono hgl (Nat.zero_le _) (Nat.zero_le _)

/-! ### Pass 1 over the emitted diff: the collected dictionary

With no removed line starting in `--` and no added line starting in `++`,
no body line is skipped, and the first pass collects exactly one entry per
delete line: unpaired `(None, content)` entries, except that the last delete
line of each `replace` opcode is paired to the opcode's first insert line. -/

/-- `a[i]` as a total function (the lines walked are always in range). -/
def aline (a : List (List Char)) (i : Nat) : List Char := (a.get? i).getD []

/-- The `removed_lines` entries one opcode contributes. -/
def opRL (a : List (List Char)) (c : Op) : List (Int × RLVal) :=
  match c.tag with
  | Tag.equal => []
  | Tag.insert => []
  | Tag.delete =>
      (List.range' c.i1 (c.i2 - c.i1)).map
        (fun i : Nat => ((i : Int) + 1, ((none : Option Int), some (aline a i))))
  | Tag.replace =>
      (List.range' c.i1 (c.i2 - c.i1 - 1)).map
        (fun i : Nat => ((i : Int) + 1, ((none : Option Int), some (aline a i)))) ++
      [((c.i2 : Int), (some ((c.j1 : Int) + 1), some (aline a (c.i2 - 1))))]

/-- The `removed_lines` entries one hunk contributes. -/
def groupRL (a : List (List Char)) (g : List Op) : List (Int × RLVal) :=
  (g.map (opRL a)).flatten

/-- The full `removed_lines` dictionary after pass 1. -/
def groupsRL (a : List (List Char)) (gs : List (List Op)) : List (Int × RLVal) :=
  (gs.map (groupRL a)).flatten

/-- No line of the original text begins with `--` (so no `-` diff line is
mistaken for a file header). -/
def NoSkipA (a : List (List Char)) : Prop :=
  ∀ la ∈ a, ("--").data.isPrefixOf la = false

/-- No line of the modified text begins with `++`. -/
def NoSkipB (b : List (List Char)) : Prop :=
  ∀ lb ∈ b, ("++").data.isPrefixOf lb = false

theorem get?_eq_aline {a : List (List Char)} {i : Nat} (h : i < a.length) :
    a.get? i = some (aline a i) := by
  cases hx : a.get? i with
  | none =>
    rw [List.get?_eq_none] at hx
    omega
  | some x =>
    rw [aline, hx]
    rfl

theorem aline_mem {a : List (List Char)} {i : Nat} (h : i < a.length) :
    aline a i ∈ a := by
  have := get?_eq_aline h
  exact List.get?_mem this

theorem pySlice_cons {l : List α} {i j : Nat} (h1 : i < j) {x : α}
    (hx : l.get? i = some x) :
    pySlice l i j = x :: pySlice l (i + 1) j := by
  have happ := pySlice_append l (show i ≤ i + 1 by omega) (show i + 1 ≤ j by omega)
  rw [← happ, pySlice_one hx]
  rfl

theorem foldlM_nil {σ : Type} (f : σ → List Char → Except String σ) (st : σ) :
    ([] : List (List Char)).foldlM f st = .ok st := rfl

theorem foldlM_cons {σ : Type} (f : σ → List Char → Except String σ)
    (x : List Char) (xs : List (List Char)) (st : σ) :
    (x :: xs).foldlM f st = f st x >>= fun st' => xs.foldlM f st' := rfl

theorem foldlM_ok_append {σ : Type} (f : σ → List Char → Except String σ)
    (l1 l2 : List (List Char)) :
    ∀ (st st1 : σ), l1.foldlM f st = .ok st1 →
      (l1 ++ l2).foldlM f st = l2.foldlM f st1 := by
  induction l1 with
  | nil =>
    intro st st1 h1
    rw [foldlM_nil] at h1
    injection h1 with h1
    rw [h1]
    rfl
  | cons x xs ih =>
    intro st st1 h1
    rw [foldlM_cons] at h1
    cases hfx : f st x with
    | error e =>
      rw [hfx] at h1
      have h2 : (Except.error e : Except String σ) = Except.ok st1 := h1
      cases h2
    | ok stm =>
      rw [exceptBindOk _ _ _ hfx] at h1
      rw [List.cons_append, foldlM_cons, exceptBindOk _ _ _ hfx]
      exact ih stm st1 h1

/-- Pass 1 over a run of context lines. -/
theorem pass1_ctxRun (a : List (List Char)) :
    ∀ (cnt i1 j1 : Nat) (st : Pass1State), i1 + cnt ≤ a.length →
      st.tlo = (i1 : Int) → st.tlm = (j1 : Int) →
      ∃ st', ((pySlice a i1 (i1 + cnt)).map (fun l => ' ' :: l)).foldlM pass1Step st =
          .ok st' ∧
        st'.tlo = ((i1 + cnt : Nat) : Int) ∧ st'.tlm = ((j1 + cnt : Nat) : Int) ∧
        st'.removedLines = st.removedLines ∧
        st'.lastRemoved = (if cnt = 0 then st.lastRemoved else none) := by
  intro cnt
  induction cnt with
  | zero =>
    intro i1 j1 st hlen h1 h2
    simp only [Nat.add_zero]
    rw [pySlice_self]
    exact ⟨st, rfl, h1, h2, rfl, rfl⟩
  | succ cnt ih =>
    intro i1 j1 st hlen h1 h2
    rw [pySlice_cons (show i1 < i1 + (cnt + 1) by omega) (get?_eq_aline (by omega))]
    rw [List.map_cons, foldlM_cons]
    obtain ⟨st1, hs, q1, q2, q3, q4⟩ : ∃ st1,
        pass1Step st (' ' :: aline a i1) = .ok st1 ∧
        st1.tlo = st.tlo + 1 ∧ st1.tlm = st.tlm + 1 ∧
        st1.removedLines = st.removedLines ∧ st1.lastRemoved = none :=
      ⟨_, pass1Step_context st (aline a i1), rfl, rfl, rfl, rfl⟩
    obtain ⟨st', hrun, p1, p2, p3, p4⟩ := ih (i1 + 1) (j1 + 1) st1 (by omega)
      (by omega) (by omega)
    refine ⟨st', ?_, by omega, by omega, by rw [p3, q3], ?_⟩
    · rw [exceptBindOk _ _ _ hs]
      have e : i1 + 1 + cnt = i1 + (cnt + 1) := by omega
      rw [e] at hrun
      exact hrun
    · rw [if_neg (show ¬(cnt + 1 = 0) by omega)]
      by_cases hc : cnt = 0
      · rw [if_pos hc] at p4
        rw [p4, q4]
      · rw [if_neg hc] at p4
        exact p4

/-- Pass 1 over a run of delete lines: fresh unpaired entries accumulate. -/
theorem pass1_delRun (a : List (List Char)) (ha : NoSkipA a) :
    ∀ (cnt i1 : Nat) (st : Pass1State), i1 + cnt ≤ a.length →
      st.tlo = (i1 : Int) → KeysLe st.removedLines (i1 : Int) →
      ∃ st', ((pySlice a i1 (i1 + cnt)).map (fun l => '-' :: l)).foldlM pass1Step st =
          .ok st' ∧
        st'.tlo = ((i1 + cnt : Nat) : Int) ∧ st'.tlm = st.tlm ∧
        st'.removedLines = st.removedLines ++
          (List.range' i1 cnt).map
            (fun i : Nat => ((i : Int) + 1, ((none : Option Int), some (aline a i)))) ∧
        st'.lastRemoved = (if cnt = 0 then st.lastRemoved
          else some ((i1 + cnt : Nat) : Int)) ∧
        KeysLe st'.removedLines ((i1 + cnt : Nat) : Int) := by
  intro cnt
  induction cnt with
  | zero =>
    intro i1 st hlen h1 hk
    simp only [Nat.add_zero]
    rw [pySlice_self]
    exact ⟨st, rfl, h1, rfl, by simp, rfl, hk⟩
  | succ cnt ih =>
    intro i1 st hlen h1 hk
    rw [pySlice_cons (show i1 < i1 + (cnt + 1) by omega) (get?_eq_aline (by omega))]
    rw [List.map_cons, foldlM_cons]
    have hfresh : ∀ e ∈ st.removedLines, e.1 ≠ st.tlo + 1 := by
      intro e he
      have := hk e he
      omega
    have hset := dictSet_fresh st.removedLines (st.tlo + 1)
      ((none : Option Int), some (aline a i1)) hfresh
    obtain ⟨st1, hs, q1, q2, q3, q4⟩ : ∃ st1,
        pass1Step st ('-' :: aline a i1) = .ok st1 ∧
        st1.tlo = st.tlo + 1 ∧ st1.tlm = st.tlm ∧
        st1.removedLines = st.removedLines ++
          [(st.tlo + 1, ((none : Option Int), some (aline a i1)))] ∧
        st1.lastRemoved = some (st.tlo + 1) :=
      ⟨_, pass1Step_delete st (aline a i1) (ha _ (aline_mem (by omega))),
        rfl, rfl, hset, rfl⟩
    obtain ⟨st', hrun, p1, p2, p3, p4, p5⟩ := ih (i1 + 1) st1 (by omega) (by omega)
      (by
        rw [q3]
        refine keysLe_append (fun e he => ?_) (fun e he => ?_)
        · have := hk e he; omega
        · rw [List.mem_singleton] at he
          subst he
          show st.tlo + 1 ≤ _
          omega)
    refine ⟨st', ?_, by omega, by omega, ?_, ?_, ?_⟩
    · rw [exceptBindOk _ _ _ hs]
      have e : i1 + 1 + cnt = i1 + (cnt + 1) := by omega
      rw [e] at hrun
      exact hrun
    · rw [p3, q3, List.append_assoc, List.range'_succ, List.map_cons]
      have e2 : st.tlo + 1 = (i1 : Int) + 1 := by omega
      rw [e2]
      rfl
    · rw [if_neg (show ¬(cnt + 1 = 0) by omega)]
      by_cases hc : cnt = 0
      · rw [if_pos hc] at p4
        rw [p4, q4]
        have e3 : st.tlo + 1 = ((i1 + (cnt + 1) : Nat) : Int) := by omega
        rw [e3]
      · rw [if_neg hc] at p4
        rw [p4]
        have e3 : ((i1 + 1 + cnt : Nat) : Int) = ((i1 + (cnt + 1) : Nat) : Int) := by
          omega
        rw [e3]
    · exact fun e he => by have := p5 e he; omega

/-- Pass 1 over a run of insert lines with no pending delete. -/
theorem pass1_insRun_none (b : List (List Char)) (hb : NoSkipB b) :
    ∀ (cnt j1 : Nat) (st : Pass1State), j1 + cnt ≤ b.length →
      st.tlm = (j1 : Int) → st.lastRemoved = none →
      ∃ st', ((pySlice b j1 (j1 + cnt)).map (fun l => '+' :: l)).foldlM pass1Step st =
          .ok st' ∧
        st'.tlo = st.tlo ∧ st'.tlm = ((j1 + cnt : Nat) : Int) ∧
        st'.removedLines = st.removedLines ∧ st'.lastRemoved = none := by
  intro cnt
  induction cnt with
  | zero =>
    intro j1 st hlen h1 h2
    simp only [Nat.add_zero]
    rw [pySlice_self]
    exact ⟨st, rfl, rfl, h1, rfl, h2⟩
  | succ cnt ih =>
    intro j1 st hlen h1 h2
    rw [pySlice_cons (show j1 < j1 + (cnt + 1) by omega) (get?_eq_aline (by omega))]
    rw [List.map_cons, foldlM_cons]
    obtain ⟨st1, hs, q1, q2, q3, q4⟩ : ∃ st1,
        pass1Step st ('+' :: aline b j1) = .ok st1 ∧
        st1.tlo = st.tlo ∧ st1.tlm = st.tlm + 1 ∧
        st1.removedLines = st.removedLines ∧ st1.lastRemoved = st.lastRemoved :=
      ⟨_, pass1Step_insert_none st (aline b j1) (hb _ (aline_mem (by omega))) h2,
        rfl, rfl, rfl, rfl⟩
    obtain ⟨st', hrun, p1, p2, p3, p4⟩ := ih (j1 + 1) st1 (by omega) (by omega)
      (by rw [q4, h2])
    refine ⟨st', ?_, by rw [p1, q1], by omega, by rw [p3, q3], p4⟩
    rw [exceptBindOk _ _ _ hs]
    have e : j1 + 1 + cnt = j1 + (cnt + 1) := by omega
    rw [e] at hrun
    exact hrun

/-- Pass 1 over a nonempty run of insert lines with a pending delete: the
first insert pairs the pending entry, the rest are plain. -/
theorem pass1_insRun_pair (b : List (List Char)) (hb : NoSkipB b)
    (cnt j1 : Nat) (st : Pass1State) (d : List (Int × RLVal)) (lr : Int)
    (ct : List Char)
    (hlen : j1 + cnt ≤ b.length) (hcnt : 0 < cnt)
    (h1 : st.tlm = (j1 : Int)) (h2 : st.lastRemoved = some lr)
    (h3 : st.removedLines = d ++ [(lr, ((none : Option Int), some ct))])
    (h4 : ∀ e ∈ d, e.1 ≠ lr) :
    ∃ st', ((pySlice b j1 (j1 + cnt)).map (fun l => '+' :: l)).foldlM pass1Step st =
        .ok st' ∧
      st'.tlo = st.tlo ∧ st'.tlm = ((j1 + cnt : Nat) : Int) ∧
      st'.removedLines = d ++ [(lr, (some ((j1 : Int) + 1), some ct))] ∧
      st'.lastRemoved = none := by
  obtain ⟨cnt', hc⟩ : ∃ cnt', cnt = cnt' + 1 := ⟨cnt - 1, by omega⟩
  subst hc
  rw [pySlice_cons (show j1 < j1 + (cnt' + 1) by omega) (get?_eq_aline (by omega))]
  rw [List.map_cons, foldlM_cons]
  have hget : dictGet st.removedLines lr = some ((none : Option Int), some ct) := by
    rw [h3]
    exact dictGet_last d lr _ h4
  have hsetv : dictSet st.removedLines lr
      (some (st.tlm + 1),
       (match dictGet st.removedLines lr with
        | some v => v.2
        | none => none)) = d ++ [(lr, (some ((j1 : Int) + 1), some ct))] := by
    rw [hget]
    show dictSet st.removedLines lr (some (st.tlm + 1), some ct) = _
    rw [h3, dictSet_last d lr _ _ h4, h1]
  obtain ⟨st1, hs, q1, q2, q3, q4⟩ : ∃ st1,
      pass1Step st ('+' :: aline b j1) = .ok st1 ∧
      st1.tlo = st.tlo ∧ st1.tlm = st.tlm + 1 ∧
      st1.removedLines = d ++ [(lr, (some ((j1 : Int) + 1), some ct))] ∧
      st1.lastRemoved = none :=
    ⟨_, pass1Step_insert_some st (aline b j1) lr (hb _ (aline_mem (by omega))) h2,
      rfl, rfl, hsetv, rfl⟩
  obtain ⟨st', hrun, p1, p2, p3, p4⟩ := pass1_insRun_none b hb cnt' (j1 + 1) st1
    (by omega) (by omega) q4
  refine ⟨st', ?_, by rw [p1, q1], by omega, by rw [p3, q3], p4⟩
  rw [exceptBindOk _ _ _ hs]
  have e : j1 + 1 + cnt' = j1 + (cnt' + 1) := by omega
  rw [e] at hrun
  exact hrun


/-! ### Pass 1, opcode by opcode and group by group -/

theorem range'_snoc : ∀ (k s : Nat), List.range' s (k + 1) = List.range' s k ++ [s + k] := by
  intro k
  induction k with
  | zero => intro s; rfl
  | succ k ih =>
    intro s
    rw [List.range'_succ, ih (s + 1), List.range'_succ]
    rw [show s + 1 + k = s + (k + 1) from by omega]
    rfl

theorem mem_range'_bounds : ∀ (n s m : Nat), m ∈ List.range' s n → s ≤ m ∧ m < s + n := by
  intro n
  induction n with
  | zero =>
    intro s m h
    rw [show List.range' s 0 = [] from rfl] at h
    cases h
  | succ n ih =>
    intro s m h
    rw [List.range'_succ] at h
    rcases List.mem_cons.mp h with h | h
    · omega
    · have := ih (s + 1) m h
      omega

/-- Head and last opcode of a nonempty chain carry the chain's endpoints. -/
theorem opChain_headLast :
    ∀ (g : List Op) (i0 iend j0 jend : Nat), OpChain i0 iend j0 jend g → g ≠ [] →
      ∃ cf cl, g.head? = some cf ∧ g.getLast? = some cl ∧
        cf.i1 = i0 ∧ cf.j1 = j0 ∧ cl.i2 = iend ∧ cl.j2 = jend := by
  intro g
  induction g with
  | nil => intro _ _ _ _ _ hne; exact absurd rfl hne
  | cons c rest ih =>
    intro i0 iend j0 jend hch _
    obtain ⟨e1, e2, hch'⟩ := hch
    cases rest with
    | nil =>
      obtain ⟨f1, f2⟩ := hch'
      exact ⟨c, c, rfl, rfl, e1, e2, f1, f2⟩
    | cons c2 r =>
      obtain ⟨cf', cl', hh', hl', _, _, g3, g4⟩ :=
        ih c.i2 iend c.j2 jend hch' (by simp)
      refine ⟨c, cl', rfl, ?_, e1, e2, g3, g4⟩
      rw [List.getLast?_cons_cons]
      exact hl'

/-- A chain that does not advance the original side consists of inserts. -/
theorem allInsert_of_iEmpty {a b : List α} {ops : List Op} {i0 j0 jend : Nat}
    (hch : OpChain i0 i0 j0 jend ops) (hok : ∀ c ∈ ops, OpOk a b c) :
    ∀ c ∈ ops, c.tag = Tag.insert ∧ c.i1 = c.i2 := by
  intro c hc
  have hb := opChain_bound hch hok c hc
  have hokc := hok c hc
  have hii : c.i1 = c.i2 := by have := hokc.1; omega
  cases hct : c.tag
  · obtain ⟨_, hlt, _⟩ := hokc.2.2.1 hct
    omega
  · have := (hokc.2.2.2.2.2 hct).1
    omega
  · have := (hokc.2.2.2.2.1 hct).2
    omega
  · exact ⟨rfl, hii⟩

/-- A chain that does not advance the modified side consists of deletes. -/
theorem allDelete_of_jEmpty {a b : List α} {ops : List Op} {i0 iend j0 : Nat}
    (hch : OpChain i0 iend j0 j0 ops) (hok : ∀ c ∈ ops, OpOk a b c) :
    ∀ c ∈ ops, c.tag = Tag.delete ∧ c.j1 = c.j2 := by
  intro c hc
  have hb := opChain_bound hch hok c hc
  have hokc := hok c hc
  have hjj : c.j1 = c.j2 := by have := hokc.2.1; omega
  cases hct : c.tag
  · obtain ⟨_, hlt, hlen⟩ := hokc.2.2.1 hct
    omega
  · have := (hokc.2.2.2.2.2 hct).2
    omega
  · exact ⟨rfl, hjj⟩
  · have := (hokc.2.2.2.1 hct).2
    omega

/-- Unfolding lemmas for `emitOp` and `opRL` by tag. -/
theorem emitOp_equal (a b : List (List Char)) {c : Op} (h : c.tag = Tag.equal) :
    emitOp a b c = (pySlice a c.i1 c.i2).map (fun l => ' ' :: l) := by
  unfold emitOp
  rw [h]

theorem emitOp_delete (a b : List (List Char)) {c : Op} (h : c.tag = Tag.delete) :
    emitOp a b c = (pySlice a c.i1 c.i2).map (fun l => '-' :: l) := by
  unfold emitOp
  rw [h]

theorem emitOp_insert (a b : List (List Char)) {c : Op} (h : c.tag = Tag.insert) :
    emitOp a b c = (pySlice b c.j1 c.j2).map (fun l => '+' :: l) := by
  unfold emitOp
  rw [h]

theorem emitOp_replace (a b : List (List Char)) {c : Op} (h : c.tag = Tag.replace) :
    emitOp a b c = (pySlice a c.i1 c.i2).map (fun l => '-' :: l) ++
      (pySlice b c.j1 c.j2).map (fun l => '+' :: l) := by
  unfold emitOp
  rw [h]

theorem opRL_equal (a : List (List Char)) {c : Op} (h : c.tag = Tag.equal) :
    opRL a c = [] := by
  unfold opRL
  rw [h]

theorem opRL_insert (a : List (List Char)) {c : Op} (h : c.tag = Tag.insert) :
    opRL a c = [] := by
  unfold opRL
  rw [h]

theorem opRL_delete (a : List (List Char)) {c : Op} (h : c.tag = Tag.delete) :
    opRL a c = (List.range' c.i1 (c.i2 - c.i1)).map
      (fun i : Nat => ((i : Int) + 1, ((none : Option Int), some (aline a i)))) := by
  unfold opRL
  rw [h]

theorem opRL_replace (a : List (List Char)) {c : Op} (h : c.tag = Tag.replace) :
    opRL a c = (List.range' c.i1 (c.i2 - c.i1 - 1)).map
      (fun i : Nat => ((i : Int) + 1, ((none : Option Int), some (aline a i)))) ++
      [((c.i2 : Int), (some ((c.j1 : Int) + 1), some (aline a (c.i2 - 1))))] := by
  unfold opRL
  rw [h]

/-- Pass 1 over the body lines of a single opcode. -/
theorem pass1_op (a b : List (List Char)) (ha : NoSkipA a) (hb : NoSkipB b)
    (c : Op) (hok : OpOk a b c) (hia : c.i2 ≤ a.length) (hjb : c.j2 ≤ b.length)
    (st : Pass1State) (h1 : st.tlo = (c.i1 : Int)) (h2 : st.tlm = (c.j1 : Int))
    (hk : KeysLe st.removedLines (c.i1 : Int))
    (hpend : st.lastRemoved = none ∨ c.tag ≠ Tag.insert) :
    ∃ st', (emitOp a b c).foldlM pass1Step st = .ok st' ∧
      st'.tlo = (c.i2 : Int) ∧ st'.tlm = (c.j2 : Int) ∧
      st'.removedLines = st.removedLines ++ opRL a c ∧
      KeysLe st'.removedLines (c.i2 : Int) ∧
      (st'.lastRemoved = none ∨ c.tag = Tag.delete) := by
  have hle1 := hok.1
  have hle2 := hok.2.1
  cases hct : c.tag
  · -- equal
    obtain ⟨hsl, hlt, hlen⟩ := hok.2.2.1 hct
    rw [emitOp_equal a b hct, opRL_equal a hct]
    obtain ⟨st', hrun, p1, p2, p3, p4⟩ :=
      pass1_ctxRun a (c.i2 - c.i1) c.i1 c.j1 st (by omega) h1 h2
    rw [show c.i1 + (c.i2 - c.i1) = c.i2 from by omega] at hrun p1
    refine ⟨st', hrun, p1, by omega, by rw [p3, List.append_nil], ?_, ?_⟩
    · intro e he
      rw [p3] at he
      have := hk e he
      omega
    · rw [if_neg (show ¬(c.i2 - c.i1 = 0) by omega)] at p4
      exact Or.inl p4
  · -- replace
    obtain ⟨hlt1, hlt2⟩ := hok.2.2.2.2.2 hct
    rw [emitOp_replace a b hct, opRL_replace a hct]
    obtain ⟨st1, hrun1, p1, p2, p3, p4, p5⟩ :=
      pass1_delRun a ha (c.i2 - c.i1) c.i1 st (by omega) h1 hk
    rw [show c.i1 + (c.i2 - c.i1) = c.i2 from by omega] at hrun1 p1 p4 p5
    rw [if_neg (show ¬(c.i2 - c.i1 = 0) by omega)] at p4
    have hdec : List.range' c.i1 (c.i2 - c.i1) = List.range' c.i1 (c.i2 - c.i1 - 1) ++
        [c.i1 + (c.i2 - c.i1 - 1)] := by
      rw [show c.i2 - c.i1 = (c.i2 - c.i1 - 1) + 1 from by omega]
      rw [range'_snoc]
      rw [show (c.i2 - c.i1 - 1) + 1 - 1 = c.i2 - c.i1 - 1 from by omega]
    have hlast : c.i1 + (c.i2 - c.i1 - 1) = c.i2 - 1 := by omega
    rw [hdec, hlast, List.map_append, List.map_singleton] at p3
    have hkey : ((c.i2 - 1 : Nat) : Int) + 1 = (c.i2 : Int) := by omega
    rw [hkey] at p3
    have h3 : st1.removedLines = (st.removedLines ++
        (List.range' c.i1 (c.i2 - c.i1 - 1)).map
          (fun i : Nat => ((i : Int) + 1, ((none : Option Int), some (aline a i)))))
        ++ [((c.i2 : Int), ((none : Option Int), some (aline a (c.i2 - 1))))] := by
      rw [p3, List.append_assoc]
    have h4 : ∀ e ∈ st.removedLines ++
        (List.range' c.i1 (c.i2 - c.i1 - 1)).map
          (fun i : Nat => ((i : Int) + 1, ((none : Option Int), some (aline a i)))),
        e.1 ≠ (c.i2 : Int) := by
      intro e he
      rcases List.mem_append.mp he with h | h
      · have := hk e h
        omega
      · obtain ⟨i, hi, rfl⟩ := List.mem_map.mp h
        have := mem_range'_bounds _ _ _ hi
        show (i : Int) + 1 ≠ _
        omega
    obtain ⟨st', hrun2, q1, q2, q3, q4⟩ :=
      pass1_insRun_pair b hb (c.j2 - c.j1) c.j1 st1 _ (c.i2 : Int) (aline a (c.i2 - 1))
        (by omega) (by omega) (by rw [p2, h2]) p4 h3 h4
    rw [show c.j1 + (c.j2 - c.j1) = c.j2 from by omega] at hrun2 q2
    refine ⟨st', ?_, by rw [q1, p1], q2, ?_, ?_, Or.inl q4⟩
    · exact foldlM_ok_append pass1Step _ _ st st1 hrun1 ▸ hrun2
    · rw [q3, List.append_assoc]
    · rw [q3]
      refine keysLe_append (fun e he => ?_) (fun e he => ?_)
      · rcases List.mem_append.mp he with h | h
        · have := hk e h
          show e.1 ≤ _
          omega
        · obtain ⟨i, hi, rfl⟩ := List.mem_map.mp h
          have := mem_range'_bounds _ _ _ hi
          show (i : Int) + 1 ≤ _
          omega
      · rw [List.mem_singleton] at he
        subst he
        show (c.i2 : Int) ≤ _
        omega
  · -- delete
    obtain ⟨hjj, hlt⟩ := hok.2.2.2.2.1 hct
    rw [emitOp_delete a b hct, opRL_delete a hct]
    obtain ⟨st', hrun, p1, p2, p3, p4, p5⟩ :=
      pass1_delRun a ha (c.i2 - c.i1) c.i1 st (by omega) h1 hk
    rw [show c.i1 + (c.i2 - c.i1) = c.i2 from by omega] at hrun p1 p5
    exact ⟨st', hrun, p1, by omega, p3, p5, Or.inr rfl⟩
  · -- insert
    obtain ⟨hii, hlt⟩ := hok.2.2.2.1 hct
    have hp : st.lastRemoved = none := by
      rcases hpend with hp | hp
      · exact hp
      · exact absurd hct hp
    rw [emitOp_insert a b hct, opRL_insert a hct]
    obtain ⟨st', hrun, p1, p2, p3, p4⟩ :=
      pass1_insRun_none b hb (c.j2 - c.j1) c.j1 st (by omega) h2 hp
    rw [show c.j1 + (c.j2 - c.j1) = c.j2 from by omega] at hrun p2
    refine ⟨st', hrun, by omega, p2, by rw [p3, List.append_nil], ?_, Or.inl p4⟩
    intro e he
    rw [p3] at he
    have := hk e he
    omega

/-- Pass 1 over the body of a general opcode run. -/
theorem pass1_ops (a b : List (List Char)) (ha : NoSkipA a) (hb : NoSkipB b) :
    ∀ (ops : List Op) (i0 iend j0 jend : Nat) (st : Pass1State),
      OpChain i0 iend j0 jend ops → (∀ c ∈ ops, OpOk a b c) → DIFree ops →
      iend ≤ a.length → jend ≤ b.length →
      st.tlo = (i0 : Int) → st.tlm = (j0 : Int) →
      KeysLe st.removedLines (i0 : Int) →
      (st.lastRemoved = none ∨ headTag ops ≠ Tag.insert) →
      ∃ st', ((ops.map (emitOp a b)).flatten).foldlM pass1Step st = .ok st' ∧
        st'.tlo = (iend : Int) ∧ st'.tlm = (jend : Int) ∧
        st'.removedLines = st.removedLines ++ ((ops.map (opRL a)).flatten) ∧
        KeysLe st'.removedLines (iend : Int) := by
  intro ops
  induction ops with
  | nil =>
    intro i0 iend j0 jend st hch _ _ _ _ h1 h2 hk _
    obtain ⟨e1, e2⟩ := hch
    subst e1
    subst e2
    exact ⟨st, rfl, h1, h2, by simp, hk⟩
  | cons c rest ih =>
    intro i0 iend j0 jend st hch hok hdf hia hjb h1 h2 hk hpend
    obtain ⟨e1, e2, hch'⟩ := hch
    subst e1
    subst e2
    have hchfull : OpChain c.i1 iend c.j1 jend (c :: rest) := ⟨rfl, rfl, hch'⟩
    have hbnd := opChain_bound (a := a) (b := b) hchfull hok c
      (List.mem_cons_self c rest)
    obtain ⟨st1, hrun1, p1, p2, p3, p4, p5⟩ :=
      pass1_op a b ha hb c (hok c (List.mem_cons_self c rest))
        (by omega) (by omega) st h1 h2 hk hpend
    have hpend' : st1.lastRemoved = none ∨ headTag rest ≠ Tag.insert := by
      rcases p5 with hp | hp
      · exact Or.inl hp
      · cases rest with
        | nil => exact Or.inr (by rw [headTag]; decide)
        | cons c2 r =>
          refine Or.inr ?_
          show c2.tag ≠ Tag.insert
          intro hc2
          exact hdf.1 ⟨hp, hc2⟩
    obtain ⟨st', hrun2, q1, q2, q3, q4⟩ := ih c.i2 iend c.j2 jend st1 hch'
      (fun x hx => hok x (List.mem_cons_of_mem c hx)) (diFree_tail hdf)
      hia hjb p1 p2 p4 hpend'
    refine ⟨st', ?_, q1, q2, ?_, q4⟩
    · rw [List.map_cons]
      rw [show (emitOp a b c :: rest.map (emitOp a b)).flatten =
        emitOp a b c ++ (rest.map (emitOp a b)).flatten from rfl]
      exact foldlM_ok_append pass1Step _ _ st st1 hrun1 ▸ hrun2
    · rw [q3, p3, List.map_cons]
      rw [show (opRL a c :: rest.map (opRL a)).flatten =
        opRL a c ++ (rest.map (opRL a)).flatten from rfl]
      rw [List.append_assoc]

/-- Pass 1 over an all-insert opcode run (an original-side-empty hunk). -/
theorem pass1_ops_insOnly (a b : List (List Char)) (hb : NoSkipB b) :
    ∀ (ops : List Op) (i0 iend j0 jend : Nat) (st : Pass1State),
      OpChain i0 iend j0 jend ops → (∀ c ∈ ops, OpOk a b c) →
      (∀ c ∈ ops, c.tag = Tag.insert) →
      jend ≤ b.length →
      st.tlm = (j0 : Int) → st.lastRemoved = none →
      ∃ st', ((ops.map (emitOp a b)).flatten).foldlM pass1Step st = .ok st' ∧
        st'.tlo = st.tlo ∧ st'.tlm = (jend : Int) ∧
        st'.removedLines = st.removedLines ∧ st'.lastRemoved = none ∧
        ((ops.map (opRL a)).flatten) = [] := by
  intro ops
  induction ops with
  | nil =>
    intro i0 iend j0 jend st hch _ _ _ h2 hlr
    obtain ⟨_, e2⟩ := hch
    subst e2
    exact ⟨st, rfl, rfl, h2, rfl, hlr, rfl⟩
  | cons c rest ih =>
    intro i0 iend j0 jend st hch hok htag hjb h2 hlr
    obtain ⟨e1, e2, hch'⟩ := hch
    subst e2
    have htc := htag c (List.mem_cons_self c rest)
    have hchfull : OpChain i0 iend c.j1 jend (c :: rest) := ⟨e1, rfl, hch'⟩
    have hbnd := opChain_bound (a := a) (b := b) hchfull hok c
      (List.mem_cons_self c rest)
    have hle2 := (hok c (List.mem_cons_self c rest)).2.1
    rw [List.map_cons]
    rw [show (emitOp a b c :: rest.map (emitOp a b)).flatten =
      emitOp a b c ++ (rest.map (emitOp a b)).flatten from rfl]
    rw [emitOp_insert a b htc]
    obtain ⟨st1, hrun1, p1, p2, p3, p4⟩ :=
      pass1_insRun_none b hb (c.j2 - c.j1) c.j1 st (by omega) (by omega) hlr
    rw [show c.j1 + (c.j2 - c.j1) = c.j2 from by omega] at hrun1 p2
    obtain ⟨st', hrun2, q1, q2, q3, q4, q5⟩ := ih c.i2 iend c.j2 jend st1 hch'
      (fun x hx => hok x (List.mem_cons_of_mem _ hx))
      (fun x hx => htag x (List.mem_cons_of_mem _ hx)) hjb p2 p4
    refine ⟨st', ?_, by rw [q1, p1], q2, by rw [q3, p3], q4, ?_⟩
    · exact foldlM_ok_append pass1Step _ _ st st1 hrun1 ▸ hrun2
    · rw [List.map_cons]
      rw [show (opRL a c :: rest.map (opRL a)).flatten =
        opRL a c ++ (rest.map (opRL a)).flatten from rfl]
      rw [opRL_insert a htc, q5]
      rfl

/-- Pass 1 over an all-delete opcode run (a modified-side-empty hunk). -/
theorem pass1_ops_delOnly (a b : List (List Char)) (ha : NoSkipA a) :
    ∀ (ops : List Op) (i0 iend j0 jend : Nat) (st : Pass1State),
      OpChain i0 iend j0 jend ops → (∀ c ∈ ops, OpOk a b c) →
      (∀ c ∈ ops, c.tag = Tag.delete) →
      iend ≤ a.length →
      st.tlo = (i0 : Int) → KeysLe st.removedLines (i0 : Int) →
      ∃ st', ((ops.map (emitOp a b)).flatten).foldlM pass1Step st = .ok st' ∧
        st'.tlo = (iend : Int) ∧
        st'.removedLines = st.removedLines ++ ((ops.map (opRL a)).flatten) ∧
        KeysLe st'.removedLines (iend : Int) := by
  intro ops
  induction ops with
  | nil =>
    intro i0 iend j0 jend st hch _ _ _ h1 hk
    obtain ⟨e1, _⟩ := hch
    subst e1
    exact ⟨st, rfl, h1, by simp, hk⟩
  | cons c rest ih =>
    intro i0 iend j0 jend st hch hok htag hia h1 hk
    obtain ⟨e1, e2, hch'⟩ := hch
    subst e1
    have htc := htag c (List.mem_cons_self c rest)
    have hchfull : OpChain c.i1 iend j0 jend (c :: rest) := ⟨rfl, e2, hch'⟩
    have hbnd := opChain_bound (a := a) (b := b) hchfull hok c
      (List.mem_cons_self c rest)
    have hle1 := (hok c (List.mem_cons_self c rest)).1
    rw [List.map_cons]
    rw [show (emitOp a b c :: rest.map (emitOp a b)).flatten =
      emitOp a b c ++ (rest.map (emitOp a b)).flatten from rfl]
    rw [emitOp_delete a b htc]
    obtain ⟨st1, hrun1, p1, p2, p3, p4, p5⟩ :=
      pass1_delRun a ha (c.i2 - c.i1) c.i1 st (by omega) h1 hk
    rw [show c.i1 + (c.i2 - c.i1) = c.i2 from by omega] at hrun1 p1 p5
    obtain ⟨st', hrun2, q1, q3, q4⟩ := ih c.i2 iend c.j2 jend st1 hch'
      (fun x hx => hok x (List.mem_cons_of_mem _ hx))
      (fun x hx => htag x (List.mem_cons_of_mem _ hx)) hia p1 p5
    refine ⟨st', ?_, q1, ?_, q4⟩
    · exact foldlM_ok_append pass1Step _ _ st st1 hrun1 ▸ hrun2
    · rw [q3, p3, List.map_cons]
      rw [show (opRL a c :: rest.map (opRL a)).flatten =
        opRL a c ++ (rest.map (opRL a)).flatten from rfl]
      rw [opRL_delete a htc, List.append_assoc]

/-- Pass 1 over one full hunk: header plus body. -/
theorem pass1_group (a b : List (List Char)) (ha : NoSkipA a) (hb : NoSkipB b)
    (g : List Op) (i0 iend j0 jend : Nat)
    (hg : GroupOk a b i0 iend j0 jend g)
    (st : Pass1State)
    (hk : KeysLe st.removedLines (i0 : Int))
    (hpend : st.lastRemoved = none ∨ headTag g = Tag.equal) :
    ∃ st', (emitGroup a b g).foldlM pass1Step st = .ok st' ∧
      st'.removedLines = st.removedLines ++ groupRL a g ∧
      KeysLe st'.removedLines (iend : Int) := by
  obtain ⟨hch, hne, hok, hdf, hia, hjb⟩ := hg
  obtain ⟨cf, cl, hh, hl, f1, f2, f3, f4⟩ := opChain_headLast g i0 iend j0 jend hch hne
  obtain ⟨hpre1, hpre2, hpre3⟩ := hunkHeader_prefixes hh hl
  have hmatch := matchHunkHeader_hunkHeader hh hl
  rw [f1, f2, f3, f4] at hmatch
  have hstep := pass1Step_at_header st (hunkHeader g)
    (fmtStart i0 iend) (fmtStart j0 jend) hpre1 hpre2 hpre3 hmatch
  rw [show emitGroup a b g = hunkHeader g :: (g.map (emitOp a b)).flatten from rfl]
  rw [foldlM_cons, exceptBindOk _ _ _ hstep]
  by_cases hie : i0 = iend
  · -- empty original range: all opcodes are inserts
    subst hie
    have hins := allInsert_of_iEmpty hch hok
    have hje : j0 ≠ jend := by
      intro hje
      subst hje
      have hdel := allDelete_of_jEmpty hch hok
      cases g with
      | nil => exact hne rfl
      | cons c r =>
        have h1 := (hins c (List.mem_cons_self c r)).1
        have h2 := (hdel c (List.mem_cons_self c r)).1
        rw [h1] at h2
        cases h2
    have hlr : st.lastRemoved = none := by
      rcases hpend with hp | hp
      · exact hp
      · cases g with
        | nil => exact absurd rfl hne
        | cons c r =>
          have := (hins c (List.mem_cons_self c r)).1
          rw [show headTag (c :: r) = c.tag from rfl, this] at hp
          cases hp
    obtain ⟨st', hrun, p1, p2, p3, p4, p5⟩ :=
      pass1_ops_insOnly a b hb g i0 i0 j0 jend
        { st with tlo := ((fmtStart i0 i0 : Nat) : Int) - 1,
                  tlm := ((fmtStart j0 jend : Nat) : Int) - 1 }
        hch hok (fun c hc => (hins c hc).1) hjb
        (by
          show ((fmtStart j0 jend : Nat) : Int) - 1 = (j0 : Int)
          rw [fmtStart, if_neg (show ¬(jend - j0 = 0) by
            have := opChain_startLe hch hok; omega)]
          omega)
        hlr
    refine ⟨st', hrun, ?_, ?_⟩
    · show st'.removedLines = st.removedLines ++ (g.map (opRL a)).flatten
      rw [p5, p3, List.append_nil]
    · rw [p3]
      exact fun e he => hk e he
  · -- the original range is nonempty
    by_cases hje : j0 = jend
    · -- empty modified range: all opcodes are deletes
      subst hje
      have hdel := allDelete_of_jEmpty hch hok
      obtain ⟨st', hrun, p1, p3, p4⟩ :=
        pass1_ops_delOnly a b ha g i0 iend j0 j0
          { st with tlo := ((fmtStart i0 iend : Nat) : Int) - 1,
                    tlm := ((fmtStart j0 j0 : Nat) : Int) - 1 }
          hch hok (fun c hc => (hdel c hc).1) hia
          (by
            show ((fmtStart i0 iend : Nat) : Int) - 1 = (i0 : Int)
            rw [fmtStart, if_neg (show ¬(iend - i0 = 0) by
              have := opChain_startLe hch hok; omega)]
            omega)
          (fun e he => hk e he)
      exact ⟨st', hrun, p3, p4⟩
    · -- both ranges advance
      obtain ⟨st', hrun, p1, p2, p3, p4⟩ :=
        pass1_ops a b ha hb g i0 iend j0 jend
          { st with tlo := ((fmtStart i0 iend : Nat) : Int) - 1,
                    tlm := ((fmtStart j0 jend : Nat) : Int) - 1 }
          hch hok hdf hia hjb
          (by
            show ((fmtStart i0 iend : Nat) : Int) - 1 = (i0 : Int)
            rw [fmtStart, if_neg (show ¬(iend - i0 = 0) by
              have := opChain_startLe hch hok; omega)]
            omega)
          (by
            show ((fmtStart j0 jend : Nat) : Int) - 1 = (j0 : Int)
            rw [fmtStart, if_neg (show ¬(jend - j0 = 0) by
              have := opChain_startLe hch hok; omega)]
            omega)
          (fun e he => hk e he)
          (by
            rcases hpend with hp | hp
            · exact Or.inl hp
            · refine Or.inr ?_
              rw [hp]
              decide)
      exact ⟨st', hrun, p3, p4⟩

/-- Pass 1 over the whole grouped-opcode stream: the final dictionary is
exactly the concatenation of the per-opcode contributions. -/
theorem pass1_groups (a b : List (List Char)) (ha : NoSkipA a) (hb : NoSkipB b) :
    ∀ (gs : List (List Op)) (first : Bool) (ip jp : Nat) (st : Pass1State),
      GroupsChain a b first ip jp gs →
      KeysLe st.removedLines (ip : Int) →
      (first = true → st.lastRemoved = none) →
      ∃ st', ((gs.map (emitGroup a b)).flatten).foldlM pass1Step st = .ok st' ∧
        st'.removedLines = st.removedLines ++ groupsRL a gs := by
  intro gs
  induction gs with
  | nil =>
    intro first ip jp st _ _ _
    exact ⟨st, rfl, by rw [groupsRL]; simp⟩
  | cons g rest ih =>
    intro first ip jp st hch hk hfirst
    obtain ⟨i0, iend, j0, jend, hip, hjp, hgok, hhd, hrest⟩ := hch
    have hpend : st.lastRemoved = none ∨ headTag g = Tag.equal := by
      rcases hhd with hf | hf
      · exact Or.inl (hfirst hf)
      · exact Or.inr hf
    obtain ⟨st1, hrun1, p3, p4⟩ := pass1_group a b ha hb g i0 iend j0 jend hgok st
      (keysLe_mono hk (by omega)) hpend
    obtain ⟨st', hrun2, q3⟩ := ih false iend jend st1 hrest p4
      (fun h => Bool.noConfusion h)
    refine ⟨st', ?_, ?_⟩
    · rw [List.map_cons]
      rw [show (emitGroup a b g :: rest.map (emitGroup a b)).flatten =
        emitGroup a b g ++ (rest.map (emitGroup a b)).flatten from rfl]
      exact foldlM_ok_append pass1Step _ _ st st1 hrun1 ▸ hrun2
    · rw [q3, p3]
      rw [show groupsRL a (g :: rest) = groupRL a g ++ groupsRL a rest from rfl]
      rw [List.append_assoc]

/-! ### Looking entries up in the collected dictionary -/

/-- Entries reachable so far: keys and stored modified-line values bounded
above. -/
def KeysModsLe (d : List (Int × RLVal)) (ti tj : Int) : Prop :=
  ∀ e ∈ d, e.1 ≤ ti ∧ ∀ m, e.2.1 = some m → m ≤ tj

/-- Entries still ahead: keys and stored modified-line values bounded
below (strictly). -/
def KeysModsGt (d : List (Int × RLVal)) (ti tj : Int) : Prop :=
  ∀ e ∈ d, ti < e.1 ∧ ∀ m, e.2.1 = some m → tj < m

theorem keysModsLe_append {d1 d2 : List (Int × RLVal)} {ti tj : Int}
    (h1 : KeysModsLe d1 ti tj) (h2 : KeysModsLe d2 ti tj) :
    KeysModsLe (d1 ++ d2) ti tj := by
  intro e he
  rcases List.mem_append.mp he with h | h
  · exact h1 e h
  · exact h2 e h

theorem keysModsLe_mono {d : List (Int × RLVal)} {ti tj ti' tj' : Int}
    (h : KeysModsLe d ti tj) (h1 : ti ≤ ti') (h2 : tj ≤ tj') :
    KeysModsLe d ti' tj' := by
  intro e he
  obtain ⟨p1, p2⟩ := h e he
  exact ⟨by omega, fun m hm => by have := p2 m hm; omega⟩

theorem keysModsGt_append {d1 d2 : List (Int × RLVal)} {ti tj : Int}
    (h1 : KeysModsGt d1 ti tj) (h2 : KeysModsGt d2 ti tj) :
    KeysModsGt (d1 ++ d2) ti tj := by
  intro e he
  rcases List.mem_append.mp he with h | h
  · exact h1 e h
  · exact h2 e h

theorem keysModsGt_mono {d : List (Int × RLVal)} {ti tj ti' tj' : Int}
    (h : KeysModsGt d ti tj) (h1 : ti' ≤ ti) (h2 : tj' ≤ tj) :
    KeysModsGt d ti' tj' := by
  intro e he
  obtain ⟨p1, p2⟩ := h e he
  exact ⟨by omega, fun m hm => by have := p2 m hm; omega⟩

/-- Per-entry bounds of one opcode's contribution. -/
theorem opRL_bounds (a b : List (List Char)) {c : Op} (hok : OpOk a b c) :
    ∀ e ∈ opRL a c, ((c.i1 : Int) < e.1 ∧ e.1 ≤ (c.i2 : Int)) ∧
      ∀ m, e.2.1 = some m → m = (c.j1 : Int) + 1 ∧ c.j1 < c.j2 := by
  intro e he
  cases hct : c.tag
  · rw [opRL_equal a hct] at he
    cases he
  · rw [opRL_replace a hct] at he
    obtain ⟨hlt1, hlt2⟩ := hok.2.2.2.2.2 hct
    rcases List.mem_append.mp he with h | h
    · obtain ⟨i, hi, rfl⟩ := List.mem_map.mp h
      have hbi := mem_range'_bounds _ _ _ hi
      refine ⟨⟨by show (c.i1 : Int) < (i : Int) + 1; omega,
        by show (i : Int) + 1 ≤ (c.i2 : Int); omega⟩, fun m hm => ?_⟩
      exact absurd hm (by simp)
    · rw [List.mem_singleton] at h
      subst h
      refine ⟨⟨by show (c.i1 : Int) < (c.i2 : Int); omega, le_refl _⟩, fun m hm => ?_⟩
      have hm' : some ((c.j1 : Int) + 1) = some m := hm
      injection hm' with hm'
      exact ⟨hm'.symm, hlt2⟩
  · rw [opRL_delete a hct] at he
    obtain ⟨hjj, hlt⟩ := hok.2.2.2.2.1 hct
    obtain ⟨i, hi, rfl⟩ := List.mem_map.mp he
    have hbi := mem_range'_bounds _ _ _ hi
    refine ⟨⟨by show (c.i1 : Int) < (i : Int) + 1; omega,
      by show (i : Int) + 1 ≤ (c.i2 : Int); omega⟩, fun m hm => ?_⟩
    exact absurd hm (by simp)
  · rw [opRL_insert a hct] at he
    cases he

/-- Per-entry bounds of one opcode run's contribution. -/
theorem opsRL_bounds (a b : List (List Char)) {ops : List Op}
    {i0 iend j0 jend : Nat}
    (hch : OpChain i0 iend j0 jend ops) (hok : ∀ c ∈ ops, OpOk a b c) :
    ∀ e ∈ ((ops.map (opRL a)).flatten),
      ((i0 : Int) < e.1 ∧ e.1 ≤ (iend : Int)) ∧
      ∀ m, e.2.1 = some m → (j0 : Int) < m ∧ m ≤ (jend : Int) := by
  intro e he
  obtain ⟨rl0, hrl0, hmem⟩ := List.mem_flatten.mp he
  obtain ⟨c, hc, rfl⟩ := List.mem_map.mp hrl0
  have hb := opChain_bound (a := a) (b := b) hch hok c hc
  have he2 := opRL_bounds a b (hok c hc) e hmem
  refine ⟨⟨by have := he2.1.1; omega, by have := he2.1.2; omega⟩, fun m hm => ?_⟩
  obtain ⟨hm1, hm2⟩ := he2.2 m hm
  constructor
  · omega
  · have : c.j2 ≤ jend := hb.2.2.2
    omega

/-- Entries of groups still ahead are strictly beyond the current counters. -/
theorem groupsRL_gt (a b : List (List Char)) :
    ∀ (gs : List (List Op)) (f : Bool) (ip jp : Nat),
      GroupsChain a b f ip jp gs →
      KeysModsGt (groupsRL a gs) (ip : Int) (jp : Int) := by
  intro gs
  induction gs with
  | nil =>
    intro f ip jp _ e he
    rw [show groupsRL a [] = [] from rfl] at he
    cases he
  | cons g rest ih =>
    intro f ip jp hch
    obtain ⟨i0, iend, j0, jend, hip, hjp, hgok, _, hrest⟩ := hch
    obtain ⟨hc, hne, hok, hdf, hia, hjb⟩ := hgok
    have hmono := opChain_startLe hc hok
    intro e he
    rw [show groupsRL a (g :: rest) = groupRL a g ++ groupsRL a rest from rfl] at he
    rcases List.mem_append.mp he with h | h
    · have := opsRL_bounds a b hc hok e h
      exact ⟨by have := this.1.1; omega,
        fun m hm => by have := (this.2 m hm).1; omega⟩
    · have := ih false iend jend hrest e h
      exact ⟨by have := this.1; omega, fun m hm => by have := this.2 m hm; omega⟩

theorem decide_false_of_ne {x y : Int} (h : x ≠ y) : decide (x = y) = false :=
  decide_eq_false h

theorem dictGet_skip (d1 d2 : List (Int × RLVal)) (k : Int)
    (h : ∀ e ∈ d1, e.1 ≠ k) : dictGet (d1 ++ d2) k = dictGet d2 k := by
  rw [dictGet, dictGet,
    find?_skip (fun e => decide (e.1 = k)) d1 d2
      (fun e he => decide_eq_false (h e he))]

theorem dictGet_cons_self (k : Int) (v : RLVal) (d : List (Int × RLVal)) :
    dictGet ((k, v) :: d) k = some v := by
  rw [dictGet, List.find?_cons_of_pos _ (by simp)]
  rfl

theorem dictGet_cons_ne (k' k : Int) (hne : k' ≠ k) (v : RLVal)
    (d : List (Int × RLVal)) :
    dictGet ((k', v) :: d) k = dictGet d k := by
  rw [dictGet, dictGet, List.find?_cons_of_neg _ (by simp [hne])]

/-- Looking up one of a run of consecutive unpaired delete entries. -/
theorem dictGet_range_hit (a : List (List Char)) :
    ∀ (m lo i : Nat), lo ≤ i → i < lo + m → ∀ (tail : List (Int × RLVal)),
      dictGet (((List.range' lo m).map
          (fun i : Nat => ((i : Int) + 1, ((none : Option Int), some (aline a i)))))
          ++ tail) ((i : Int) + 1) =
        some ((none : Option Int), some (aline a i)) := by
  intro m
  induction m with
  | zero =>
    intro lo i h1 h2 tail
    exact absurd h2 (by omega)
  | succ m ih =>
    intro lo i h1 h2 tail
    rw [List.range'_succ, List.map_cons, List.cons_append]
    by_cases hei : i = lo
    · subst hei
      exact dictGet_cons_self _ _ _
    · rw [dictGet_cons_ne _ _ (by omega) _ _]
      exact ih (lo + 1) i (by omega) (by omega) tail

/-- The keys of a run of unpaired delete entries. -/
theorem range_keys_ne (a : List (List Char)) (lo n : Nat) (k : Int)
    (hk : ∀ i : Nat, lo ≤ i → i < lo + n → ((i : Int) + 1) ≠ k) :
    ∀ e ∈ (List.range' lo n).map
      (fun i : Nat => ((i : Int) + 1, ((none : Option Int), some (aline a i)))),
      e.1 ≠ k := by
  intro e he
  obtain ⟨i, hi, rfl⟩ := List.mem_map.mp he
  have := mem_range'_bounds _ _ _ hi
  exact hk i this.1 this.2

theorem fp_skip (d1 d2 : List (Int × RLVal)) (m : Int)
    (h : ∀ e ∈ d1, ∀ mv, e.2.1 = some mv → mv ≠ m) :
    findPairedContent (d1 ++ d2) m = findPairedContent d2 m := by
  rw [findPairedContent, findPairedContent,
    find?_skip (fun e => decide (e.2.1 = some m) && e.2.2.isSome) d1 d2 ?_]
  intro e he
  cases hm : e.2.1 with
  | none => simp [hm]
  | some mv =>
    have := h e he mv hm
    simp [hm, this]

theorem fp_none (d : List (Int × RLVal)) (m : Int)
    (h : ∀ e ∈ d, ∀ mv, e.2.1 = some mv → mv ≠ m) :
    findPairedContent d m = none := by
  have := fp_skip d [] m h
  rw [List.append_nil] at this
  rw [this]
  rfl

theorem fp_hit (d : List (Int × RLVal)) (k m : Int) (ct : List Char)
    (tail : List (Int × RLVal))
    (h : ∀ e ∈ d, ∀ mv, e.2.1 = some mv → mv ≠ m) :
    findPairedContent (d ++ ((k, (some m, some ct)) :: tail)) m = some ct := by
  rw [fp_skip d _ m h, findPairedContent, List.find?_cons_of_pos _ (by simp)]

/-- Unpaired delete entries carry no stored modified line. -/
theorem range_mods_none (a : List (List Char)) (lo n : Nat) (m : Int) :
    ∀ e ∈ (List.range' lo n).map
      (fun i : Nat => ((i : Int) + 1, ((none : Option Int), some (aline a i)))),
      ∀ mv, e.2.1 = some mv → mv ≠ m := by
  intro e he mv hm
  obtain ⟨i, hi, rfl⟩ := List.mem_map.mp he
  exact absurd hm (by simp)

/-! ### Pass 2: the emitted rows, opcode by opcode -/

/-- The rows one opcode's diff lines produce in pass 2. -/
def opRows (a b : List (List Char)) (c : Op) : List Row :=
  match c.tag with
  | Tag.equal => (List.range' c.i1 (c.i2 - c.i1)).map
      (fun i : Nat => Row.context (intToChars ((i : Int) + 1)) (aline a i))
  | Tag.delete => (List.range' c.i1 (c.i2 - c.i1)).map
      (fun i : Nat => Row.removed ('-' :: intToChars ((i : Int) + 1)) (aline a i))
  | Tag.insert => (List.range' c.j1 (c.j2 - c.j1)).map
      (fun j : Nat => Row.added ('+' :: intToChars ((j : Int) + 1)) (aline b j))
  | Tag.replace =>
      (List.range' c.i1 (c.i2 - c.i1 - 1)).map
        (fun i : Nat => Row.removed ('-' :: intToChars ((i : Int) + 1)) (aline a i)) ++
      Row.paired ('+' :: intToChars ((c.j1 : Int) + 1))
        (highlightWordDiff (aline a (c.i2 - 1)) (aline b c.j1)) ::
      (List.range' (c.j1 + 1) (c.j2 - c.j1 - 1)).map
        (fun j : Nat => Row.added ('+' :: intToChars ((j : Int) + 1)) (aline b j))

/-- The rows one hunk produces. -/
def groupRows (a b : List (List Char)) (g : List Op) : List Row :=
  (g.map (opRows a b)).flatten

/-- The rows the whole grouped-opcode stream produces. -/
def groupsRows (a b : List (List Char)) (gs : List (List Op)) : List Row :=
  (gs.map (groupRows a b)).flatten

theorem opRows_equal (a b : List (List Char)) {c : Op} (h : c.tag = Tag.equal) :
    opRows a b c = (List.range' c.i1 (c.i2 - c.i1)).map
      (fun i : Nat => Row.context (intToChars ((i : Int) + 1)) (aline a i)) := by
  unfold opRows
  rw [h]

theorem opRows_delete (a b : List (List Char)) {c : Op} (h : c.tag = Tag.delete) :
    opRows a b c = (List.range' c.i1 (c.i2 - c.i1)).map
      (fun i : Nat => Row.removed ('-' :: intToChars ((i : Int) + 1)) (aline a i)) := by
  unfold opRows
  rw [h]

theorem opRows_insert (a b : List (List Char)) {c : Op} (h : c.tag = Tag.insert) :
    opRows a b c = (List.range' c.j1 (c.j2 - c.j1)).map
      (fun j : Nat => Row.added ('+' :: intToChars ((j : Int) + 1)) (aline b j)) := by
  unfold opRows
  rw [h]

theorem opRows_replace (a b : List (List Char)) {c : Op} (h : c.tag = Tag.replace) :
    opRows a b c = (List.range' c.i1 (c.i2 - c.i1 - 1)).map
        (fun i : Nat => Row.removed ('-' :: intToChars ((i : Int) + 1)) (aline a i)) ++
      Row.paired ('+' :: intToChars ((c.j1 : Int) + 1))
        (highlightWordDiff (aline a (c.i2 - 1)) (aline b c.j1)) ::
      (List.range' (c.j1 + 1) (c.j2 - c.j1 - 1)).map
        (fun j : Nat => Row.added ('+' :: intToChars ((j : Int) + 1)) (aline b j)) := by
  unfold opRows
  rw [h]

/-- Pass 2 over a run of context lines. -/
theorem pass2_ctxRun (rl : List (Int × RLVal)) (a : List (List Char)) :
    ∀ (cnt i1 j1 : Nat) (st : Pass2State), i1 + cnt ≤ a.length →
      st.lno = (i1 : Int) → st.lnm = (j1 : Int) →
      ∃ st', ((pySlice a i1 (i1 + cnt)).map (fun l => ' ' :: l)).foldlM
          (pass2Step rl) st = .ok st' ∧
        st'.lno = ((i1 + cnt : Nat) : Int) ∧ st'.lnm = ((j1 + cnt : Nat) : Int) ∧
        st'.rows = st.rows ++ (List.range' i1 cnt).map
          (fun i : Nat => Row.context (intToChars ((i : Int) + 1)) (aline a i)) := by
  intro cnt
  induction cnt with
  | zero =>
    intro i1 j1 st hlen h1 h2
    simp only [Nat.add_zero]
    rw [pySlice_self]
    exact ⟨st, rfl, h1, h2, by simp⟩
  | succ cnt ih =>
    intro i1 j1 st hlen h1 h2
    rw [pySlice_cons (show i1 < i1 + (cnt + 1) by omega) (get?_eq_aline (by omega))]
    rw [List.map_cons, foldlM_cons]
    obtain ⟨st1, hs, q1, q2, q3⟩ : ∃ st1,
        pass2Step rl st (' ' :: aline a i1) = .ok st1 ∧
        st1.lno = st.lno + 1 ∧ st1.lnm = st.lnm + 1 ∧
        st1.rows = st.rows ++
          [Row.context (intToChars ((i1 : Int) + 1)) (aline a i1)] :=
      ⟨_, pass2Step_context rl st (aline a i1), rfl, rfl, by rw [h1]⟩
    obtain ⟨st', hrun, p1, p2, p3⟩ := ih (i1 + 1) (j1 + 1) st1 (by omega)
      (by omega) (by omega)
    refine ⟨st', ?_, by omega, by omega, ?_⟩
    · rw [exceptBindOk _ _ _ hs]
      have e : i1 + 1 + cnt = i1 + (cnt + 1) := by omega
      rw [e] at hrun
      exact hrun
    · rw [p3, q3, List.append_assoc, List.range'_succ, List.map_cons]
      rfl

/-- Pass 2 over a run of delete lines whose entries are all unpaired. -/
theorem pass2_delRun (rl : List (Int × RLVal)) (a : List (List Char))
    (ha : NoSkipA a) :
    ∀ (cnt i1 : Nat) (st : Pass2State), i1 + cnt ≤ a.length →
      st.lno = (i1 : Int) →
      (∀ i, i1 ≤ i → i < i1 + cnt →
        dictGet rl ((i : Int) + 1) = some ((none : Option Int), some (aline a i))) →
      ∃ st', ((pySlice a i1 (i1 + cnt)).map (fun l => '-' :: l)).foldlM
          (pass2Step rl) st = .ok st' ∧
        st'.lno = ((i1 + cnt : Nat) : Int) ∧ st'.lnm = st.lnm ∧
        st'.rows = st.rows ++ (List.range' i1 cnt).map
          (fun i : Nat => Row.removed ('-' :: intToChars ((i : Int) + 1))
            (aline a i)) := by
  intro cnt
  induction cnt with
  | zero =>
    intro i1 st hlen h1 hdg
    simp only [Nat.add_zero]
    rw [pySlice_self]
    exact ⟨st, rfl, h1, rfl, by simp⟩
  | succ cnt ih =>
    intro i1 st hlen h1 hdg
    rw [pySlice_cons (show i1 < i1 + (cnt + 1) by omega) (get?_eq_aline (by omega))]
    rw [List.map_cons, foldlM_cons]
    obtain ⟨st1, hs, q1, q2, q3⟩ : ∃ st1,
        pass2Step rl st ('-' :: aline a i1) = .ok st1 ∧
        st1.lno = st.lno + 1 ∧ st1.lnm = st.lnm ∧
        st1.rows = st.rows ++
          [Row.removed ('-' :: intToChars ((i1 : Int) + 1)) (aline a i1)] :=
      ⟨_, pass2Step_delete_unpaired rl st (aline a i1) (some (aline a i1))
          (ha _ (aline_mem (by omega)))
          (by rw [h1]; exact hdg i1 (le_refl i1) (by omega)),
        rfl, rfl, by rw [h1]⟩
    obtain ⟨st', hrun, p1, p2, p3⟩ := ih (i1 + 1) st1 (by omega) (by omega)
      (fun i hi1 hi2 => hdg i (by omega) (by omega))
    refine ⟨st', ?_, by omega, by rw [p2, q2], ?_⟩
    · rw [exceptBindOk _ _ _ hs]
      have e : i1 + 1 + cnt = i1 + (cnt + 1) := by omega
      rw [e] at hrun
      exact hrun
    · rw [p3, q3, List.append_assoc, List.range'_succ, List.map_cons]
      rfl

/-- Pass 2 over a run of insert lines none of which is paired. -/
theorem pass2_insRun (rl : List (Int × RLVal)) (b : List (List Char))
    (hb : NoSkipB b) :
    ∀ (cnt j1 : Nat) (st : Pass2State), j1 + cnt ≤ b.length →
      st.lnm = (j1 : Int) →
      (∀ j, j1 ≤ j → j < j1 + cnt →
        findPairedContent rl ((j : Int) + 1) = none) →
      ∃ st', ((pySlice b j1 (j1 + cnt)).map (fun l => '+' :: l)).foldlM
          (pass2Step rl) st = .ok st' ∧
        st'.lno = st.lno ∧ st'.lnm = ((j1 + cnt : Nat) : Int) ∧
        st'.rows = st.rows ++ (List.range' j1 cnt).map
          (fun j : Nat => Row.added ('+' :: intToChars ((j : Int) + 1))
            (aline b j)) := by
  intro cnt
  induction cnt with
  | zero =>
    intro j1 st hlen h1 hfp
    simp only [Nat.add_zero]
    rw [pySlice_self]
    exact ⟨st, rfl, rfl, h1, by simp⟩
  | succ cnt ih =>
    intro j1 st hlen h1 hfp
    rw [pySlice_cons (show j1 < j1 + (cnt + 1) by omega) (get?_eq_aline (by omega))]
    rw [List.map_cons, foldlM_cons]
    obtain ⟨st1, hs, q1, q2, q3⟩ : ∃ st1,
        pass2Step rl st ('+' :: aline b j1) = .ok st1 ∧
        st1.lno = st.lno ∧ st1.lnm = st.lnm + 1 ∧
        st1.rows = st.rows ++
          [Row.added ('+' :: intToChars ((j1 : Int) + 1)) (aline b j1)] :=
      ⟨_, pass2Step_insert_fresh rl st (aline b j1)
          (hb _ (aline_mem (by omega)))
          (by rw [h1]; exact hfp j1 (le_refl j1) (by omega)),
        rfl, rfl, by rw [h1]⟩
    obtain ⟨st', hrun, p1, p2, p3⟩ := ih (j1 + 1) st1 (by omega) (by omega)
      (fun j hj1 hj2 => hfp j (by omega) (by omega))
    refine ⟨st', ?_, by rw [p1, q1], by omega, ?_⟩
    · rw [exceptBindOk _ _ _ hs]
      have e : j1 + 1 + cnt = j1 + (cnt + 1) := by omega
      rw [e] at hrun
      exact hrun
    · rw [p3, q3, List.append_assoc, List.range'_succ, List.map_cons]
      rfl

theorem pySlice_single {l : List α} {i j : Nat} (hij : j = i + 1) {x : α}
    (hx : l.get? i = some x) : pySlice l i j = [x] := by
  subst hij
  exact pySlice_one hx

/-- Pass 2 over the body lines of a single opcode, given the position of the
opcode's dictionary entries inside the full dictionary. -/
theorem pass2_op (a b : List (List Char)) (ha : NoSkipA a) (hb : NoSkipB b)
    (c : Op) (hok : OpOk a b c) (hia : c.i2 ≤ a.length) (hjb : c.j2 ≤ b.length)
    (st : Pass2State) (D1 D2 : List (Int × RLVal))
    (hD1 : KeysModsLe D1 (c.i1 : Int) (c.j1 : Int))
    (hD2 : KeysModsGt D2 (c.i2 : Int) (c.j2 : Int))
    (h1 : st.lno = (c.i1 : Int)) (h2 : st.lnm = (c.j1 : Int)) :
    ∃ st', (emitOp a b c).foldlM (pass2Step ((D1 ++ opRL a c) ++ D2)) st = .ok st' ∧
      st'.lno = (c.i2 : Int) ∧ st'.lnm = (c.j2 : Int) ∧
      st'.rows = st.rows ++ opRows a b c := by
  have hle1 := hok.1
  have hle2 := hok.2.1
  cases hct : c.tag
  · -- equal: no lookups happen
    obtain ⟨hsl, hlt, hlen⟩ := hok.2.2.1 hct
    rw [emitOp_equal a b hct, opRows_equal a b hct]
    obtain ⟨st', hrun, p1, p2, p3⟩ :=
      pass2_ctxRun ((D1 ++ opRL a c) ++ D2) a (c.i2 - c.i1) c.i1 c.j1 st
        (by omega) h1 h2
    rw [show c.i1 + (c.i2 - c.i1) = c.i2 from by omega] at hrun p1
    exact ⟨st', hrun, p1, by omega, p3⟩
  · -- replace
    obtain ⟨hlt1, hlt2⟩ := hok.2.2.2.2.2 hct
    rw [emitOp_replace a b hct, opRows_replace a b hct]
    have hdg1 : ∀ i, c.i1 ≤ i → i < c.i1 + (c.i2 - c.i1 - 1) →
        dictGet ((D1 ++ opRL a c) ++ D2) ((i : Int) + 1) =
          some ((none : Option Int), some (aline a i)) := by
      intro i hi1 hi2
      rw [List.append_assoc, opRL_replace a hct, List.append_assoc]
      rw [dictGet_skip D1 _ _ (fun e he => by have := (hD1 e he).1; omega)]
      exact dictGet_range_hit a (c.i2 - c.i1 - 1) c.i1 i hi1 (by omega) _
    have hdg2 : dictGet ((D1 ++ opRL a c) ++ D2) ((c.i2 : Nat) : Int) =
        some (some ((c.j1 : Int) + 1), some (aline a (c.i2 - 1))) := by
      rw [List.append_assoc, opRL_replace a hct, List.append_assoc]
      rw [dictGet_skip D1 _ _ (fun e he => by have := (hD1 e he).1; omega)]
      rw [dictGet_skip _ _ _
        (range_keys_ne a c.i1 (c.i2 - c.i1 - 1) _ (fun i hi1 hi2 => by omega))]
      exact dictGet_cons_self _ _ _
    have hfp3 : findPairedContent ((D1 ++ opRL a c) ++ D2) ((c.j1 : Int) + 1) =
        some (aline a (c.i2 - 1)) := by
      rw [opRL_replace a hct]
      rw [show (D1 ++ ((List.range' c.i1 (c.i2 - c.i1 - 1)).map
          (fun i : Nat => ((i : Int) + 1, ((none : Option Int), some (aline a i)))) ++
          [((c.i2 : Int), (some ((c.j1 : Int) + 1), some (aline a (c.i2 - 1))))])) ++ D2 =
        (D1 ++ (List.range' c.i1 (c.i2 - c.i1 - 1)).map
          (fun i : Nat => ((i : Int) + 1, ((none : Option Int), some (aline a i)))))
          ++ (((c.i2 : Int), (some ((c.j1 : Int) + 1), some (aline a (c.i2 - 1)))) :: D2)
        from by rw [← List.append_assoc, List.append_assoc, List.singleton_append]]
      refine fp_hit _ _ _ _ _ (fun e he mv hm => ?_)
      rcases List.mem_append.mp he with h | h
      · have := (hD1 e h).2 mv hm
        omega
      · exact range_mods_none a _ _ _ e h mv hm
    have hfp4 : ∀ j, c.j1 + 1 ≤ j → j < (c.j1 + 1) + (c.j2 - c.j1 - 1) →
        findPairedContent ((D1 ++ opRL a c) ++ D2) ((j : Int) + 1) = none := by
      intro j hj1 hj2
      refine fp_none _ _ (fun e he mv hm => ?_)
      rcases List.mem_append.mp he with h | h
      · rcases List.mem_append.mp h with h' | h'
        · have := (hD1 e h').2 mv hm
          omega
        · have := ((opRL_bounds a b hok e h').2 mv hm).1
          omega
      · have := (hD2 e h).2 mv hm
        omega
    -- split the delete lines into the unpaired prefix and the paired last one
    have happ := pySlice_append a
      (show c.i1 ≤ c.i1 + (c.i2 - c.i1 - 1) by omega)
      (show c.i1 + (c.i2 - c.i1 - 1) ≤ c.i2 by omega)
    rw [pySlice_single (show c.i2 = (c.i1 + (c.i2 - c.i1 - 1)) + 1 by omega)
      (get?_eq_aline (show c.i1 + (c.i2 - c.i1 - 1) < a.length by omega))] at happ
    rw [← happ, List.map_append, List.map_singleton]
    rw [pySlice_cons (show c.j1 < c.j2 by omega) (get?_eq_aline (by omega)),
      List.map_cons]
    -- walk the unpaired deletes
    obtain ⟨st1, hrunA, p1, p2, p3⟩ :=
      pass2_delRun ((D1 ++ opRL a c) ++ D2) a ha (c.i2 - c.i1 - 1) c.i1 st
        (by omega) h1 hdg1
    -- the paired delete line is skipped
    obtain ⟨st2, hstB, r1, r2, r3⟩ : ∃ st2,
        pass2Step ((D1 ++ opRL a c) ++ D2) st1
          ('-' :: aline a (c.i1 + (c.i2 - c.i1 - 1))) = .ok st2 ∧
        st2.lno = st1.lno + 1 ∧ st2.lnm = st1.lnm ∧ st2.rows = st1.rows :=
      ⟨_, pass2Step_delete_paired _ st1 _ ((c.j1 : Int) + 1)
          (some (aline a (c.i2 - 1)))
          (ha _ (aline_mem (by omega)))
          (by
            rw [p1, show ((c.i1 + (c.i2 - c.i1 - 1) : Nat) : Int) + 1 =
              ((c.i2 : Nat) : Int) from by omega]
            exact hdg2),
        rfl, rfl, rfl⟩
    have hlnm2 : st2.lnm = (c.j1 : Int) := by rw [r2, p2, h2]
    -- the first insert line produces the paired row
    obtain ⟨st3, hstC, s1, s2, s3⟩ : ∃ st3,
        pass2Step ((D1 ++ opRL a c) ++ D2) st2 ('+' :: aline b c.j1) = .ok st3 ∧
        st3.lno = st2.lno ∧ st3.lnm = st2.lnm + 1 ∧
        st3.rows = st2.rows ++
          [Row.paired ('+' :: intToChars ((c.j1 : Int) + 1))
            (highlightWordDiff (aline a (c.i2 - 1)) (aline b c.j1))] :=
      ⟨_, pass2Step_insert_paired _ st2 (aline b c.j1) (aline a (c.i2 - 1))
          (hb _ (aline_mem (by omega)))
          (by rw [hlnm2]; exact hfp3),
        rfl, rfl, by rw [hlnm2]⟩
    -- the remaining insert lines are fresh rows
    obtain ⟨st', hrunD, t1, t2, t3⟩ :=
      pass2_insRun ((D1 ++ opRL a c) ++ D2) b hb (c.j2 - c.j1 - 1) (c.j1 + 1) st3
        (by omega) (by omega) hfp4
    rw [show (c.j1 + 1) + (c.j2 - c.j1 - 1) = c.j2 from by omega] at hrunD t2
    refine ⟨st', ?_, by omega, t2, ?_⟩
    · have hrunB : (['-' :: aline a (c.i1 + (c.i2 - c.i1 - 1))]).foldlM
          (pass2Step ((D1 ++ opRL a c) ++ D2)) st1 = .ok st2 := by
        rw [foldlM_cons, exceptBindOk _ _ _ hstB]
        rfl
      have hrun1 := foldlM_ok_append (pass2Step ((D1 ++ opRL a c) ++ D2))
        _ _ st st1 hrunA ▸ hrunB
      have hrun2 : (('+' :: aline b c.j1) ::
          (pySlice b (c.j1 + 1) c.j2).map (fun l => '+' :: l)).foldlM
          (pass2Step ((D1 ++ opRL a c) ++ D2)) st2 = .ok st' := by
        rw [foldlM_cons, exceptBindOk _ _ _ hstC]
        exact hrunD
      exact foldlM_ok_append (pass2Step ((D1 ++ opRL a c) ++ D2))
        _ _ st st2 hrun1 ▸ hrun2
    · rw [t3, s3, r3, p3]
      rw [List.append_assoc, List.append_assoc, List.singleton_append]
  · -- delete
    obtain ⟨hjj, hlt⟩ := hok.2.2.2.2.1 hct
    rw [emitOp_delete a b hct, opRows_delete a b hct]
    have hdg : ∀ i, c.i1 ≤ i → i < c.i1 + (c.i2 - c.i1) →
        dictGet ((D1 ++ opRL a c) ++ D2) ((i : Int) + 1) =
          some ((none : Option Int), some (aline a i)) := by
      intro i hi1 hi2
      rw [List.append_assoc, opRL_delete a hct]
      rw [dictGet_skip D1 _ _ (fun e he => by have := (hD1 e he).1; omega)]
      exact dictGet_range_hit a (c.i2 - c.i1) c.i1 i hi1 (by omega) _
    obtain ⟨st', hrun, p1, p2, p3⟩ :=
      pass2_delRun ((D1 ++ opRL a c) ++ D2) a ha (c.i2 - c.i1) c.i1 st
        (by omega) h1 hdg
    rw [show c.i1 + (c.i2 - c.i1) = c.i2 from by omega] at hrun p1
    exact ⟨st', hrun, p1, by omega, p3⟩
  · -- insert
    obtain ⟨hii, hlt⟩ := hok.2.2.2.1 hct
    rw [emitOp_insert a b hct, opRows_insert a b hct]
    have hfp : ∀ j, c.j1 ≤ j → j < c.j1 + (c.j2 - c.j1) →
        findPairedContent ((D1 ++ opRL a c) ++ D2) ((j : Int) + 1) = none := by
      intro j hj1 hj2
      refine fp_none _ _ (fun e he mv hm => ?_)
      rcases List.mem_append.mp he with h | h
      · rcases List.mem_append.mp h with h' | h'
        · have := (hD1 e h').2 mv hm
          omega
        · rw [opRL_insert a hct] at h'
          cases h'
      · have := (hD2 e h).2 mv hm
        omega
    obtain ⟨st', hrun, p1, p2, p3⟩ :=
      pass2_insRun ((D1 ++ opRL a c) ++ D2) b hb (c.j2 - c.j1) c.j1 st
        (by omega) h2 hfp
    rw [show c.j1 + (c.j2 - c.j1) = c.j2 from by omega] at hrun p2
    exact ⟨st', hrun, by omega, p2, p3⟩

theorem opsRL_insNil (a : List (List Char)) :
    ∀ (ops : List Op), (∀ c ∈ ops, c.tag = Tag.insert) →
      ((ops.map (opRL a)).flatten) = [] := by
  intro ops
  induction ops with
  | nil => intro _; rfl
  | cons c rest ih =>
    intro htag
    rw [List.map_cons,
      show (opRL a c :: rest.map (opRL a)).flatten =
        opRL a c ++ (rest.map (opRL a)).flatten from rfl,
      opRL_insert a (htag c (List.mem_cons_self c rest)),
      ih (fun x hx => htag x (List.mem_cons_of_mem c hx))]
    rfl

/-- Looking up any line of an all-delete run of opcodes. -/
theorem dictGet_delOps (a b : List (List Char)) :
    ∀ (ops : List Op) (i0 iend j0 jend : Nat) (tail : List (Int × RLVal)),
      OpChain i0 iend j0 jend ops → (∀ c ∈ ops, OpOk a b c) →
      (∀ c ∈ ops, c.tag = Tag.delete) →
      ∀ i, i0 ≤ i → i < iend →
        dictGet (((ops.map (opRL a)).flatten) ++ tail) ((i : Int) + 1) =
          some ((none : Option Int), some (aline a i)) := by
  intro ops
  induction ops with
  | nil =>
    intro i0 iend j0 jend tail hch _ _ i hi1 hi2
    obtain ⟨e1, _⟩ := hch
    exact absurd hi2 (by omega)
  | cons c rest ih =>
    intro i0 iend j0 jend tail hch hok htag i hi1 hi2
    obtain ⟨e1, e2, hch'⟩ := hch
    subst e1
    have htc := htag c (List.mem_cons_self c rest)
    have hokc := hok c (List.mem_cons_self c rest)
    rw [List.map_cons,
      show (opRL a c :: rest.map (opRL a)).flatten =
        opRL a c ++ (rest.map (opRL a)).flatten from rfl,
      List.append_assoc]
    by_cases hic : i < c.i2
    · rw [opRL_delete a htc]
      exact dictGet_range_hit a (c.i2 - c.i1) c.i1 i hi1 (by have := hokc.1; omega) _
    · rw [dictGet_skip _ _ _ (fun e he => by
        have := (opRL_bounds a b hokc e he).1.2
        omega)]
      exact ih c.i2 iend c.j2 jend tail hch'
        (fun x hx => hok x (List.mem_cons_of_mem c hx))
        (fun x hx => htag x (List.mem_cons_of_mem c hx)) i (by omega) hi2

/-- Pass 2 over the body of a general opcode run. -/
theorem pass2_ops (a b : List (List Char)) (ha : NoSkipA a) (hb : NoSkipB b) :
    ∀ (ops : List Op) (i0 iend j0 jend : Nat) (st : Pass2State)
      (D1 D2 : List (Int × RLVal)),
      OpChain i0 iend j0 jend ops → (∀ c ∈ ops, OpOk a b c) →
      iend ≤ a.length → jend ≤ b.length →
      KeysModsLe D1 (i0 : Int) (j0 : Int) →
      KeysModsGt D2 (iend : Int) (jend : Int) →
      st.lno = (i0 : Int) → st.lnm = (j0 : Int) →
      ∃ st', ((ops.map (emitOp a b)).flatten).foldlM
          (pass2Step ((D1 ++ ((ops.map (opRL a)).flatten)) ++ D2)) st = .ok st' ∧
        st'.lno = (iend : Int) ∧ st'.lnm = (jend : Int) ∧
        st'.rows = st.rows ++ ((ops.map (opRows a b)).flatten) := by
  intro ops
  induction ops with
  | nil =>
    intro i0 iend j0 jend st D1 D2 hch _ _ _ _ _ h1 h2
    obtain ⟨e1, e2⟩ := hch
    subst e1
    subst e2
    exact ⟨st, rfl, h1, h2, by simp⟩
  | cons c rest ih =>
    intro i0 iend j0 jend st D1 D2 hch hok hia hjb hD1 hD2 h1 h2
    obtain ⟨e1, e2, hch'⟩ := hch
    subst e1
    subst e2
    have hchfull : OpChain c.i1 iend c.j1 jend (c :: rest) := ⟨rfl, rfl, hch'⟩
    have hbnd := opChain_bound (a := a) (b := b) hchfull hok c
      (List.mem_cons_self c rest)
    have hokc := hok c (List.mem_cons_self c rest)
    have hmono := opChain_startLe hch' (fun x hx => hok x (List.mem_cons_of_mem c hx))
    simp only [List.map_cons]
    rw [show (emitOp a b c :: rest.map (emitOp a b)).flatten =
        emitOp a b c ++ (rest.map (emitOp a b)).flatten from rfl]
    rw [show (opRL a c :: rest.map (opRL a)).flatten =
        opRL a c ++ (rest.map (opRL a)).flatten from rfl]
    rw [show (opRows a b c :: rest.map (opRows a b)).flatten =
        opRows a b c ++ (rest.map (opRows a b)).flatten from rfl]
    rw [show D1 ++ (opRL a c ++ (rest.map (opRL a)).flatten) =
      (D1 ++ opRL a c) ++ (rest.map (opRL a)).flatten from
      (List.append_assoc D1 (opRL a c) _).symm]
    rw [List.append_assoc (D1 ++ opRL a c) _ D2]
    have hD2' : KeysModsGt ((rest.map (opRL a)).flatten ++ D2)
        (c.i2 : Int) (c.j2 : Int) := by
      refine keysModsGt_append (fun e he => ?_) ?_
      · have := opsRL_bounds a b hch'
          (fun x hx => hok x (List.mem_cons_of_mem c hx)) e he
        exact ⟨this.1.1, fun m hm => (this.2 m hm).1⟩
      · exact keysModsGt_mono hD2 (by have := hokc.1; omega)
          (by have := hokc.2.1; omega)
    obtain ⟨st1, hrun1, p1, p2, p3⟩ :=
      pass2_op a b ha hb c hokc (by omega) (by omega) st D1
        ((rest.map (opRL a)).flatten ++ D2) hD1 hD2' h1 h2
    have hD1' : KeysModsLe (D1 ++ opRL a c) (c.i2 : Int) (c.j2 : Int) := by
      refine keysModsLe_append
        (keysModsLe_mono hD1 (by have := hokc.1; omega)
          (by have := hokc.2.1; omega))
        (fun e he => ?_)
      have := opRL_bounds a b hokc e he
      exact ⟨this.1.2, fun m hm => by have := this.2 m hm; omega⟩
    obtain ⟨st', hrun2, q1, q2, q3⟩ := ih c.i2 iend c.j2 jend st1
      (D1 ++ opRL a c) D2 hch'
      (fun x hx => hok x (List.mem_cons_of_mem c hx)) hia hjb hD1' hD2 p1 p2
    rw [List.append_assoc (D1 ++ opRL a c) _ D2] at hrun2
    refine ⟨st', ?_, q1, q2, ?_⟩
    · exact foldlM_ok_append
        (pass2Step ((D1 ++ opRL a c) ++ ((rest.map (opRL a)).flatten ++ D2)))
        _ _ st st1 hrun1 ▸ hrun2
    · rw [q3, p3, List.append_assoc]

/-- Pass 2 over an all-insert opcode run: every insert line is a fresh row. -/
theorem pass2_ops_insOnly (rl : List (Int × RLVal)) (a b : List (List Char))
    (hb : NoSkipB b) :
    ∀ (ops : List Op) (i0 iend j0 jend : Nat) (st : Pass2State),
      OpChain i0 iend j0 jend ops → (∀ c ∈ ops, OpOk a b c) →
      (∀ c ∈ ops, c.tag = Tag.insert) → jend ≤ b.length →
      (∀ j, j0 ≤ j → j < jend → findPairedContent rl ((j : Int) + 1) = none) →
      st.lnm = (j0 : Int) →
      ∃ st', ((ops.map (emitOp a b)).flatten).foldlM (pass2Step rl) st = .ok st' ∧
        st'.lno = st.lno ∧ st'.lnm = (jend : Int) ∧
        st'.rows = st.rows ++ ((ops.map (opRows a b)).flatten) := by
  intro ops
  induction ops with
  | nil =>
    intro i0 iend j0 jend st hch _ _ _ _ h2
    obtain ⟨_, e2⟩ := hch
    subst e2
    exact ⟨st, rfl, rfl, h2, by simp⟩
  | cons c rest ih =>
    intro i0 iend j0 jend st hch hok htag hjb hfp h2
    obtain ⟨e1, e2, hch'⟩ := hch
    subst e2
    have htc := htag c (List.mem_cons_self c rest)
    have hokc := hok c (List.mem_cons_self c rest)
    have hmono := opChain_startLe hch' (fun x hx => hok x (List.mem_cons_of_mem c hx))
    rw [List.map_cons,
      show (emitOp a b c :: rest.map (emitOp a b)).flatten =
        emitOp a b c ++ (rest.map (emitOp a b)).flatten from rfl]
    rw [List.map_cons,
      show (opRows a b c :: rest.map (opRows a b)).flatten =
        opRows a b c ++ (rest.map (opRows a b)).flatten from rfl]
    rw [emitOp_insert a b htc, opRows_insert a b htc]
    obtain ⟨st1, hrun1, p1, p2, p3⟩ :=
      pass2_insRun rl b hb (c.j2 - c.j1) c.j1 st
        (by have := hokc.2.1; omega) h2
        (fun j hj1 hj2 => hfp j (by omega) (by have := hokc.2.1; omega))
    rw [show c.j1 + (c.j2 - c.j1) = c.j2 from by have := hokc.2.1; omega]
      at hrun1 p2
    obtain ⟨st', hrun2, q1, q2, q3⟩ := ih c.i2 iend c.j2 jend st1 hch'
      (fun x hx => hok x (List.mem_cons_of_mem c hx))
      (fun x hx => htag x (List.mem_cons_of_mem c hx)) hjb
      (fun j hj1 hj2 => hfp j (by have := hokc.2.1; omega) hj2) p2
    refine ⟨st', ?_, by rw [q1, p1], q2, ?_⟩
    · exact foldlM_ok_append (pass2Step rl) _ _ st st1 hrun1 ▸ hrun2
    · rw [q3, p3, List.append_assoc]

/-- Pass 2 over an all-delete opcode run: every delete line is a removed
row. -/
theorem pass2_ops_delOnly (rl : List (Int × RLVal)) (a b : List (List Char))
    (ha : NoSkipA a) :
    ∀ (ops : List Op) (i0 iend j0 jend : Nat) (st : Pass2State),
      OpChain i0 iend j0 jend ops → (∀ c ∈ ops, OpOk a b c) →
      (∀ c ∈ ops, c.tag = Tag.delete) → iend ≤ a.length →
      (∀ i, i0 ≤ i → i < iend →
        dictGet rl ((i : Int) + 1) = some ((none : Option Int), some (aline a i))) →
      st.lno = (i0 : Int) →
      ∃ st', ((ops.map (emitOp a b)).flatten).foldlM (pass2Step rl) st = .ok st' ∧
        st'.lno = (iend : Int) ∧ st'.lnm = st.lnm ∧
        st'.rows = st.rows ++ ((ops.map (opRows a b)).flatten) := by
  intro ops
  induction ops with
  | nil =>
    intro i0 iend j0 jend st hch _ _ _ _ h1
    obtain ⟨e1, _⟩ := hch
    subst e1
    exact ⟨st, rfl, h1, rfl, by simp⟩
  | cons c rest ih =>
    intro i0 iend j0 jend st hch hok htag hia hdg h1
    obtain ⟨e1, e2, hch'⟩ := hch
    subst e1
    have htc := htag c (List.mem_cons_self c rest)
    have hokc := hok c (List.mem_cons_self c rest)
    have hmono := opChain_startLe hch' (fun x hx => hok x (List.mem_cons_of_mem c hx))
    rw [List.map_cons,
      show (emitOp a b c :: rest.map (emitOp a b)).flatten =
        emitOp a b c ++ (rest.map (emitOp a b)).flatten from rfl]
    rw [List.map_cons,
      show (opRows a b c :: rest.map (opRows a b)).flatten =
        opRows a b c ++ (rest.map (opRows a b)).flatten from rfl]
    rw [emitOp_delete a b htc, opRows_delete a b htc]
    obtain ⟨st1, hrun1, p1, p2, p3⟩ :=
      pass2_delRun rl a ha (c.i2 - c.i1) c.i1 st
        (by have := hokc.1; omega) h1
        (fun i hi1 hi2 => hdg i (by omega) (by have := hokc.1; omega))
    rw [show c.i1 + (c.i2 - c.i1) = c.i2 from by have := hokc.1; omega]
      at hrun1 p1
    obtain ⟨st', hrun2, q1, q2, q3⟩ := ih c.i2 iend c.j2 jend st1 hch'
      (fun x hx => hok x (List.mem_cons_of_mem c hx))
      (fun x hx => htag x (List.mem_cons_of_mem c hx)) hia
      (fun i hi1 hi2 => hdg i (by have := hokc.1; omega) hi2) p1
    refine ⟨st', ?_, q1, by rw [q2, p2], ?_⟩
    · exact foldlM_ok_append (pass2Step rl) _ _ st st1 hrun1 ▸ hrun2
    · rw [q3, p3, List.append_assoc]

/-- Pass 2 over one full hunk: header plus body. -/
theorem pass2_group (a b : List (List Char)) (ha : NoSkipA a) (hb : NoSkipB b)
    (g : List Op) (i0 iend j0 jend : Nat)
    (hg : GroupOk a b i0 iend j0 jend g)
    (st : Pass2State) (D1 D2 : List (Int × RLVal))
    (hD1 : KeysModsLe D1 (i0 : Int) (j0 : Int))
    (hD2 : KeysModsGt D2 (iend : Int) (jend : Int)) :
    ∃ st', (emitGroup a b g).foldlM (pass2Step ((D1 ++ groupRL a g) ++ D2)) st =
        .ok st' ∧
      st'.rows = st.rows ++ groupRows a b g := by
  obtain ⟨hch, hne, hok, hdf, hia, hjb⟩ := hg
  obtain ⟨cf, cl, hh, hl, f1, f2, f3, f4⟩ := opChain_headLast g i0 iend j0 jend hch hne
  obtain ⟨hpre1, hpre2, hpre3⟩ := hunkHeader_prefixes hh hl
  have hmatch := matchHunkHeader_hunkHeader hh hl
  rw [f1, f2, f3, f4] at hmatch
  have hstep := pass2Step_at_header ((D1 ++ groupRL a g) ++ D2) st (hunkHeader g)
    (fmtStart i0 iend) (fmtStart j0 jend) hpre1 hpre2 hpre3 hmatch
  rw [show emitGroup a b g = hunkHeader g :: (g.map (emitOp a b)).flatten from rfl]
  rw [foldlM_cons, exceptBindOk _ _ _ hstep]
  by_cases hie : i0 = iend
  · -- all-insert hunk
    subst hie
    have hins := allInsert_of_iEmpty hch hok
    have hje : j0 ≠ jend := by
      intro hje
      subst hje
      have hdel := allDelete_of_jEmpty hch hok
      cases g with
      | nil => exact hne rfl
      | cons c r =>
        have hx1 := (hins c (List.mem_cons_self c r)).1
        have hx2 := (hdel c (List.mem_cons_self c r)).1
        rw [hx1] at hx2
        cases hx2
    have hnil : groupRL a g = [] := opsRL_insNil a g (fun c hc => (hins c hc).1)
    have hfp : ∀ j, j0 ≤ j → j < jend →
        findPairedContent ((D1 ++ groupRL a g) ++ D2) ((j : Int) + 1) = none := by
      intro j hj1 hj2
      refine fp_none _ _ (fun e he mv hm => ?_)
      rcases List.mem_append.mp he with h | h
      · rcases List.mem_append.mp h with h' | h'
        · have := (hD1 e h').2 mv hm
          omega
        · rw [hnil] at h'
          cases h'
      · have := (hD2 e h).2 mv hm
        omega
    obtain ⟨st', hrun, q1, q2, q3⟩ :=
      pass2_ops_insOnly ((D1 ++ groupRL a g) ++ D2) a b hb g i0 i0 j0 jend
        { st with lno := ((fmtStart i0 i0 : Nat) : Int) - 1,
                  lnm := ((fmtStart j0 jend : Nat) : Int) - 1 }
        hch hok (fun c hc => (hins c hc).1) hjb hfp
        (by
          show ((fmtStart j0 jend : Nat) : Int) - 1 = (j0 : Int)
          rw [fmtStart, if_neg (show ¬(jend - j0 = 0) by
            have := opChain_startLe hch hok; omega)]
          omega)
    exact ⟨st', hrun, q3⟩
  · by_cases hje : j0 = jend
    · -- all-delete hunk
      subst hje
      have hdel := allDelete_of_jEmpty hch hok
      have hdg : ∀ i, i0 ≤ i → i < iend →
          dictGet ((D1 ++ groupRL a g) ++ D2) ((i : Int) + 1) =
            some ((none : Option Int), some (aline a i)) := by
        intro i hi1 hi2
        rw [List.append_assoc]
        rw [dictGet_skip D1 _ _ (fun e he => by have := (hD1 e he).1; omega)]
        exact dictGet_delOps a b g i0 iend j0 j0 D2 hch hok
          (fun c hc => (hdel c hc).1) i hi1 hi2
      obtain ⟨st', hrun, q1, q2, q3⟩ :=
        pass2_ops_delOnly ((D1 ++ groupRL a g) ++ D2) a b ha g i0 iend j0 j0
          { st with lno := ((fmtStart i0 iend : Nat) : Int) - 1,
                    lnm := ((fmtStart j0 j0 : Nat) : Int) - 1 }
          hch hok (fun c hc => (hdel c hc).1) hia hdg
          (by
            show ((fmtStart i0 iend : Nat) : Int) - 1 = (i0 : Int)
            rw [fmtStart, if_neg (show ¬(iend - i0 = 0) by
              have := opChain_startLe hch hok; omega)]
            omega)
      exact ⟨st', hrun, q3⟩
    · -- both sides advance
      obtain ⟨st', hrun, q1, q2, q3⟩ :=
        pass2_ops a b ha hb g i0 iend j0 jend
          { st with lno := ((fmtStart i0 iend : Nat) : Int) - 1,
                    lnm := ((fmtStart j0 jend : Nat) : Int) - 1 }
          D1 D2 hch hok hia hjb hD1 hD2
          (by
            show ((fmtStart i0 iend : Nat) : Int) - 1 = (i0 : Int)
            rw [fmtStart, if_neg (show ¬(iend - i0 = 0) by
              have := opChain_startLe hch hok; omega)]
            omega)
          (by
            show ((fmtStart j0 jend : Nat) : Int) - 1 = (j0 : Int)
            rw [fmtStart, if_neg (show ¬(jend - j0 = 0) by
              have := opChain_startLe hch hok; omega)]
            omega)
      exact ⟨st', hrun, q3⟩

/-- Pass 2 over the whole grouped-opcode stream. -/
theorem pass2_groups (a b : List (List Char)) (ha : NoSkipA a) (hb : NoSkipB b) :
    ∀ (gs : List (List Op)) (first : Bool) (ip jp : Nat) (st : Pass2State)
      (D1 : List (Int × RLVal)),
      GroupsChain a b first ip jp gs →
      KeysModsLe D1 (ip : Int) (jp : Int) →
      ∃ st', ((gs.map (emitGroup a b)).flatten).foldlM
          (pass2Step (D1 ++ groupsRL a gs)) st = .ok st' ∧
        st'.rows = st.rows ++ groupsRows a b gs := by
  intro gs
  induction gs with
  | nil =>
    intro first ip jp st D1 _ _
    exact ⟨st, rfl, by rw [show groupsRows a b [] = [] from rfl]; simp⟩
  | cons g rest ih =>
    intro first ip jp st D1 hch hD1
    obtain ⟨i0, iend, j0, jend, hip, hjp, hgok, hhd, hrest⟩ := hch
    have hmono := opChain_startLe hgok.1 hgok.2.2.1
    rw [show groupsRL a (g :: rest) = groupRL a g ++ groupsRL a rest from rfl]
    rw [show D1 ++ (groupRL a g ++ groupsRL a rest) =
      (D1 ++ groupRL a g) ++ groupsRL a rest from
      (List.append_assoc D1 (groupRL a g) _).symm]
    rw [List.map_cons,
      show (emitGroup a b g :: rest.map (emitGroup a b)).flatten =
        emitGroup a b g ++ (rest.map (emitGroup a b)).flatten from rfl]
    have hD2 : KeysModsGt (groupsRL a rest) (iend : Int) (jend : Int) :=
      groupsRL_gt a b rest false iend jend hrest
    obtain ⟨st1, hrun1, p3⟩ := pass2_group a b ha hb g i0 iend j0 jend hgok st
      D1 (groupsRL a rest) (keysModsLe_mono hD1 (by omega) (by omega)) hD2
    have hD1' : KeysModsLe (D1 ++ groupRL a g) (iend : Int) (jend : Int) := by
      refine keysModsLe_append
        (keysModsLe_mono hD1 (by omega) (by omega)) (fun e he => ?_)
      have := opsRL_bounds a b hgok.1 hgok.2.2.1 e he
      exact ⟨this.1.2, fun m hm => (this.2 m hm).2⟩
    obtain ⟨st', hrun2, q3⟩ := ih false iend jend st1 (D1 ++ groupRL a g)
      hrest hD1'
    refine ⟨st', ?_, ?_⟩
    · exact foldlM_ok_append (pass2Step ((D1 ++ groupRL a g) ++ groupsRL a rest))
        _ _ st st1 hrun1 ▸ hrun2
    · rw [q3, p3,
        show groupsRows a b (g :: rest) =
          groupRows a b g ++ groupsRows a b rest from rfl,
        List.append_assoc]

theorem pass1Step_skipHeader1 (st : Pass1State) :
    pass1Step st ("--- Original").data = .ok st := rfl

theorem pass1Step_skipHeader2 (st : Pass1State) :
    pass1Step st ("+++ Modified").data = .ok st := rfl

theorem pass2Step_skipHeader1 (rl : List (Int × RLVal)) (st : Pass2State) :
    pass2Step rl st ("--- Original").data = .ok st := rfl

theorem pass2Step_skipHeader2 (rl : List (Int × RLVal)) (st : Pass2State) :
    pass2Step rl st ("+++ Modified").data = .ok st := rfl

/-- `create_diff_view` on a nonempty grouped diff: the emitted rows are
exactly the per-opcode rows, opcode by opcode, hunk by hunk. -/
theorem processDiff_groups (a b : List (List Char)) (ha : NoSkipA a)
    (hb : NoSkipB b) {g0 : List Op} {rest : List (List Op)}
    (hgs : getGroupedOpcodes a b 3 = g0 :: rest) :
    processDiff (unifiedDiffLines a b) =
      .ok (groupsRows a b (g0 :: rest)) := by
  have hudl : unifiedDiffLines a b = ("--- Original").data ::
      ("+++ Modified").data ::
      (((g0 :: rest).map (emitGroup a b)).flatten) := by
    unfold unifiedDiffLines
    rw [hgs]
  have hchain : GroupsChain a b true 0 0 (g0 :: rest) := by
    have := getGroupedOpcodes_groupsChain a b 3 (by omega)
    rw [hgs] at this
    exact this
  obtain ⟨p1, hrun1, hrl⟩ := pass1_groups a b ha hb (g0 :: rest) true 0 0
    ⟨0, 0, [], [], none⟩ hchain
    (fun e he => absurd he (List.not_mem_nil e)) (fun _ => rfl)
  have hrl' : p1.removedLines = groupsRL a (g0 :: rest) := by
    rw [hrl]
    exact List.nil_append _
  obtain ⟨p2, hrun2, hrows⟩ := pass2_groups a b ha hb (g0 :: rest) true 0 0
    ⟨0, 0, []⟩ [] hchain (fun e he => absurd he (List.not_mem_nil e))
  rw [List.nil_append] at hrun2
  have hrows' : p2.rows = groupsRows a b (g0 :: rest) := by
    rw [hrows]
    exact List.nil_append _
  rw [hudl, processDiff, if_neg (show ¬(("--- Original").data ::
    ("+++ Modified").data ::
    (((g0 :: rest).map (emitGroup a b)).flatten) = []) from by
    exact List.cons_ne_nil _ _)]
  have hfull1 : (("--- Original").data :: ("+++ Modified").data ::
      (((g0 :: rest).map (emitGroup a b)).flatten)).foldlM pass1Step
      ⟨0, 0, [], [], none⟩ = .ok p1 := by
    rw [foldlM_cons, exceptBindOk _ _ _ (pass1Step_skipHeader1 _),
      foldlM_cons, exceptBindOk _ _ _ (pass1Step_skipHeader2 _)]
    exact hrun1
  rw [exceptBindOk _ _ _ hfull1, hrl']
  have hfull2 : (("--- Original").data :: ("+++ Modified").data ::
      (((g0 :: rest).map (emitGroup a b)).flatten)).foldlM
      (pass2Step (groupsRL a (g0 :: rest))) ⟨0, 0, []⟩ = .ok p2 := by
    rw [foldlM_cons, exceptBindOk _ _ _ (pass2Step_skipHeader1 _ _),
      foldlM_cons, exceptBindOk _ _ _ (pass2Step_skipHeader2 _ _)]
    exact hrun2
  rw [exceptBindOk _ _ _ hfull2, hrows']

/-! ### Replaying the rows reconstructs the hunk slices -/

/-- The slice of the original file a hunk covers. -/
def groupSliceOld (a : List (List Char)) (g : List Op) : List (List Char) :=
  match g.head?, g.getLast? with
  | some cf, some cl => pySlice a cf.i1 cl.i2
  | _, _ => []

/-- The slice of the modified file a hunk covers. -/
def groupSliceNew (b : List (List Char)) (g : List Op) : List (List Char) :=
  match g.head?, g.getLast? with
  | some cf, some cl => pySlice b cf.j1 cl.j2
  | _, _ => []

theorem replayOld_append (r1 r2 : List Row) :
    replayOld (r1 ++ r2) = replayOld r1 ++ replayOld r2 := by
  rw [replayOld, replayOld, replayOld, List.map_append, List.flatten_append]

theorem replayNew_append (r1 r2 : List Row) :
    replayNew (r1 ++ r2) = replayNew r1 ++ replayNew r2 := by
  rw [replayNew, replayNew, replayNew, List.map_append, List.flatten_append]

theorem flatten_map_singleton {γ δ : Type} (g : γ → δ) :
    ∀ (l : List γ), ((l.map (fun x => [g x])).flatten) = l.map g := by
  intro l
  induction l with
  | nil => rfl
  | cons x xs ih =>
    rw [List.map_cons, List.map_cons,
      show (([g x]) :: xs.map (fun y => [g y])).flatten =
        [g x] ++ (xs.map (fun y => [g y])).flatten from rfl, ih]
    rfl

theorem flatten_map_nil {γ δ : Type} :
    ∀ (l : List γ), ((l.map (fun _ => ([] : List δ))).flatten) = [] := by
  intro l
  induction l with
  | nil => rfl
  | cons x xs ih =>
    rw [List.map_cons,
      show (([] : List δ) :: xs.map (fun _ => ([] : List δ))).flatten =
        [] ++ (xs.map (fun _ => ([] : List δ))).flatten from rfl, ih]
    rfl

theorem pySlice_eq_map_range (l : List (List Char)) :
    ∀ (cnt i : Nat), i + cnt ≤ l.length →
      pySlice l i (i + cnt) = (List.range' i cnt).map (fun k => aline l k) := by
  intro cnt
  induction cnt with
  | zero =>
    intro i _
    simp only [Nat.add_zero]
    rw [pySlice_self]
    rfl
  | succ cnt ih =>
    intro i hlen
    rw [pySlice_cons (show i < i + (cnt + 1) by omega) (get?_eq_aline (by omega))]
    rw [List.range'_succ, List.map_cons]
    have := ih (i + 1) (by omega)
    rw [show i + 1 + cnt = i + (cnt + 1) from by omega] at this
    rw [this]

/-- The original-side replay of one opcode's rows is the opcode's original
slice. -/
theorem opRows_replayOld (a b : List (List Char)) {c : Op} (hok : OpOk a b c)
    (hia : c.i2 ≤ a.length) (hjb : c.j2 ≤ b.length) :
    replayOld (opRows a b c) = pySlice a c.i1 c.i2 := by
  have hle1 := hok.1
  have hsl := pySlice_eq_map_range a (c.i2 - c.i1) c.i1 (by omega)
  rw [show c.i1 + (c.i2 - c.i1) = c.i2 from by omega] at hsl
  cases hct : c.tag
  · rw [opRows_equal a b hct, hsl]
    rw [replayOld, List.map_map]
    exact flatten_map_singleton (fun i : Nat => aline a i) _
  · -- replace
    obtain ⟨hlt1, hlt2⟩ := hok.2.2.2.2.2 hct
    rw [opRows_replace a b hct]
    rw [show (Row.paired ('+' :: intToChars ((c.j1 : Int) + 1))
        (highlightWordDiff (aline a (c.i2 - 1)) (aline b c.j1)) ::
        (List.range' (c.j1 + 1) (c.j2 - c.j1 - 1)).map
          (fun j : Nat => Row.added ('+' :: intToChars ((j : Int) + 1)) (aline b j))) =
      [Row.paired ('+' :: intToChars ((c.j1 : Int) + 1))
        (highlightWordDiff (aline a (c.i2 - 1)) (aline b c.j1))] ++
      (List.range' (c.j1 + 1) (c.j2 - c.j1 - 1)).map
        (fun j : Nat => Row.added ('+' :: intToChars ((j : Int) + 1)) (aline b j))
      from rfl]
    rw [replayOld_append, replayOld_append]
    have h1 : replayOld ((List.range' c.i1 (c.i2 - c.i1 - 1)).map
        (fun i : Nat => Row.removed ('-' :: intToChars ((i : Int) + 1)) (aline a i))) =
        (List.range' c.i1 (c.i2 - c.i1 - 1)).map (fun i : Nat => aline a i) := by
      rw [replayOld, List.map_map]
      exact flatten_map_singleton (fun i : Nat => aline a i) _
    have h2 : replayOld ([Row.paired ('+' :: intToChars ((c.j1 : Int) + 1))
        (highlightWordDiff (aline a (c.i2 - 1)) (aline b c.j1))]) =
        [aline a (c.i2 - 1)] := by
      show [oldSide (highlightWordDiff (aline a (c.i2 - 1)) (aline b c.j1))] ++ [] = _
      rw [(highlightWordDiff_sides _ _).1]
      rfl
    have h3 : replayOld ((List.range' (c.j1 + 1) (c.j2 - c.j1 - 1)).map
        (fun j : Nat => Row.added ('+' :: intToChars ((j : Int) + 1)) (aline b j))) =
        [] := by
      rw [replayOld, List.map_map]
      exact flatten_map_nil _
    rw [h1, h2, h3, List.append_nil]
    have hpre := pySlice_eq_map_range a (c.i2 - c.i1 - 1) c.i1 (by omega)
    have happ := pySlice_append a
      (show c.i1 ≤ c.i1 + (c.i2 - c.i1 - 1) by omega)
      (show c.i1 + (c.i2 - c.i1 - 1) ≤ c.i2 by omega)
    rw [pySlice_single (show c.i2 = (c.i1 + (c.i2 - c.i1 - 1)) + 1 by omega)
      (get?_eq_aline (show c.i1 + (c.i2 - c.i1 - 1) < a.length by omega))] at happ
    rw [← happ, hpre, show c.i1 + (c.i2 - c.i1 - 1) = c.i2 - 1 from by omega]
  · -- delete
    rw [opRows_delete a b hct, hsl]
    rw [replayOld, List.map_map]
    exact flatten_map_singleton (fun i : Nat => aline a i) _
  · -- insert
    obtain ⟨hii, _⟩ := hok.2.2.2.1 hct
    rw [opRows_insert a b hct, hii, pySlice_self]
    rw [replayOld, List.map_map]
    exact flatten_map_nil _

/-- The modified-side replay of one opcode's rows is the opcode's modified
slice. -/
theorem opRows_replayNew (a b : List (List Char)) {c : Op} (hok : OpOk a b c)
    (hia : c.i2 ≤ a.length) (hjb : c.j2 ≤ b.length) :
    replayNew (opRows a b c) = pySlice b c.j1 c.j2 := by
  have hle1 := hok.1
  have hle2 := hok.2.1
  cases hct : c.tag
  · -- equal rows carry the original lines, but the slices agree
    obtain ⟨hslices, hlt, hlen⟩ := hok.2.2.1 hct
    have hsl := pySlice_eq_map_range a (c.i2 - c.i1) c.i1 (by omega)
    rw [show c.i1 + (c.i2 - c.i1) = c.i2 from by omega] at hsl
    rw [opRows_equal a b hct, ← hslices, hsl]
    rw [replayNew, List.map_map]
    exact flatten_map_singleton (fun i : Nat => aline a i) _
  · -- replace
    obtain ⟨hlt1, hlt2⟩ := hok.2.2.2.2.2 hct
    rw [opRows_replace a b hct]
    rw [show (Row.paired ('+' :: intToChars ((c.j1 : Int) + 1))
        (highlightWordDiff (aline a (c.i2 - 1)) (aline b c.j1)) ::
        (List.range' (c.j1 + 1) (c.j2 - c.j1 - 1)).map
          (fun j : Nat => Row.added ('+' :: intToChars ((j : Int) + 1)) (aline b j))) =
      [Row.paired ('+' :: intToChars ((c.j1 : Int) + 1))
        (highlightWordDiff (aline a (c.i2 - 1)) (aline b c.j1))] ++
      (List.range' (c.j1 + 1) (c.j2 - c.j1 - 1)).map
        (fun j : Nat => Row.added ('+' :: intToChars ((j : Int) + 1)) (aline b j))
      from rfl]
    rw [replayNew_append, replayNew_append]
    have h1 : replayNew ((List.range' c.i1 (c.i2 - c.i1 - 1)).map
        (fun i : Nat => Row.removed ('-' :: intToChars ((i : Int) + 1)) (aline a i))) =
        [] := by
      rw [replayNew, List.map_map]
      exact flatten_map_nil _
    have h2 : replayNew ([Row.paired ('+' :: intToChars ((c.j1 : Int) + 1))
        (highlightWordDiff (aline a (c.i2 - 1)) (aline b c.j1))]) =
        [aline b c.j1] := by
      show [newSide (highlightWordDiff (aline a (c.i2 - 1)) (aline b c.j1))] ++ [] = _
      rw [(highlightWordDiff_sides _ _).2]
      rfl
    have h3 : replayNew ((List.range' (c.j1 + 1) (c.j2 - c.j1 - 1)).map
        (fun j : Nat => Row.added ('+' :: intToChars ((j : Int) + 1)) (aline b j))) =
        (List.range' (c.j1 + 1) (c.j2 - c.j1 - 1)).map (fun j : Nat => aline b j) := by
      rw [replayNew, List.map_map]
      exact flatten_map_singleton (fun j : Nat => aline b j) _
    rw [h1, h2, h3]
    have htail := pySlice_eq_map_range b (c.j2 - c.j1 - 1) (c.j1 + 1) (by omega)
    rw [show c.j1 + 1 + (c.j2 - c.j1 - 1) = c.j2 from by omega] at htail
    rw [← htail, pySlice_cons (show c.j1 < c.j2 by omega) (get?_eq_aline (by omega))]
    rfl
  · -- delete
    obtain ⟨hjj, _⟩ := hok.2.2.2.2.1 hct
    rw [opRows_delete a b hct, hjj, pySlice_self]
    rw [replayNew, List.map_map]
    exact flatten_map_nil _
  · -- insert
    have hsl := pySlice_eq_map_range b (c.j2 - c.j1) c.j1 (by omega)
    rw [show c.j1 + (c.j2 - c.j1) = c.j2 from by omega] at hsl
    rw [opRows_insert a b hct, hsl]
    rw [replayNew, List.map_map]
    exact flatten_map_singleton (fun j : Nat => aline b j) _

theorem opsRows_replayOld (a b : List (List Char)) :
    ∀ (ops : List Op) (i0 iend j0 jend : Nat),
      OpChain i0 iend j0 jend ops → (∀ c ∈ ops, OpOk a b c) →
      iend ≤ a.length → jend ≤ b.length →
      replayOld ((ops.map (opRows a b)).flatten) = pySlice a i0 iend := by
  intro ops
  induction ops with
  | nil =>
    intro i0 iend j0 jend hch _ _ _
    obtain ⟨e1, _⟩ := hch
    subst e1
    rw [pySlice_self]
    rfl
  | cons c rest ih =>
    intro i0 iend j0 jend hch hok hia hjb
    obtain ⟨e1, e2, hch'⟩ := hch
    subst e1
    subst e2
    have hchfull : OpChain c.i1 iend c.j1 jend (c :: rest) := ⟨rfl, rfl, hch'⟩
    have hbnd := opChain_bound (a := a) (b := b) hchfull hok c
      (List.mem_cons_self c rest)
    have hokc := hok c (List.mem_cons_self c rest)
    rw [List.map_cons,
      show (opRows a b c :: rest.map (opRows a b)).flatten =
        opRows a b c ++ (rest.map (opRows a b)).flatten from rfl,
      replayOld_append,
      opRows_replayOld a b hokc (by omega) (by omega),
      ih c.i2 iend c.j2 jend hch'
        (fun x hx => hok x (List.mem_cons_of_mem c hx)) hia hjb,
      pySlice_append a (by have := hokc.1; omega) (by omega)]

theorem opsRows_replayNew (a b : List (List Char)) :
    ∀ (ops : List Op) (i0 iend j0 jend : Nat),
      OpChain i0 iend j0 jend ops → (∀ c ∈ ops, OpOk a b c) →
      iend ≤ a.length → jend ≤ b.length →
      replayNew ((ops.map (opRows a b)).flatten) = pySlice b j0 jend := by
  intro ops
  induction ops with
  | nil =>
    intro i0 iend j0 jend hch _ _ _
    obtain ⟨_, e2⟩ := hch
    subst e2
    rw [pySlice_self]
    rfl
  | cons c rest ih =>
    intro i0 iend j0 jend hch hok hia hjb
    obtain ⟨e1, e2, hch'⟩ := hch
    subst e1
    subst e2
    have hchfull : OpChain c.i1 iend c.j1 jend (c :: rest) := ⟨rfl, rfl, hch'⟩
    have hbnd := opChain_bound (a := a) (b := b) hchfull hok c
      (List.mem_cons_self c rest)
    have hokc := hok c (List.mem_cons_self c rest)
    rw [List.map_cons,
      show (opRows a b c :: rest.map (opRows a b)).flatten =
        opRows a b c ++ (rest.map (opRows a b)).flatten from rfl,
      replayNew_append,
      opRows_replayNew a b hokc (by omega) (by omega),
      ih c.i2 iend c.j2 jend hch'
        (fun x hx => hok x (List.mem_cons_of_mem c hx)) hia hjb,
      pySlice_append b (by have := hokc.2.1; omega) (by omega)]

theorem groupRows_replayOld (a b : List (List Char)) {g : List Op}
    {i0 iend j0 jend : Nat} (hg : GroupOk a b i0 iend j0 jend g) :
    replayOld (groupRows a b g) = groupSliceOld a g := by
  obtain ⟨hch, hne, hok, _, hia, hjb⟩ := hg
  obtain ⟨cf, cl, hh, hl, f1, f2, f3, f4⟩ := opChain_headLast g i0 iend j0 jend hch hne
  have hslice : groupSliceOld a g = pySlice a i0 iend := by
    rw [groupSliceOld, hh, hl]
    show pySlice a cf.i1 cl.i2 = pySlice a i0 iend
    rw [f1, f3]
  rw [hslice]
  exact opsRows_replayOld a b g i0 iend j0 jend hch hok hia hjb

theorem groupRows_replayNew (a b : List (List Char)) {g : List Op}
    {i0 iend j0 jend : Nat} (hg : GroupOk a b i0 iend j0 jend g) :
    replayNew (groupRows a b g) = groupSliceNew b g := by
  obtain ⟨hch, hne, hok, _, hia, hjb⟩ := hg
  obtain ⟨cf, cl, hh, hl, f1, f2, f3, f4⟩ := opChain_headLast g i0 iend j0 jend hch hne
  have hslice : groupSliceNew b g = pySlice b j0 jend := by
    rw [groupSliceNew, hh, hl]
    show pySlice b cf.j1 cl.j2 = pySlice b j0 jend
    rw [f2, f4]
  rw [hslice]
  exact opsRows_replayNew a b g i0 iend j0 jend hch hok hia hjb

theorem groupsRows_replayOld (a b : List (List Char)) :
    ∀ (gs : List (List Op)) (first : Bool) (ip jp : Nat),
      GroupsChain a b first ip jp gs →
      replayOld (groupsRows a b gs) = (gs.map (groupSliceOld a)).flatten := by
  intro gs
  induction gs with
  | nil => intro _ _ _ _; rfl
  | cons g rest ih =>
    intro first ip jp hch
    obtain ⟨i0, iend, j0, jend, _, _, hgok, _, hrest⟩ := hch
    rw [show groupsRows a b (g :: rest) =
      groupRows a b g ++ groupsRows a b rest from rfl, replayOld_append,
      groupRows_replayOld a b hgok, ih false iend jend hrest, List.map_cons]
    rfl

theorem groupsRows_replayNew (a b : List (List Char)) :
    ∀ (gs : List (List Op)) (first : Bool) (ip jp : Nat),
      GroupsChain a b first ip jp gs →
      replayNew (groupsRows a b gs) = (gs.map (groupSliceNew b)).flatten := by
  intro gs
  induction gs with
  | nil => intro _ _ _ _; rfl
  | cons g rest ih =>
    intro first ip jp hch
    obtain ⟨i0, iend, j0, jend, _, _, hgok, _, hrest⟩ := hch
    rw [show groupsRows a b (g :: rest) =
      groupRows a b g ++ groupsRows a b rest from rfl, replayNew_append,
      groupRows_replayNew a b hgok, ih false iend jend hrest, List.map_cons]
    rfl

/-- The row sequence `create_diff_view` produces, with its replays. -/
theorem processDiff_rows (a b : List (List Char)) (ha : NoSkipA a)
    (hb : NoSkipB b) :
    ∃ rows, processDiff (unifiedDiffLines a b) = .ok rows ∧
      replayOld rows = ((getGroupedOpcodes a b 3).map (groupSliceOld a)).flatten ∧
      replayNew rows = ((getGroupedOpcodes a b 3).map (groupSliceNew b)).flatten := by
  cases hgs : getGroupedOpcodes a b 3 with
  | nil =>
    have hudl : unifiedDiffLines a b = [] := by
      unfold unifiedDiffLines
      rw [hgs]
    rw [hudl]
    exact ⟨[Row.emptyNotice], rfl, rfl, rfl⟩
  | cons g0 rest =>
    have hchain : GroupsChain a b true 0 0 (g0 :: rest) := by
      have := getGroupedOpcodes_groupsChain a b 3 (by omega)
      rw [hgs] at this
      exact this
    refine ⟨groupsRows a b (g0 :: rest), processDiff_groups a b ha hb hgs, ?_, ?_⟩
    · exact groupsRows_replayOld a b (g0 :: rest) true 0 0 hchain
    · exact groupsRows_replayNew a b (g0 :: rest) true 0 0 hchain

/-! ### The pairing invariants of pass 1 -/

/-- `dictSet` preserves pairwise-distinct keys. -/
theorem dictSet_nodup {β : Type} (d : List (Int × β)) (k : Int) (v : β)
    (h : List.Pairwise (fun e1 e2 : Int × β => e1.1 ≠ e2.1) d) :
    List.Pairwise (fun e1 e2 : Int × β => e1.1 ≠ e2.1) (dictSet d k v) := by
  rw [dictSet]
  split
  · rw [List.pairwise_map]
    refine h.imp ?_
    intro x y hxy
    by_cases hx : x.1 = k
    · by_cases hy : y.1 = k
      · exact absurd (hx.trans hy.symm) hxy
      · rw [if_pos hx, if_neg hy]
        show k ≠ y.1
        rw [← hx]
        exact hxy
    · by_cases hy : y.1 = k
      · rw [if_neg hx, if_pos hy]
        show x.1 ≠ k
        rw [← hy]
        exact hxy
      · rw [if_neg hx, if_neg hy]
        exact hxy
  · next hfind =>
    rw [List.pairwise_append]
    refine ⟨h, List.pairwise_singleton _ _, ?_⟩
    intro e he x hx
    rw [List.mem_singleton] at hx
    subst hx
    have hnone : d.find? (fun e => decide (e.1 = k)) = none := by
      cases hf : d.find? (fun e => decide (e.1 = k)) with
      | none => rfl
      | some y =>
        rw [hf] at hfind
        exact absurd rfl hfind
    have := List.find?_eq_none.mp hnone e he
    intro hek
    apply this
    rw [hek]
    simp

/-- A `dictSet` writing an unpaired value creates no paired entry. -/
theorem dictSet_mod_none (d : List (Int × RLVal)) (k : Int)
    (v : Option (List Char)) :
    ∀ e ∈ dictSet d k ((none : Option Int), v), ∀ m, e.2.1 = some m → e ∈ d := by
  intro e he m hm
  rw [dictSet] at he
  split at he
  · obtain ⟨x, hx, hfx⟩ := List.mem_map.mp he
    by_cases hxk : x.1 = k
    · rw [if_pos hxk] at hfx
      subst hfx
      exact absurd hm (by simp)
    · rw [if_neg hxk] at hfx
      rw [← hfx]
      exact hx
  · rcases List.mem_append.mp he with h | h
    · exact h
    · rw [List.mem_singleton] at h
      subst h
      exact absurd hm (by simp)

/-- One step of pass 1 keeps the dictionary's keys pairwise distinct. -/
theorem pass1Step_nodup {st : Pass1State} {line : List Char} {st' : Pass1State}
    (h : pass1Step st line = .ok st')
    (hnd : List.Pairwise (fun e1 e2 : Int × RLVal => e1.1 ≠ e2.1) st.removedLines) :
    List.Pairwise (fun e1 e2 : Int × RLVal => e1.1 ≠ e2.1) st'.removedLines := by
  unfold pass1Step at h
  split at h
  · injection h with h
    subst h
    exact hnd
  · split at h
    · split at h
      · rename_i gs heq
        cases hv1 : pyInt gs.1 with
        | error e =>
          rw [hv1] at h
          have h2 : (Except.error e : Except String Pass1State) = .ok st' := h
          cases h2
        | ok v1 =>
          rw [exceptBindOk _ _ _ hv1] at h
          cases hv3 : pyInt gs.2 with
          | error e =>
            rw [hv3] at h
            have h2 : (Except.error e : Except String Pass1State) = .ok st' := h
            cases h2
          | ok v3 =>
            rw [exceptBindOk _ _ _ hv3] at h
            injection h with h
            subst h
            exact hnd
      · injection h with h
        subst h
        exact hnd
    · split at h
      · split at h
        · injection h with h
          subst h
          exact dictSet_nodup _ _ _ hnd
        · injection h with h
          subst h
          exact hnd
      · split at h
        · injection h with h
          subst h
          exact dictSet_nodup _ _ _ hnd
        · injection h with h
          subst h
          exact hnd

/-- Pass 1 keeps the dictionary's keys pairwise distinct over any line
stream. -/
theorem pass1_foldlM_nodup :
    ∀ (diff : List (List Char)) (st st' : Pass1State),
      List.Pairwise (fun e1 e2 : Int × RLVal => e1.1 ≠ e2.1) st.removedLines →
      diff.foldlM pass1Step st = .ok st' →
      List.Pairwise (fun e1 e2 : Int × RLVal => e1.1 ≠ e2.1) st'.removedLines := by
  intro diff
  induction diff with
  | nil =>
    intro st st' hnd h
    rw [foldlM_nil] at h
    injection h with h
    subst h
    exact hnd
  | cons l rest ih =>
    intro st st' hnd h
    rw [foldlM_cons] at h
    cases hstep : pass1Step st l with
    | error e =>
      rw [hstep] at h
      have h2 : (Except.error e : Except String Pass1State) = .ok st' := h
      cases h2
    | ok st1 =>
      rw [exceptBindOk _ _ _ hstep] at h
      exact ih st1 st' (pass1Step_nodup hstep hnd) h

/-- A step of pass 1 creates a paired entry only on a `+` line with a
pending removed line: otherwise every paired entry was already present. -/
theorem pass1Step_pairOnly {st : Pass1State} {line : List Char}
    {st' : Pass1State} (h : pass1Step st line = .ok st')
    (hnp : ("+").data.isPrefixOf line = false ∨ st.lastRemoved = none) :
    ∀ e ∈ st'.removedLines, ∀ m, e.2.1 = some m → e ∈ st.removedLines := by
  unfold pass1Step at h
  split at h
  · injection h with h
    subst h
    exact fun e he _ _ => he
  · split at h
    · split at h
      · rename_i gs heq
        cases hv1 : pyInt gs.1 with
        | error e =>
          rw [hv1] at h
          have h2 : (Except.error e : Except String Pass1State) = .ok st' := h
          cases h2
        | ok v1 =>
          rw [exceptBindOk _ _ _ hv1] at h
          cases hv3 : pyInt gs.2 with
          | error e =>
            rw [hv3] at h
            have h2 : (Except.error e : Except String Pass1State) = .ok st' := h
            cases h2
          | ok v3 =>
            rw [exceptBindOk _ _ _ hv3] at h
            injection h with h
            subst h
            exact fun e he _ _ => he
      · injection h with h
        subst h
        exact fun e he _ _ => he
    · split at h
      · next hplus =>
        split at h
        · rename_i lr hlr
          rcases hnp with hnp | hnp
          · rw [hnp] at hplus
            cases hplus
          · rw [hnp] at hlr
            cases hlr
        · injection h with h
          subst h
          exact fun e he _ _ => he
      · split at h
        · injection h with h
          subst h
          exact dictSet_mod_none _ _ _
        · injection h with h
          subst h
          exact fun e he _ _ => he

/-- Skipped `---`/`+++` lines and hunk headers leave the pending removed
line exactly as it was. -/
theorem pass1Step_keepPending {st : Pass1State} {line : List Char}
    {st' : Pass1State}
    (hpre : ("---").data.isPrefixOf line = true ∨
      ("+++").data.isPrefixOf line = true ∨ ("@@").data.isPrefixOf line = true)
    (h : pass1Step st line = .ok st') :
    st'.lastRemoved = st.lastRemoved := by
  unfold pass1Step at h
  split at h
  · injection h with h
    subst h
    rfl
  · next hA =>
    split at h
    · split at h
      · rename_i gs heq
        cases hv1 : pyInt gs.1 with
        | error e =>
          rw [hv1] at h
          have h2 : (Except.error e : Except String Pass1State) = .ok st' := h
          cases h2
        | ok v1 =>
          rw [exceptBindOk _ _ _ hv1] at h
          cases hv3 : pyInt gs.2 with
          | error e =>
            rw [hv3] at h
            have h2 : (Except.error e : Except String Pass1State) = .ok st' := h
            cases h2
          | ok v3 =>
            rw [exceptBindOk _ _ _ hv3] at h
            injection h with h
            subst h
            rfl
      · injection h with h
        subst h
        rfl
    · next hB =>
      rcases hpre with hp | hp | hp
      · exact absurd (show (("---").data.isPrefixOf line ||
          ("+++").data.isPrefixOf line) = true from by rw [hp]; rfl) hA
      · exact absurd (show (("---").data.isPrefixOf line ||
          ("+++").data.isPrefixOf line) = true from by
          rw [hp]; exact Bool.or_true _) hA
      · exact absurd hp hB

/-- Entries of one opcode are strictly ordered. -/
theorem opRL_pairwise (a b : List (List Char)) {c : Op} (hok : OpOk a b c) :
    List.Pairwise (fun e1 e2 : Int × RLVal => e1.1 < e2.1 ∧
      ∀ m1 m2, e1.2.1 = some m1 → e2.2.1 = some m2 → m1 < m2) (opRL a c) := by
  have hrange : ∀ (n s : Nat), List.Pairwise (fun i j : Nat => i < j)
      (List.range' s n) := by
    intro n
    induction n with
    | zero => intro s; exact List.Pairwise.nil
    | succ n ih =>
      intro s
      rw [List.range'_succ]
      refine List.Pairwise.cons ?_ (ih (s + 1))
      intro m hm
      have := mem_range'_bounds _ _ _ hm
      omega
  cases hct : c.tag
  · rw [opRL_equal a hct]
    exact List.Pairwise.nil
  · rw [opRL_replace a hct]
    obtain ⟨hlt1, hlt2⟩ := hok.2.2.2.2.2 hct
    rw [List.pairwise_append]
    refine ⟨?_, List.pairwise_singleton _ _, ?_⟩
    · rw [List.pairwise_map]
      refine (hrange _ _).imp ?_
      intro i j hij
      refine ⟨by show (i : Int) + 1 < (j : Int) + 1; omega, ?_⟩
      intro m1 m2 hm1 _
      exact absurd hm1 (by simp)
    · intro e he x hx
      rw [List.mem_singleton] at hx
      subst hx
      obtain ⟨i, hi, rfl⟩ := List.mem_map.mp he
      have := mem_range'_bounds _ _ _ hi
      refine ⟨by show (i : Int) + 1 < (c.i2 : Int); omega, ?_⟩
      intro m1 m2 hm1 _
      exact absurd hm1 (by simp)
  · rw [opRL_delete a hct]
    rw [List.pairwise_map]
    refine (hrange _ _).imp ?_
    intro i j hij
    refine ⟨by show (i : Int) + 1 < (j : Int) + 1; omega, ?_⟩
    intro m1 m2 hm1 _
    exact absurd hm1 (by simp)
  · rw [opRL_insert a hct]
    exact List.Pairwise.nil

/-- Entries of one opcode run are strictly ordered. -/
theorem opsRL_pairwise (a b : List (List Char)) :
    ∀ (ops : List Op) (i0 iend j0 jend : Nat),
      OpChain i0 iend j0 jend ops → (∀ c ∈ ops, OpOk a b c) →
      List.Pairwise (fun e1 e2 : Int × RLVal => e1.1 < e2.1 ∧
        ∀ m1 m2, e1.2.1 = some m1 → e2.2.1 = some m2 → m1 < m2)
        ((ops.map (opRL a)).flatten) := by
  intro ops
  induction ops with
  | nil => intro _ _ _ _ _ _; exact List.Pairwise.nil
  | cons c rest ih =>
    intro i0 iend j0 jend hch hok
    obtain ⟨e1, e2, hch'⟩ := hch
    have hokc := hok c (List.mem_cons_self c rest)
    rw [List.map_cons,
      show (opRL a c :: rest.map (opRL a)).flatten =
        opRL a c ++ (rest.map (opRL a)).flatten from rfl,
      List.pairwise_append]
    refine ⟨opRL_pairwise a b hokc,
      ih c.i2 iend c.j2 jend hch'
        (fun x hx => hok x (List.mem_cons_of_mem c hx)), ?_⟩
    intro x hx y hy
    have hxb := opRL_bounds a b hokc x hx
    have hyb := opsRL_bounds a b hch'
      (fun z hz => hok z (List.mem_cons_of_mem c hz)) y hy
    refine ⟨by have := hxb.1.2; have := hyb.1.1; omega, ?_⟩
    intro m1 m2 hm1 hm2
    have h1 := hxb.2 m1 hm1
    have h2 := hyb.2 m2 hm2
    omega

/-- Entries of the whole collected dictionary are strictly ordered: keys
increase, and so do the stored pair targets. -/
theorem groupsRL_pairwise (a b : List (List Char)) :
    ∀ (gs : List (List Op)) (f : Bool) (ip jp : Nat),
      GroupsChain a b f ip jp gs →
      List.Pairwise (fun e1 e2 : Int × RLVal => e1.1 < e2.1 ∧
        ∀ m1 m2, e1.2.1 = some m1 → e2.2.1 = some m2 → m1 < m2)
        (groupsRL a gs) := by
  intro gs
  induction gs with
  | nil => intro _ _ _ _; exact List.Pairwise.nil
  | cons g rest ih =>
    intro f ip jp hch
    obtain ⟨i0, iend, j0, jend, hip, hjp, hgok, _, hrest⟩ := hch
    rw [show groupsRL a (g :: rest) = groupRL a g ++ groupsRL a rest from rfl,
      List.pairwise_append]
    refine ⟨opsRL_pairwise a b g i0 iend j0 jend hgok.1 hgok.2.2.1,
      ih false iend jend hrest, ?_⟩
    intro x hx y hy
    have hxb := opsRL_bounds a b hgok.1 hgok.2.2.1 x hx
    have hyb := groupsRL_gt a b rest false iend jend hrest y hy
    refine ⟨by have := hxb.1.2; have := hyb.1; omega, ?_⟩
    intro m1 m2 hm1 hm2
    have h1 := (hxb.2 m1 hm1).2
    have h2 := hyb.2 m2 hm2
    omega

/-- The dictionary pass 1 actually computes from a no-skip input pair is
strictly ordered. -/
theorem pass1_result_pairwise (a b : List (List Char)) (ha : NoSkipA a)
    (hb : NoSkipB b) (st' : Pass1State)
    (hrun : (unifiedDiffLines a b).foldlM pass1Step ⟨0, 0, [], [], none⟩ =
      .ok st') :
    List.Pairwise (fun e1 e2 : Int × RLVal => e1.1 < e2.1 ∧
      ∀ m1 m2, e1.2.1 = some m1 → e2.2.1 = some m2 → m1 < m2)
      st'.removedLines := by
  cases hgs : getGroupedOpcodes a b 3 with
  | nil =>
    have hudl : unifiedDiffLines a b = [] := by
      unfold unifiedDiffLines
      rw [hgs]
    rw [hudl, foldlM_nil] at hrun
    injection hrun with hrun
    subst hrun
    exact List.Pairwise.nil
  | cons g0 rest =>
    have hudl : unifiedDiffLines a b = ("--- Original").data ::
        ("+++ Modified").data ::
        (((g0 :: rest).map (emitGroup a b)).flatten) := by
      unfold unifiedDiffLines
      rw [hgs]
    have hchain : GroupsChain a b true 0 0 (g0 :: rest) := by
      have := getGroupedOpcodes_groupsChain a b 3 (by omega)
      rw [hgs] at this
      exact this
    obtain ⟨p1, hrun1, hrl⟩ := pass1_groups a b ha hb (g0 :: rest) true 0 0
      ⟨0, 0, [], [], none⟩ hchain
      (fun e he => absurd he (List.not_mem_nil e)) (fun _ => rfl)
    have hfull : (unifiedDiffLines a b).foldlM pass1Step ⟨0, 0, [], [], none⟩ =
        .ok p1 := by
      rw [hudl, foldlM_cons, exceptBindOk _ _ _ (pass1Step_skipHeader1 _),
        foldlM_cons, exceptBindOk _ _ _ (pass1Step_skipHeader2 _)]
      exact hrun1
    rw [hfull] at hrun
    injection hrun with hrun
    subst hrun
    have hrl' : p1.removedLines = groupsRL a (g0 :: rest) := by
      rw [hrl]
      exact List.nil_append _
    rw [hrl']
    exact groupsRL_pairwise a b (g0 :: rest) true 0 0 hchain

/-! ## Claims -/

/-- C1 (counterexample): replaying the rows of `render_diff` does not
reconstruct the inputs.  With eight-line files differing only in the last
line, the unified diff keeps just three context lines around the change, so
the new-side replay yields four lines, not the eight lines of `B`. -/
theorem c1_counterexample :
    replayNew (renderDiff ("1\n2\n3\n4\n5\n6\n7\nX\n") ("1\n2\n3\n4\n5\n6\n7\nY\n")) ≠
      pySplitlines ("1\n2\n3\n4\n5\n6\n7\nY\n").data := by
  decide

/-- C1 (amended): replaying the rows reconstructs, hunk by hunk, exactly the
slices of the two inputs that the emitted hunks cover — lines outside the
three-line context windows of `unified_diff` appear in no row — provided no
original line begins with `--` and no modified line begins with `++` (such
lines are skipped as file headers and vanish, see the counterexample).
Replaying context and removed/paired-"old" content yields the original-side
hunk slices in order, and context and added/paired-"new" content the
modified-side hunk slices. -/
theorem c1_amended (A B : String)
    (ha : NoSkipA (pySplitlines A.data)) (hb : NoSkipB (pySplitlines B.data)) :
    replayOld (renderDiff A B) =
      ((getGroupedOpcodes (pySplitlines A.data) (pySplitlines B.data) 3).map
        (groupSliceOld (pySplitlines A.data))).flatten ∧
    replayNew (renderDiff A B) =
      ((getGroupedOpcodes (pySplitlines A.data) (pySplitlines B.data) 3).map
        (groupSliceNew (pySplitlines B.data))).flatten := by
  obtain ⟨rows, hpd, ho, hn⟩ := processDiff_rows (pySplitlines A.data)
    (pySplitlines B.data) ha hb
  have hrd : renderDiff A B = rows := by
    rw [renderDiff, createDiffView, hpd]
  rw [hrd]
  exact ⟨ho, hn⟩

/-- C1 witness: at a concrete input pair the replays reconstruct the hunk
slices. -/
theorem c1_witness :
    replayOld (renderDiff "a\nz\n" "b\nz\n") =
      ((getGroupedOpcodes (pySplitlines ("a\nz\n").data)
          (pySplitlines ("b\nz\n").data) 3).map
        (groupSliceOld (pySplitlines ("a\nz\n").data))).flatten ∧
    replayNew (renderDiff "a\nz\n" "b\nz\n") =
      ((getGroupedOpcodes (pySplitlines ("a\nz\n").data)
          (pySplitlines ("b\nz\n").data) 3).map
        (groupSliceNew (pySplitlines ("b\nz\n").data))).flatten :=
  c1_amended "a\nz\n" "b\nz\n"
    (by show ∀ la ∈ pySplitlines ("a\nz\n").data,
      ("--").data.isPrefixOf la = false; decide)
    (by show ∀ lb ∈ pySplitlines ("b\nz\n").data,
      ("++").data.isPrefixOf lb = false; decide)

/-- C2: for every text `T`, `create_diff_view(T, T)` yields exactly the single
empty-notice row ("No differences found") — never an empty row sequence and
never additional rows; and more generally, any call whose unified line diff
is empty yields exactly that single row. -/
theorem c2_empty_notice :
    (∀ T : String, createDiffView T T = Except.ok [Row.emptyNotice]) ∧
    (∀ A B : String,
      unifiedDiffLines (pySplitlines A.data) (pySplitlines B.data) = [] →
      createDiffView A B = Except.ok [Row.emptyNotice]) := by
  constructor
  · intro T
    rw [createDiffView, unifiedDiffLines_self]
    rfl
  · intro A B h
    rw [createDiffView, h]
    rfl

/-- C2 witness: a concrete call with an empty line diff (identical one-line
inputs) returns exactly the empty-notice row. -/
theorem c2_witness :
    createDiffView "q\n" "q\n" = Except.ok [Row.emptyNotice] :=
  c2_empty_notice.2 "q\n" "q\n" (by decide)

/-- C3 (counterexample): the paired-replace row produced for the line pair
`"b\n"` → `"x\n"` (scenario `A = "a\nb\nc\n"`, `B = "a\nx\nc\n"`) has
deleted-styled spans concatenating to `"b"`, not to the corresponding
original line `"b\n"`: the unstyled span holding the common trailing newline
is part of neither the deleted-styled nor the inserted-styled text. -/
theorem c3_counterexample :
    renderDiff ("a\nb\nc\n") ("a\nx\nc\n") =
      [.context ['1'] ['a', '\n'],
       .paired ['+', '2'] (highlightWordDiff ['b', '\n'] ['x', '\n']),
       .context ['3'] ['c', '\n']] ∧
    deletedConcat (highlightWordDiff ['b', '\n'] ['x', '\n']) = ['b'] ∧
    (['b'] : List Char) ≠ ['b', '\n'] := by
  refine ⟨by decide, by decide, by decide⟩

/-- C3 (amended): the content of a paired-replace row is, by construction,
`highlight_word_diff` applied to the paired original and modified lines; for
every such pair of lines the unstyled and deleted-styled spans concatenate
exactly to the original line, and the unstyled and inserted-styled spans
concatenate exactly to the modified line, with separator spans excluded from
both concatenations. -/
theorem c3_amended (oldLine newLine : List Char) :
    oldSide (highlightWordDiff oldLine newLine) = oldLine ∧
    newSide (highlightWordDiff oldLine newLine) = newLine :=
  highlightWordDiff_sides oldLine newLine

/-- C4 (counterexample): a pairing is not only created when an insert line
immediately follows a delete line with no other line kind intervening.  For
`A = "a\n--b\nz\n"`, `B = "c\nz\n"` the unified diff reads
`-a`, `---b`, `+c`, ` z`: between the delete line `-a` and the insert line
`+c` sits the delete line `---b` (the removed line whose text begins with
`--`), yet the walk pairs `a` with `c` — the skipped line does not break the
pairing, because skipped lines leave `last_removed_line` untouched. -/
theorem c4_counterexample :
    unifiedDiffLines (pySplitlines ("a\n--b\nz\n").data) (pySplitlines ("c\nz\n").data) =
      [("--- Original").data, ("+++ Modified").data, ("@@ -1,3 +1,2 @@").data,
       ("-a\n").data, ("---b\n").data, ("+c\n").data, (" z\n").data] ∧
    renderDiff "a\n--b\nz\n" "c\nz\n" =
      [.paired ['+', '1'] (highlightWordDiff ['a', '\n'] ['c', '\n']),
       .context ['2'] ['z', '\n']] := by
  refine ⟨by decide, by decide⟩

/-- C4 (amended): (i) each removed line is paired with at most one added
line — the dictionary built by the first pass has pairwise-distinct keys for
every diff line stream; (ii) when no original line begins with `--` and no
modified line begins with `++`, each added line is paired with at most one
removed line — the stored pair targets are strictly increasing along the
dictionary; (iii) a pairing is created only while processing a `+` line with
a pending removed line; (iv) but adjacency in the diff stream is not
required: skipped `---`/`+++` lines and hunk headers leave the pending
removed line untouched, so other line kinds can intervene (see the
counterexample). -/
theorem c4_amended :
    (∀ (diff : List (List Char)) (st' : Pass1State),
      diff.foldlM pass1Step ⟨0, 0, [], [], none⟩ = .ok st' →
      List.Pairwise (fun e1 e2 : Int × RLVal => e1.1 ≠ e2.1)
        st'.removedLines) ∧
    (∀ (a b : List (List Char)) (st' : Pass1State), NoSkipA a → NoSkipB b →
      (unifiedDiffLines a b).foldlM pass1Step ⟨0, 0, [], [], none⟩ = .ok st' →
      List.Pairwise (fun e1 e2 : Int × RLVal => e1.1 < e2.1 ∧
        ∀ m1 m2, e1.2.1 = some m1 → e2.2.1 = some m2 → m1 < m2)
        st'.removedLines) ∧
    (∀ (st : Pass1State) (line : List Char) (st' : Pass1State),
      pass1Step st line = .ok st' →
      ("+").data.isPrefixOf line = false ∨ st.lastRemoved = none →
      ∀ e ∈ st'.removedLines, ∀ m, e.2.1 = some m → e ∈ st.removedLines) ∧
    (∀ (st : Pass1State) (line : List Char) (st' : Pass1State),
      (("---").data.isPrefixOf line = true ∨
        ("+++").data.isPrefixOf line = true ∨
        ("@@").data.isPrefixOf line = true) →
      pass1Step st line = .ok st' →
      st'.lastRemoved = st.lastRemoved) := by
  refine ⟨?_, ?_, ?_, ?_⟩
  · intro diff st' h
    exact pass1_foldlM_nodup diff _ st' List.Pairwise.nil h
  · intro a b st' ha hb h
    exact pass1_result_pairwise a b ha hb st' h
  · intro st line st' h hnp
    exact pass1Step_pairOnly h hnp
  · intro st line st' hpre h
    exact pass1Step_keepPending hpre h

/-- C5 (counterexample): in a hunk with three delete lines followed by one
insert line (`A = "p\nq\n--r\nz\n"`, `B = "s\nz\n"`, diff body `-p`, `-q`,
`---r`, `+s`, ` z`) the pairing is not formed between the last delete and the
first insert: the last delete line `---r` is discarded by the `---` skip, so
`q` (the second delete) pairs with `s`, the removed line `--r` produces no
row at all, and only `p` renders as an independent removed row. -/
theorem c5_counterexample :
    unifiedDiffLines (pySplitlines ("p\nq\n--r\nz\n").data)
        (pySplitlines ("s\nz\n").data) =
      [("--- Original").data, ("+++ Modified").data, ("@@ -1,4 +1,2 @@").data,
       ("-p\n").data, ("-q\n").data, ("---r\n").data, ("+s\n").data, (" z\n").data] ∧
    renderDiff "p\nq\n--r\nz\n" "s\nz\n" =
      [.removed ['-', '1'] ['p', '\n'],
       .paired ['+', '1'] (highlightWordDiff ['q', '\n'] ['s', '\n']),
       .context ['3'] ['z', '\n']] := by
  refine ⟨by decide, by decide⟩

/-- C5 (amended): when no original line begins with `--` and no modified
line begins with `++`, every replace opcode — a hunk block of N delete lines
followed by M insert lines — renders as a contiguous block of rows: the
first N−1 deletes as independent removed rows, then exactly one paired row
joining the last delete to the first insert, then the remaining M−1 inserts
as independent added rows. -/
theorem c5_amended (A B : String)
    (ha : NoSkipA (pySplitlines A.data)) (hb : NoSkipB (pySplitlines B.data))
    {g : List Op} {c : Op}
    (hg : g ∈ getGroupedOpcodes (pySplitlines A.data) (pySplitlines B.data) 3)
    (hc : c ∈ g) (hrep : c.tag = Tag.replace) :
    ∃ pre post, renderDiff A B = pre ++
      ((List.range' c.i1 (c.i2 - c.i1 - 1)).map
        (fun i : Nat => Row.removed ('-' :: intToChars ((i : Int) + 1))
          (aline (pySplitlines A.data) i)) ++
       Row.paired ('+' :: intToChars ((c.j1 : Int) + 1))
         (highlightWordDiff (aline (pySplitlines A.data) (c.i2 - 1))
           (aline (pySplitlines B.data) c.j1)) ::
       (List.range' (c.j1 + 1) (c.j2 - c.j1 - 1)).map
         (fun j : Nat => Row.added ('+' :: intToChars ((j : Int) + 1))
           (aline (pySplitlines B.data) j))) ++ post := by
  cases hgs : getGroupedOpcodes (pySplitlines A.data) (pySplitlines B.data) 3 with
  | nil =>
    rw [hgs] at hg
    cases hg
  | cons g0 rest =>
    have hmaster := processDiff_groups (pySplitlines A.data)
      (pySplitlines B.data) ha hb hgs
    have hrd : renderDiff A B =
        groupsRows (pySplitlines A.data) (pySplitlines B.data) (g0 :: rest) := by
      rw [renderDiff, createDiffView, hmaster]
    rw [hgs] at hg
    obtain ⟨gs1, gs2, hsplit⟩ := List.append_of_mem hg
    obtain ⟨ops1, ops2, hsplit2⟩ := List.append_of_mem hc
    refine ⟨groupsRows (pySplitlines A.data) (pySplitlines B.data) gs1 ++
        ((ops1.map (opRows (pySplitlines A.data) (pySplitlines B.data))).flatten),
      ((ops2.map (opRows (pySplitlines A.data) (pySplitlines B.data))).flatten) ++
        groupsRows (pySplitlines A.data) (pySplitlines B.data) gs2, ?_⟩
    rw [hrd, hsplit]
    show (((gs1 ++ g :: gs2).map
      (groupRows (pySplitlines A.data) (pySplitlines B.data))).flatten) = _
    rw [List.map_append, List.flatten_append, List.map_cons,
      show (groupRows (pySplitlines A.data) (pySplitlines B.data) g ::
          gs2.map (groupRows (pySplitlines A.data) (pySplitlines B.data))).flatten =
        groupRows (pySplitlines A.data) (pySplitlines B.data) g ++
          (gs2.map (groupRows (pySplitlines A.data)
            (pySplitlines B.data))).flatten from rfl]
    rw [show groupRows (pySplitlines A.data) (pySplitlines B.data) g =
      ((g.map (opRows (pySplitlines A.data) (pySplitlines B.data))).flatten)
      from rfl]
    rw [hsplit2, List.map_append, List.flatten_append, List.map_cons,
      show (opRows (pySplitlines A.data) (pySplitlines B.data) c ::
          ops2.map (opRows (pySplitlines A.data) (pySplitlines B.data))).flatten =
        opRows (pySplitlines A.data) (pySplitlines B.data) c ++
          (ops2.map (opRows (pySplitlines A.data)
            (pySplitlines B.data))).flatten from rfl]
    rw [opRows_replace (pySplitlines A.data) (pySplitlines B.data) hrep]
    simp only [List.append_assoc]
    rfl

/-- C5 witness: at a concrete input pair with a one-for-one replace block,
the rows contain the paired row joining the delete to the insert. -/
theorem c5_witness :
    ∃ pre post, renderDiff "a\nz\n" "b\nz\n" = pre ++
      ((List.range' 0 (1 - 0 - 1)).map
        (fun i : Nat => Row.removed ('-' :: intToChars ((i : Int) + 1))
          (aline (pySplitlines ("a\nz\n").data) i)) ++
       Row.paired ('+' :: intToChars (((0 : Nat) : Int) + 1))
         (highlightWordDiff (aline (pySplitlines ("a\nz\n").data) (1 - 1))
           (aline (pySplitlines ("b\nz\n").data) 0)) ::
       (List.range' (0 + 1) (1 - 0 - 1)).map
         (fun j : Nat => Row.added ('+' :: intToChars ((j : Int) + 1))
           (aline (pySplitlines ("b\nz\n").data) j))) ++ post :=
  c5_amended "a\nz\n" "b\nz\n"
    (by show ∀ la ∈ pySplitlines ("a\nz\n").data,
      ("--").data.isPrefixOf la = false; decide)
    (by show ∀ lb ∈ pySplitlines ("b\nz\n").data,
      ("++").data.isPrefixOf lb = false; decide)
    (g := [⟨Tag.replace, 0, 1, 0, 1⟩, ⟨Tag.equal, 1, 2, 1, 2⟩])
    (c := ⟨Tag.replace, 0, 1, 0, 1⟩) (by decide) (by decide) rfl

/-- C6 (counterexample): at `A = "a\nb\nc\n"`, `B = "a\nx\nc\n"` the paired
row's content is not exactly the span sequence
`[delete "b", separator, insert "x"]`: it carries a fourth, unstyled span
holding the common trailing newline. -/
theorem c6_counterexample :
    createDiffView ("a\nb\nc\n") ("a\nx\nc\n") =
      .ok [.context ['1'] ['a', '\n'],
           .paired ['+', '2']
             [⟨['b'], .deleted⟩, ⟨sepText, .sep⟩, ⟨['x'], .inserted⟩,
              ⟨['\n'], .noStyle⟩],
           .context ['3'] ['c', '\n']] ∧
    ([⟨['b'], .deleted⟩, ⟨sepText, .sep⟩, ⟨['x'], .inserted⟩,
      ⟨['\n'], .noStyle⟩] : List Span) ≠
      [⟨['b'], .deleted⟩, ⟨sepText, .sep⟩, ⟨['x'], .inserted⟩] := by
  refine ⟨by decide, by decide⟩

/-- C6 (amended): `render_diff("a\nb\nc\n", "a\nx\nc\n")` yields exactly
three rows in order — a context row for line `a`, a paired-replace row
pairing `b` to `x` whose content is the span sequence
`[delete "b", separator, insert "x", equal "\n"]` (the common trailing
newline remains as an unstyled span), and a context row for line `c`. -/
theorem c6_amended :
    createDiffView ("a\nb\nc\n") ("a\nx\nc\n") =
      .ok [.context ['1'] ['a', '\n'],
           .paired ['+', '2']
             [⟨['b'], .deleted⟩, ⟨sepText, .sep⟩, ⟨['x'], .inserted⟩,
              ⟨['\n'], .noStyle⟩],
           .context ['3'] ['c', '\n']] := by
  decide

/-- C7 (counterexample): `highlight_word_diff("foo_bar", "foo_baz")` does not
produce exactly `[equal "foo_ba", delete "r", insert "z"]`: the replace
opcode also emits the bold separator span between the deleted and inserted
halves. -/
theorem c7_counterexample :
    highlightWordDiff ("foo_bar").data ("foo_baz").data =
      [⟨("foo_ba").data, .noStyle⟩, ⟨['r'], .deleted⟩, ⟨sepText, .sep⟩,
       ⟨['z'], .inserted⟩] ∧
    ([⟨("foo_ba").data, .noStyle⟩, ⟨['r'], .deleted⟩, ⟨sepText, .sep⟩,
      ⟨['z'], .inserted⟩] : List Span) ≠
      [⟨("foo_ba").data, .noStyle⟩, ⟨['r'], .deleted⟩, ⟨['z'], .inserted⟩] := by
  refine ⟨by decide, by decide⟩

/-- C7 (amended): `highlight_word_diff("foo_bar", "foo_baz")` yields exactly
`[equal "foo_ba", delete "r", separator, insert "z"]` — the shared prefix is
kept as a single unstyled span, so the line is not marked as replaced in its
entirety. -/
theorem c7_amended :
    highlightWordDiff ("foo_bar").data ("foo_baz").data =
      [⟨("foo_ba").data, .noStyle⟩, ⟨['r'], .deleted⟩, ⟨sepText, .sep⟩,
       ⟨['z'], .inserted⟩] := by
  decide

/-- C8: `highlight_word_diff` is deterministic — the embedding is a pure
function of the two lines, with no other input (no randomness, no global
state), so any two results of the same call coincide. -/
theorem c8_deterministic (oldLine newLine : List Char) (r1 r2 : List Span)
    (h1 : highlightWordDiff oldLine newLine = r1)
    (h2 : highlightWordDiff oldLine newLine = r2) : r1 = r2 := by
  rw [← h1, ← h2]

/-- Witness for C8 at a concrete input. -/
theorem c8_witness :
    highlightWordDiff ['a'] ['b'] = highlightWordDiff ['a'] ['b'] :=
  c8_deterministic ['a'] ['b'] (highlightWordDiff ['a'] ['b'])
    (highlightWordDiff ['a'] ['b']) rfl rfl

/-- C9: `render_diff` is total over string inputs — for every pair of
strings (including empty strings, single characters, and whitespace- or
terminator-only strings) `create_diff_view` returns a well-defined row
sequence and never raises: the one fallible operation the code performs,
`int()` on a regex capture, always receives a nonempty digit string. -/
theorem c9_total (original modified : String) :
    ∃ rows, createDiffView original modified = .ok rows := by
  rw [createDiffView, processDiff]
  split
  · exact ⟨[.emptyNotice], rfl⟩
  · obtain ⟨p1, h1⟩ := foldlM_ok pass1Step pass1Step_ok
      (unifiedDiffLines (pySplitlines original.data) (pySplitlines modified.data))
      ⟨0, 0, [], [], none⟩
    obtain ⟨p2, h2⟩ := foldlM_ok (pass2Step p1.removedLines) (pass2Step_ok _)
      (unifiedDiffLines (pySplitlines original.data) (pySplitlines modified.data))
      ⟨0, 0, []⟩
    refine ⟨p2.rows, ?_⟩
    rw [exceptBindOk _ _ _ h1, exceptBindOk _ _ _ h2]

/-- C10: both passes of `create_diff_view` discard every diff line beginning
with `---` or `+++` wherever it occurs — the state (rows and both counters)
is returned unchanged.  Consequently a removed line whose own text begins
with `--` produces no output row and does not advance the counters: for
`A = "a\n--x\nb\n"`, `B = "a\nb\n"` the diff body line `---x` vanishes and
the following context line is labelled `2` instead of `3`. -/
theorem c10_skip :
    (∀ (st : Pass1State) (line : List Char),
        (("---").data.isPrefixOf line || ("+++").data.isPrefixOf line) = true →
        pass1Step st line = .ok st) ∧
    (∀ (rl : List (Int × RLVal)) (st : Pass2State) (line : List Char),
        (("---").data.isPrefixOf line || ("+++").data.isPrefixOf line) = true →
        pass2Step rl st line = .ok st) ∧
    createDiffView ("a\n--x\nb\n") ("a\nb\n") =
      .ok [.context ['1'] ['a', '\n'], .context ['2'] ['b', '\n']] := by
  refine ⟨?_, ?_, by decide⟩
  · intro st line h
    rw [pass1Step, if_pos h]
  · intro rl st line h
    rw [pass2Step, if_pos h]

/-- Witness for C10 at concrete skipped lines. -/
theorem c10_witness :
    pass1Step ⟨0, 0, [], [], none⟩ ("---x").data = .ok ⟨0, 0, [], [], none⟩ ∧
    pass2Step [] ⟨0, 0, []⟩ ("+++y").data = .ok ⟨0, 0, []⟩ :=
  ⟨c10_skip.1 _ _ (by decide), c10_skip.2.1 _ _ _ (by decide)⟩

end CodeEdit
